import Mathlib

/-!
# XML encoder of `yqlib` (`pkg/yqlib/encoder_xml.go`)

A shallow embedding of the XML encoder.  The document tree is `yaml.Node`
(kind, tag, value and the flat `Content` slice).  The `*xml.Encoder` of the Go
standard library is outside the package: it is represented by the trace of
tokens handed to `EncodeToken`, in call order, together with the verdicts
(`nil` or an error) that the library returns for each call.
-/

set_option linter.dupNamespace false

namespace Yqlib

/-! ## Data model -/

/-- The node kinds of `yaml.v3`; `InvalidKind` stands for every other value of
the `Kind` field (the zero value included). -/
inductive Kind where
  | DocumentNode
  | SequenceNode
  | MappingNode
  | ScalarNode
  | AliasNode
  | InvalidKind
  deriving DecidableEq

/-- The fields of `yaml.Node` that the encoder reads.  `Content` is the flat
slice of children: for a mapping it alternates keys and values. -/
inductive Node where
  | mk (Kind : Kind) (Tag : String) (Value : String) (Content : List Node)

namespace Node

/-- Field `Kind` of a node. -/
def Kind : Node → Yqlib.Kind
  | mk k _ _ _ => k

/-- Field `Tag` of a node. -/
def Tag : Node → String
  | mk _ t _ _ => t

/-- Field `Value` of a node. -/
def Value : Node → String
  | mk _ _ v _ => v

/-- Field `Content` of a node. -/
def Content : Node → List Node
  | mk _ _ _ c => c

end Node

/-- The type `xml.Name`. -/
structure Name where
  Space : String := ""
  Local : String
  deriving DecidableEq

/-- The type `xml.Attr`. -/
structure Attr where
  Name : Name
  Value : String
  deriving DecidableEq

/-- The type `xml.StartElement`. -/
structure StartElement where
  Name : Name
  Attr : List Attr := []
  deriving DecidableEq

/-- The type `xml.EndElement`. -/
structure EndElement where
  Name : Name
  deriving DecidableEq

/-- The method `StartElement.Copy`: the same element with a fresh attribute slice. -/
def StartElement.Copy (s : StartElement) : StartElement :=
  { Name := s.Name, Attr := s.Attr }

/-- The method `StartElement.End`: the end tag matching a start tag. -/
def StartElement.End (s : StartElement) : EndElement :=
  { Name := s.Name }

/-- The tokens the encoder hands to `EncodeToken`. -/
inductive Token where
  | StartElement (s : StartElement)
  | EndElement (n : EndElement)
  | CharData (d : String)
  deriving DecidableEq

/-- How a call ends when it does not return `nil`. -/
inductive EncodeError where
  /-- The error `unsupported type <tag>`. -/
  | unsupportedType (tag : String)
  /-- The error `cannot use <tag> as attribute, only scalars are supported`. -/
  | attributeNotScalar (tag : String)
  /-- An error returned by the underlying `xml.Encoder`. -/
  | writer (msg : String)
  /-- The run-time panic of `node.Content[i+1]` on a mapping with a dangling key. -/
  | indexOutOfRange
  deriving DecidableEq

/-- Behaviour of the underlying `*xml.Encoder`: for the tokens handed over so
far and the next token, the error `EncodeToken` returns (`none` for `nil`), and
likewise for `Flush`. -/
structure XmlWriter where
  EncodeTokenErr : List Token → Token → Option String
  FlushErr : List Token → Option String

/-- The struct `xmlEncoder`. -/
structure xmlEncoder where
  xmlEncoder : XmlWriter
  attributePrefix : String
  contentName : String

/-- The trace of tokens handed to `EncodeToken` so far, and the error of the
call (`none` for `nil`). -/
abbrev Outcome := List Token × Option EncodeError

/-! ## String helpers of package `strings` -/

/-- The function `strings.HasPrefix`. -/
def HasPrefix (s p : String) : Bool :=
  p.data.isPrefixOf s.data

/-- Replacement of the first occurrence of `old` in `s` by `new`, on characters. -/
def replaceFirst (old new : List Char) : List Char → List Char
  | [] => if old = [] then new else []
  | c :: cs =>
    if old.isPrefixOf (c :: cs) then new ++ (c :: cs).drop old.length
    else c :: replaceFirst old new cs

/-- The call `strings.Replace(s, old, new, 1)`. -/
def Replace1 (s old new : String) : String :=
  ⟨replaceFirst old.data new.data s.data⟩

/-! ## The encoder -/

/-- The call `e.xmlEncoder.EncodeToken(t)`: the token is handed over, and the
library returns its verdict. -/
def EncodeToken (w : XmlWriter) (tr : List Token) (t : Token) : Outcome :=
  (tr ++ [t], (w.EncodeTokenErr tr t).map EncodeError.writer)

/-- The call `e.xmlEncoder.Flush()`. -/
def Flush (w : XmlWriter) (tr : List Token) : Outcome :=
  (tr, (w.FlushErr tr).map EncodeError.writer)

/-- First loop of `encodeMap`: the attributes are put on the start token. -/
def encodeMapAttrs (e : xmlEncoder) : List Node → StartElement → Except EncodeError StartElement
  | [], start => .ok start
  | [_], _ => .error .indexOutOfRange
  | key :: value :: rest, start =>
    if HasPrefix key.Value e.attributePrefix && key.Value != e.contentName then
      if value.Kind = .ScalarNode then
        let attributeName := Replace1 key.Value e.attributePrefix ""
        encodeMapAttrs e rest
          { start with Attr := start.Attr ++ [{ Name := { Local := attributeName }, Value := value.Value }] }
      else
        .error (.attributeNotScalar value.Tag)
    else
      encodeMapAttrs e rest start

mutual

/-- The method `doEncode`; the mapping case is the body of `encodeMap` and the
sequence case the body of `encodeArray` (see `doEncode_eq`). -/
def doEncode (e : xmlEncoder) : Node → StartElement → List Token → Outcome
  | .mk kind tag value content, start, tr =>
    match kind with
    | .MappingNode =>
      match encodeMapAttrs e content start with
      | .error err => (tr, some err)
      | .ok start =>
        match EncodeToken e.xmlEncoder tr (.StartElement start) with
        | (tr, some err) => (tr, some err)
        | (tr, none) =>
          match encodeMapBody e content tr with
          | (tr, some err) => (tr, some err)
          | (tr, none) => EncodeToken e.xmlEncoder tr (.EndElement start.End)
    | .SequenceNode => encodeArrayLoop e content start tr
    | .ScalarNode =>
      match EncodeToken e.xmlEncoder tr (.StartElement start) with
      | (tr, some err) => (tr, some err)
      | (tr, none) =>
        match EncodeToken e.xmlEncoder tr (.CharData value) with
        | (tr, some err) => (tr, some err)
        | (tr, none) => EncodeToken e.xmlEncoder tr (.EndElement start.End)
    | _ => (tr, some (.unsupportedType tag))

/-- The loop of `encodeArray` over the remaining items. -/
def encodeArrayLoop (e : xmlEncoder) : List Node → StartElement → List Token → Outcome
  | [], _, tr => (tr, none)
  | value :: rest, start, tr =>
    match doEncode e value start.Copy tr with
    | (tr, some err) => (tr, some err)
    | (tr, none) => encodeArrayLoop e rest start tr

/-- Second loop of `encodeMap` over the remaining entries: the non attribute tokens. -/
def encodeMapBody (e : xmlEncoder) : List Node → List Token → Outcome
  | [], tr => (tr, none)
  | [_], tr => (tr, some .indexOutOfRange)
  | key :: value :: rest, tr =>
    if !HasPrefix key.Value e.attributePrefix && key.Value != e.contentName then
      match doEncode e value { Name := { Local := key.Value } } tr with
      | (tr, some err) => (tr, some err)
      | (tr, none) => encodeMapBody e rest tr
    else if key.Value = e.contentName then
      match EncodeToken e.xmlEncoder tr (.CharData value.Value) with
      | (tr, some err) => (tr, some err)
      | (tr, none) => encodeMapBody e rest tr
    else
      encodeMapBody e rest tr

end

/-- The method `encodeArray`. -/
def encodeArray (e : xmlEncoder) (node : Node) (start : StartElement) (tr : List Token) : Outcome :=
  encodeArrayLoop e node.Content start tr

/-- The method `encodeMap`. -/
def encodeMap (e : xmlEncoder) (node : Node) (start : StartElement) (tr : List Token) : Outcome :=
  match encodeMapAttrs e node.Content start with
  | .error err => (tr, some err)
  | .ok start =>
    match EncodeToken e.xmlEncoder tr (.StartElement start) with
    | (tr, some err) => (tr, some err)
    | (tr, none) =>
      match encodeMapBody e node.Content tr with
      | (tr, some err) => (tr, some err)
      | (tr, none) => EncodeToken e.xmlEncoder tr (.EndElement start.End)

/-- The loop of `encodeTopLevelMap` over the remaining entries. -/
def encodeTopLevelMapLoop (e : xmlEncoder) : List Node → List Token → Outcome
  | [], tr => (tr, none)
  | [_], tr => (tr, some .indexOutOfRange)
  | key :: value :: rest, tr =>
    match doEncode e value { Name := { Local := key.Value } } tr with
    | (tr, some err) => (tr, some err)
    | (tr, none) => encodeTopLevelMapLoop e rest tr

/-- The method `encodeTopLevelMap`. -/
def encodeTopLevelMap (e : xmlEncoder) (node : Node) (tr : List Token) : Outcome :=
  encodeTopLevelMapLoop e node.Content tr

/-- The method `Encode`.  The helper `unwrapDoc` is defined elsewhere in the
package and is a parameter; the recursion on a document node is bounded by
`fuel`, and `none` means the bound was reached.  On a mapping, a scalar and
every other kind but a document the result does not depend on `fuel`. -/
def Encode (e : xmlEncoder) (unwrapDoc : Node → Node) : Nat → Node → List Token → Option Outcome
  | fuel, node, tr =>
    match node.Kind with
    | .MappingNode =>
      match encodeTopLevelMap e node tr with
      | (tr, some err) => some (tr, some err)
      | (tr, none) =>
        match EncodeToken e.xmlEncoder tr (.CharData "\n") with
        | (tr, some err) => some (tr, some err)
        | (tr, none) => some (Flush e.xmlEncoder tr)
    | .DocumentNode =>
      match fuel with
      | 0 => none
      | fuel + 1 => Encode e unwrapDoc fuel (unwrapDoc node) tr
    | .ScalarNode =>
      match EncodeToken e.xmlEncoder tr (.CharData node.Value) with
      | (tr, some err) => some (tr, some err)
      | (tr, none) => some (Flush e.xmlEncoder tr)
    | _ => some (tr, some (.unsupportedType node.Tag))

/-- The writer that accepts every token. -/
def okWriter : XmlWriter :=
  { EncodeTokenErr := fun _ _ => none, FlushErr := fun _ => none }

/-- The same encoder configuration over the writer that accepts every token. -/
def ideal (e : xmlEncoder) : xmlEncoder :=
  { e with xmlEncoder := okWriter }

/-- The key and value pairs of a flat mapping content; a dangling key is left out. -/
def entries : List Node → List (Node × Node)
  | key :: value :: rest => (key, value) :: entries rest
  | _ => []

/-- The flat content of a list of key and value pairs. -/
def flat : List (Node × Node) → List Node
  | [] => []
  | (key, value) :: rest => key :: value :: flat rest

/-- A key is attribute-bound: it has the attribute prefix and is not the content name. -/
def isAttrKey (e : xmlEncoder) (key : Node) : Bool :=
  HasPrefix key.Value e.attributePrefix && key.Value != e.contentName

/-- A key names a child element: it has no attribute prefix and is not the content name. -/
def isBodyKey (e : xmlEncoder) (key : Node) : Bool :=
  !HasPrefix key.Value e.attributePrefix && key.Value != e.contentName

/-- The tokens `doEncode` hands over for a node under a start element when the
writer accepts every token. -/
def elementTokens (e : xmlEncoder) (node : Node) (start : StartElement) : List Token :=
  (doEncode (ideal e) node start []).1

/-- The call `doEncode` returns `nil` when the writer accepts every token. -/
def Succeeds (e : xmlEncoder) (node : Node) (start : StartElement) : Prop :=
  (doEncode (ideal e) node start []).2 = none

instance (e : xmlEncoder) (node : Node) (start : StartElement) : Decidable (Succeeds e node start) :=
  inferInstanceAs (Decidable ((doEncode (ideal e) node start []).2 = none))

/-- The key with the attribute prefix removed from its front. -/
def attributeName (e : xmlEncoder) (key : Node) : String :=
  ⟨key.Value.data.drop e.attributePrefix.data.length⟩

/-- The attributes of a mapping element: one for each attribute-bound entry, in
insertion order, named by the key without the prefix and holding the value's text. -/
def attributes (e : xmlEncoder) (es : List (Node × Node)) : List Attr :=
  es.filterMap fun kv =>
    if isAttrKey e kv.1 then
      some { Name := { Local := attributeName e kv.1 }, Value := kv.2.Value }
    else none

/-- The tokens of one mapping entry in the body of its element: the child
element for a body key, one character-data token for the content key, nothing
for an attribute-bound key. -/
def entryTokens (e : xmlEncoder) (kv : Node × Node) : List Token :=
  if isBodyKey e kv.1 then elementTokens e kv.2 { Name := { Local := kv.1.Value } }
  else if kv.1.Value = e.contentName then [.CharData kv.2.Value]
  else []

/-- The start tags of a token list that are opened at nesting depth zero, when
the list is read from nesting depth `d`. -/
def topStarts : Nat → List Token → List StartElement
  | _, [] => []
  | d, .StartElement s :: ts => if d = 0 then s :: topStarts 1 ts else topStarts (d + 1) ts
  | d, .EndElement _ :: ts => topStarts (d - 1) ts
  | d, .CharData _ :: ts => topStarts d ts

/-- Sequencing of two steps: the second runs only when the first returned `nil`. -/
def andThen (o : Outcome) (k : List Token → Outcome) : Outcome :=
  match o with
  | (tr, some err) => (tr, some err)
  | (tr, none) => k tr

/-- A call from `tr` to `tr1` that returned `nil` handed over the tokens `d`,
and so does the same call on the accepting writer from every trace. -/
def SameAsIdeal (run ideal_run : List Token → Outcome) : Prop :=
  ∀ tr tr1, run tr = (tr1, none) →
    ∃ d, tr1 = tr ++ d ∧ ∀ tr0, ideal_run tr0 = (tr0 ++ d, none)

/-- The start tag of a mapping element: the given start element with the
attributes of the attribute-bound entries appended. -/
def mapStart (e : xmlEncoder) (c : List Node) (s : StartElement) : StartElement :=
  { Name := s.Name, Attr := s.Attr ++ attributes e (entries c) }

/-- A call read from nesting depth `d` opens no element at depth zero, and when
it returns `nil` it leaves the reader at depth `d1`. -/
def KeepsInside (d d1 : Nat) (r : List Token → Outcome) : Prop :=
  ∀ tr, ∃ em, (r tr).1 = tr ++ em ∧ topStarts d em = [] ∧
    ((r tr).2 = none → ∀ rest, topStarts d (em ++ rest) = topStarts d1 rest)

/-- The node `n` stands in element position under the key `K` inside the
top-level mapping `top`: it is the value of a top-level entry with key `K`, or
the value of an entry with body key `K` of a mapping in element position, or an
item of a sequence in element position under `K`. -/
inductive ElementPosition (e : xmlEncoder) (top : Node) : String → Node → Prop where
  | topEntry (kv : Node × Node) (h : kv ∈ entries top.Content) :
      ElementPosition e top kv.1.Value kv.2
  | bodyEntry (K : String) (m : Node) (kv : Node × Node) (hm : ElementPosition e top K m)
      (hk : m.Kind = .MappingNode) (h : kv ∈ entries m.Content) (hb : isBodyKey e kv.1 = true) :
      ElementPosition e top kv.1.Value kv.2
  | item (K : String) (sq x : Node) (hs : ElementPosition e top K sq)
      (hk : sq.Kind = .SequenceNode) (h : x ∈ sq.Content) :
      ElementPosition e top K x

/-- Left-to-right scan of a token list with the stack of open elements (the
most recently opened first): a start tag is pushed; an end tag must name the
element on top of the stack, which it closes; character data must stand inside
an element.  The result is the stack that is left, or `none` when a token
breaks these rules. -/
def nesting : List Name → List Token → Option (List Name)
  | st, [] => some st
  | st, .StartElement s :: ts => nesting (s.Name :: st) ts
  | [], .EndElement _ :: _ => none
  | top :: st, .EndElement x :: ts => if x.Name = top then nesting st ts else none
  | [], .CharData _ :: _ => none
  | top :: st, .CharData _ :: ts => nesting (top :: st) ts

mutual

/-- Every mapping node of the tree has complete entries: its content has an even
number of nodes, so that every key comes with a value. -/
def evenMappings : Node → Bool
  | .mk k _ _ c => (if k = .MappingNode then c.length % 2 == 0 else true) && evenMappingsList c

/-- Every node of the list satisfies `evenMappings`. -/
def evenMappingsList : List Node → Bool
  | [] => true
  | x :: xs => evenMappings x && evenMappingsList xs

end

/-- A call never ends in the index-out-of-range panic. -/
def NoPanic (r : List Token → Outcome) : Prop :=
  ∀ tr, (r tr).2 ≠ some .indexOutOfRange

/-- The elements a successful call opens at its own depth are named by the
start element, and there is one of them unless the node is a sequence. -/
def RootsNamed (e : xmlEncoder) (n : Node) : Prop :=
  ∀ s, Succeeds e n s → ∀ rest, ∃ rs,
    topStarts 0 (elementTokens e n s ++ rest) = rs ++ topStarts 0 rest ∧
    (∀ x ∈ rs, x.Name = s.Name) ∧ (n.Kind ≠ .SequenceNode → rs.length = 1)

/-- The tokens of a successful call leave the stack of open elements as it was. -/
def Balanced (e : xmlEncoder) (n : Node) : Prop :=
  ∀ s, Succeeds e n s → ∀ st rest, nesting st (elementTokens e n s ++ rest) = nesting st rest

/-- The character data of a token list that stands at nesting depth zero, when
the list is read from nesting depth `d`. -/
def directText : Nat → List Token → List String
  | _, [] => []
  | d, .StartElement _ :: ts => directText (d + 1) ts
  | d, .EndElement _ :: ts => directText (d - 1) ts
  | d, .CharData x :: ts => if d = 0 then x :: directText 0 ts else directText d ts

/-- The values under the content key, in insertion order. -/
def contentValues (e : xmlEncoder) (es : List (Node × Node)) : List String :=
  (es.filter fun kv => kv.1.Value = e.contentName).map fun kv => kv.2.Value

/-- A call on the accepting writer does from every trace what it does from the
empty one. -/
def Translates (r : List Token → Outcome) : Prop :=
  ∀ tr, r tr = (tr ++ (r []).1, (r []).2)

/-- The character data of the tokens of a successful call stands inside its elements. -/
def NoDirectText (e : xmlEncoder) (n : Node) : Prop :=
  ∀ s, Succeeds e n s → ∀ d rest, directText d (elementTokens e n s ++ rest) = directText d rest

/-- One attribute for each entry whose key is not the content name, in insertion
order, named by the whole key and holding the value's text. -/
def wholeKeyAttributes (e : xmlEncoder) (es : List (Node × Node)) : List Attr :=
  (es.filter fun kv => kv.1.Value != e.contentName).map fun kv =>
    { Name := { Local := kv.1.Value }, Value := kv.2.Value }

/-! ## The element-encoding rule of the specification

A second definition, written from the words of the specification and not from
the code, to be compared with `doEncode`: the element-encoding rule
`encodeElement(node, elementName)` as the list of the steps it takes, where a
step emits one token or raises an error.  The steps are taken in order and an
error, of the rule or of the writer, ends the encoding (`runSteps`).  The
specification does not speak of a mapping whose last key has no value; there
the list holds the error `indexOutOfRange`, so that the comparison with the code
holds for every node. -/

/-- One step of the element-encoding rule: a token is emitted, or an error is
raised. -/
inductive Step where
  | emit (t : Token)
  | fail (err : EncodeError)

/-- The steps are taken in order from the trace `tr`: a token is handed to the
writer, and the first error, raised by a step or returned by the writer, ends
the run. -/
def runSteps (w : XmlWriter) : List Step → List Token → Outcome
  | [], tr => (tr, none)
  | .emit t :: rest, tr =>
    match EncodeToken w tr t with
    | (tr, some err) => (tr, some err)
    | (tr, none) => runSteps w rest tr
  | .fail err :: _, tr => (tr, some err)

/-- The attribute pass over the entries of a mapping: an error for every
attribute-bound entry whose value is not a scalar, and for a key that has no
value. -/
def specAttributeChecks (e : xmlEncoder) : List Node → List Step
  | key :: value :: rest =>
    (if isAttrKey e key = true ∧ value.Kind ≠ .ScalarNode then
        [.fail (.attributeNotScalar value.Tag)]
      else []) ++ specAttributeChecks e rest
  | [_] => [.fail .indexOutOfRange]
  | [] => []

mutual

/-- The steps of `encodeElement(node, K)`.  Scalar: the open tag `K` with no
attributes, the character data of the scalar, the close tag.  Sequence: the
steps of every item under the same name `K`.  Mapping: the attribute pass, the
start tag with the accumulated attributes, the body pass, the close tag.  Any
other node: the error `unsupported type`. -/
def specElement (e : xmlEncoder) (K : String) : Node → List Step
  | .mk kind tag value content =>
    match kind with
    | .ScalarNode =>
      [.emit (.StartElement { Name := { Local := K }, Attr := [] }), .emit (.CharData value),
        .emit (.EndElement { Name := { Local := K } })]
    | .SequenceNode => specItems e K content
    | .MappingNode =>
      specAttributeChecks e content ++
        [.emit (.StartElement { Name := { Local := K }, Attr := attributes e (entries content) })] ++
        specBody e content ++ [.emit (.EndElement { Name := { Local := K } })]
    | _ => [.fail (.unsupportedType tag)]

/-- The steps of the items of a sequence, each under the name `K`. -/
def specItems (e : xmlEncoder) (K : String) : List Node → List Step
  | [] => []
  | x :: xs => specElement e K x ++ specItems e K xs

/-- The body pass over the entries of a mapping, in insertion order: the child
element named by the key for a key that has not the attribute prefix and is not
the content name, the value's text as character data for the content name,
nothing for an attribute-bound entry. -/
def specBody (e : xmlEncoder) : List Node → List Step
  | key :: value :: rest =>
    (if isBodyKey e key then specElement e key.Value value
      else if key.Value = e.contentName then [.emit (.CharData value.Value)]
      else []) ++ specBody e rest
  | [_] => [.fail .indexOutOfRange]
  | [] => []

end

/-- The top level: every entry becomes one element named by its key. -/
def specEntries (e : xmlEncoder) : List Node → List Step
  | key :: value :: rest => specElement e key.Value value ++ specEntries e rest
  | [_] => [.fail .indexOutOfRange]
  | [] => []

/-- The steps for a top-level mapping: its entries, then the trailing newline. -/
def specDocument (e : xmlEncoder) (top : Node) : List Step :=
  specEntries e top.Content ++ [.emit (.CharData "\n")]

/-! ## String operators

The operators live in `operator_strings.go`, of which only the test scenarios
are at hand; they are given here as the specification describes them. -/

/-- Modelled from the spec: one step of a Context path, a mapping key or a
sequence index (the type of `path` entries is missing). -/
inductive PathElement where
  | key (k : String)
  | index (i : Nat)
  deriving DecidableEq

/-- Modelled from the spec: the Context that every pipeline stage consumes and
produces, a node tagged with its document index and traversal path (the type
declaration is missing). -/
structure Context where
  documentIndex : Nat
  path : List PathElement
  node : Node

/-- Modelled from the spec: the error kinds with which a string operator aborts
(the declarations are missing). -/
inductive OperatorError where
  | TypeMismatch
  | PatternCompileError
  deriving DecidableEq

/-- Modelled from the spec: a string scalar node (the constructor used by the
operators is missing). -/
def stringScalar (v : String) : Node := .mk .ScalarNode "!!str" v []

/-- Modelled from the spec: a boolean scalar node (the constructor used by the
operators is missing). -/
def boolScalar (b : Bool) : Node := .mk .ScalarNode "!!bool" (if b then "true" else "false") []

/-- Modelled from the spec: the node is a scalar holding a string, as every
string operator expects of its input (the check of the operators is missing). -/
def isStringScalar (n : Node) : Bool :=
  n.Kind == .ScalarNode && n.Tag == "!!str"

/-- Modelled from the spec: the text of a scalar item when it is concatenated,
the empty string for null and the literal text otherwise (the function is
missing). -/
def stringify (n : Node) : String :=
  if n.Tag = "!!null" then "" else n.Value

/-- Modelled from the spec: the texts in order with the separator between
consecutive ones (the helper of `join` is missing). -/
def joinStrings (separator : String) : List String → String
  | [] => ""
  | [x] => x
  | x :: y :: rest => x ++ separator ++ joinStrings separator (y :: rest)

/-- Modelled from the spec: the operator `join(separator)`, which turns a
sequence into one string scalar and fails on any other kind of node (the
operator is missing). -/
def joinOperator (separator : String) (c : Context) : Except OperatorError (List Context) :=
  if c.node.Kind = .SequenceNode then
    .ok [{ c with node := stringScalar (joinStrings separator (c.node.Content.map stringify)) }]
  else .error .TypeMismatch

/-- Modelled from the spec: one capture group of a match, with text, offset,
length and the name of a named group; a group that did not take part has no
text, offset -1 and length 0 (the Match Result types are missing). -/
structure Capture where
  text : Option String
  offset : Int
  length : Nat
  name : Option String

/-- Modelled from the spec: one match of a pattern in a subject: the matched
text, its offset and length, and the capture groups in group order (the Match
Result types are missing). -/
structure RegexMatch where
  text : String
  offset : Nat
  length : Nat
  captures : List Capture

/-- Modelled from the spec: the regular-expression engine, an external
collaborator.  For a pattern and a subject it gives all non-overlapping matches
in the order found, scanning from left to right, or `none` when the pattern is
malformed (the engine is missing). -/
structure RegexEngine where
  findAll : String → String → Option (List RegexMatch)

/-- Modelled from the spec: an integer scalar node (the constructor used by the
operators is missing). -/
def intScalar (i : Int) : Node := .mk .ScalarNode "!!int" (toString i) []

/-- Modelled from the spec: a text that may be absent, as a string scalar or as
the null scalar (the constructor used by the operators is missing). -/
def optionalText : Option String → Node
  | some s => stringScalar s
  | none => .mk .ScalarNode "!!null" "null" []

/-- Modelled from the spec: the mapping of one capture group with the fields
`string`, `offset`, `length` and, for a named group, `name` (the function that
builds a Match Result is missing). -/
def captureNode (c : Capture) : Node :=
  .mk .MappingNode "!!map" ""
    ([stringScalar "string", optionalText c.text, stringScalar "offset", intScalar c.offset,
      stringScalar "length", intScalar c.length] ++
      match c.name with
      | some n => [stringScalar "name", stringScalar n]
      | none => [])

/-- Modelled from the spec: the Match Result, a mapping with the fields
`string`, `offset`, `length` and `captures` (the function that builds it is
missing). -/
def matchResultNode (m : RegexMatch) : Node :=
  .mk .MappingNode "!!map" ""
    [stringScalar "string", stringScalar m.text, stringScalar "offset", intScalar m.offset,
      stringScalar "length", intScalar m.length,
      stringScalar "captures", .mk .SequenceNode "!!seq" "" (m.captures.map captureNode)]

/-- Modelled from the spec: the flags ask for all matches when they contain `g`
(the parsing of the flags is missing). -/
def hasGlobalFlag (flags : String) : Bool :=
  flags.data.contains 'g'

/-- Modelled from the spec: the operator `match(pattern, flags)` on a string
scalar: one Match Result for every match with the flag `g`, at most the first
one without it, and no Context at all when there is no match (the operator is
missing). -/
def matchOperator (engine : RegexEngine) (pattern flags : String) (c : Context) :
    Except OperatorError (List Context) :=
  if isStringScalar c.node then
    match engine.findAll pattern c.node.Value with
    | none => .error .PatternCompileError
    | some ms =>
      .ok ((if hasGlobalFlag flags then ms else ms.take 1).map fun m =>
        { c with node := matchResultNode m })
  else .error .TypeMismatch

/-- Modelled from the spec: the operator `test(pattern)` on a string scalar:
matching as `match` without the global flag, and one boolean scalar that tells
whether a match exists (the operator is missing). -/
def testOperator (engine : RegexEngine) (pattern : String) (c : Context) :
    Except OperatorError (List Context) :=
  if isStringScalar c.node then
    match engine.findAll pattern c.node.Value with
    | none => .error .PatternCompileError
    | some ms => .ok [{ c with node := boolScalar (!ms.isEmpty) }]
  else .error .TypeMismatch

/-- Modelled from the spec: the substrings of the subject between consecutive
separator occurrences, read from position `pos`: the text before the first
occurrence, the texts between one occurrence and the next, and the text after
the last (the helper of `split` is missing). -/
def piecesBetween (subject : List Char) : Nat → List RegexMatch → List (List Char)
  | pos, [] => [subject.drop pos]
  | pos, m :: ms =>
    (subject.drop pos).take (m.offset - pos) :: piecesBetween subject (m.offset + m.length) ms

/-- Modelled from the spec: the operator `split(separator)` on a string scalar:
one sequence of string scalars, empty for the empty subject and otherwise
holding the substrings between the occurrences of the separator, which is read
as a pattern (the operator is missing). -/
def splitOperator (engine : RegexEngine) (separator : String) (c : Context) :
    Except OperatorError (List Context) :=
  if isStringScalar c.node then
    if c.node.Value = "" then .ok [{ c with node := .mk .SequenceNode "!!seq" "" [] }]
    else
      match engine.findAll separator c.node.Value with
      | none => .error .PatternCompileError
      | some ms =>
        let items := (piecesBetween c.node.Value.data 0 ms).map fun p => stringScalar ⟨p⟩
        .ok [{ c with node := .mk .SequenceNode "!!seq" "" items }]
  else .error .TypeMismatch

/-- The matches lie in the subject one after the other from position `pos` on,
and each carries the text found at its place. -/
def matchesInOrder (subject : List Char) : Nat → List RegexMatch → Bool
  | _, [] => true
  | pos, m :: ms =>
    decide (pos ≤ m.offset) && decide (m.offset + m.length ≤ subject.length) &&
      decide (m.text.data = (subject.drop m.offset).take m.length) &&
      matchesInOrder subject (m.offset + m.length) ms

/-- The pieces with the matched texts put back between them. -/
def rejoin : List (List Char) → List RegexMatch → List Char
  | [], _ => []
  | p :: _, [] => p
  | p :: ps, m :: ms => p ++ m.text.data ++ rejoin ps ms

/-- The start positions of the occurrences of a text without metacharacters,
scanning from left to right without overlap: `skip` characters of a match
found before are passed over. -/
def literalOffsets (sep : List Char) : Nat → Nat → List Char → List Nat
  | _, pos, [] => if sep = [] then [pos] else []
  | skip + 1, pos, _ :: cs => literalOffsets sep skip (pos + 1) cs
  | 0, pos, c :: cs =>
    if sep.isPrefixOf (c :: cs) then pos :: literalOffsets sep (sep.length - 1) (pos + 1) cs
    else literalOffsets sep 0 (pos + 1) cs

/-- An engine for patterns without metacharacters and groups: such a pattern
matches its own text. -/
def literalEngine : RegexEngine :=
  { findAll := fun pattern subject =>
      some ((literalOffsets pattern.data 0 0 subject.data).map fun o =>
        { text := pattern, offset := o, length := pattern.data.length, captures := [] }) }

/-! ## Concrete inputs -/

/-- A string scalar node, as the YAML parser builds it. -/
def scalarNode (v : String) : Node := .mk .ScalarNode "!!str" v []

/-- A mapping node with the given flat content, as the YAML parser builds it. -/
def mappingNode (c : List Node) : Node := .mk .MappingNode "!!map" "" c

/-- A sequence node with the given items, as the YAML parser builds it. -/
def sequenceNode (c : List Node) : Node := .mk .SequenceNode "!!seq" "" c

/-- An alias node, as the YAML parser builds it. -/
def aliasNode (v : String) : Node := .mk .AliasNode "" v []

/-- An encoder with attribute prefix `+` and content name `+content` over the
writer that accepts every token. -/
def plusEncoder : xmlEncoder :=
  { xmlEncoder := okWriter, attributePrefix := "+", contentName := "+content" }

/-- A start element with a local name and no attributes. -/
def startNamed (name : String) : StartElement := { Name := { Local := name } }

/-- The entries `+x: 1`, `b: 2`, `+content: t`, `+y: 3`: attribute keys interleaved
with an element key and the content key. -/
def interleavedEntries : List (Node × Node) :=
  [(scalarNode "+x", scalarNode "1"), (scalarNode "b", scalarNode "2"),
    (scalarNode "+content", scalarNode "t"), (scalarNode "+y", scalarNode "3")]

/-- The mapping node holding `interleavedEntries`. -/
def interleavedMap : Node := mappingNode (flat interleavedEntries)

/-- The top-level mapping `+a: 1`, `+content: [u, v]`. -/
def twoRoots : Node :=
  mappingNode [scalarNode "+a", scalarNode "1",
    scalarNode "+content", sequenceNode [scalarNode "u", scalarNode "v"]]

/-- The sequence `[[u, v]]`: one item, itself a sequence of two scalars. -/
def nestedSequence : Node :=
  sequenceNode [sequenceNode [scalarNode "u", scalarNode "v"]]

/-- The sequence `[\x7b+id: 1\x7d, x]`: a mapping with an attribute and a scalar. -/
def mixedSequence : Node :=
  sequenceNode [mappingNode [scalarNode "+id", scalarNode "1"], scalarNode "x"]

/-- The top-level mapping `k: [[u, v]]`. -/
def nestedSequenceMap : Node := mappingNode [scalarNode "k", nestedSequence]

/-- The top-level mapping `k: [\x7b+id: 1\x7d, x]`. -/
def mixedSequenceMap : Node := mappingNode [scalarNode "k", mixedSequence]

/-- The mapping `b: 2`, `+x: 1`, `+y: [u]`: a sequence under an attribute key,
after a body entry and a valid attribute entry. -/
def badAttributeMap : Node :=
  mappingNode [scalarNode "b", scalarNode "2", scalarNode "+x", scalarNode "1",
    scalarNode "+y", sequenceNode [scalarNode "u"]]

/-- The top-level mapping `a: 1`, `b: *x`, `c: 3`, whose second value is an alias node. -/
def aliasMap : Node :=
  mappingNode [scalarNode "a", scalarNode "1", scalarNode "b", aliasNode "x",
    scalarNode "c", scalarNode "3"]

/-- The mapping `+id: 7`, `a: 1`, `b: *x`, `c: 3` as an element. -/
def aliasElement : Node :=
  mappingNode [scalarNode "+id", scalarNode "7", scalarNode "a", scalarNode "1",
    scalarNode "b", aliasNode "x", scalarNode "c", scalarNode "3"]

/-- The sequence `[1, *x, 3]`. -/
def aliasSequence : Node :=
  sequenceNode [scalarNode "1", aliasNode "x", scalarNode "3"]

/-- A mapping node with one entry `deep: hidden`, as the YAML parser builds it:
its own `Value` is empty. -/
def containerNode : Node := mappingNode [scalarNode "deep", scalarNode "hidden"]

/-- The entries `+x: 1`, `b: 2` that stand before the content entry in the examples. -/
def beforeContent : List (Node × Node) :=
  [(scalarNode "+x", scalarNode "1"), (scalarNode "b", scalarNode "2")]

/-- The entry `+y: 3` that stands after the content entry in the examples. -/
def afterContent : List (Node × Node) := [(scalarNode "+y", scalarNode "3")]

/-- The mapping `+x: 1`, `b: 2`, `+content: \x7bdeep: hidden\x7d`, `+y: 3`, whose
content key holds a mapping. -/
def containerContentMap : Node :=
  mappingNode (flat (beforeContent ++ (scalarNode "+content", containerNode) :: afterContent))

/-- The sequence `[[a, b], [c]]`. -/
def nestedABC : Node :=
  sequenceNode [sequenceNode [scalarNode "a", scalarNode "b"], sequenceNode [scalarNode "c"]]

/-- The sequence `[a, b, c]`. -/
def flatABC : Node := sequenceNode [scalarNode "a", scalarNode "b", scalarNode "c"]

/-- An encoder with the empty attribute prefix and content name `+content` over
the writer that accepts every token. -/
def noPrefixEncoder : xmlEncoder :=
  { xmlEncoder := okWriter, attributePrefix := "", contentName := "+content" }

/-- The entries `a: 1`, `+content: t`, `b: 2`. -/
def plainEntries : List (Node × Node) :=
  [(scalarNode "a", scalarNode "1"), (scalarNode "+content", scalarNode "t"),
    (scalarNode "b", scalarNode "2")]

/-- The mapping `a: 1`, `b: [u]`, whose second value is a sequence. -/
def sequenceValueMap : Node :=
  mappingNode [scalarNode "a", scalarNode "1", scalarNode "b", sequenceNode [scalarNode "u"]]

/-- The Context of the document `[cat, meow, 1, null, true]` at its root. -/
def joinExample : Context :=
  { documentIndex := 0, path := [],
    node := sequenceNode [scalarNode "cat", scalarNode "meow", .mk .ScalarNode "!!int" "1" [],
      .mk .ScalarNode "!!null" "null" [], .mk .ScalarNode "!!bool" "true" []] }

/-- The Context of a document that is one string scalar, at its root. -/
def stringContext (s : String) : Context :=
  { documentIndex := 0, path := [], node := stringScalar s }

/-- The top-level mapping `k: [\x7b+id: 1\x7d, x]`, `b: *y`: the scalar item `x` is
encoded before the encoding fails at the alias node. -/
def mixedThenAlias : Node :=
  mappingNode [scalarNode "k", mixedSequence, scalarNode "b", aliasNode "y"]

/-! ## Basic lemmas -/

theorem Node.induct {P : Node → Prop}
    (h : ∀ k t v c, (∀ n ∈ c, P n) → P (.mk k t v c)) : ∀ n, P n := by
  intro n
  exact @Node.rec P (fun l => ∀ n ∈ l, P n) h
    (by intro n hn; cases hn)
    (by
      intro hd tl h1 h2 n hn
      rcases List.mem_cons.1 hn with rfl | hn
      · exact h1
      · exact h2 n hn) n

theorem pairInduction {α : Type} {P : List α → Prop} (h0 : P [])
    (h1 : ∀ x, P [x]) (h2 : ∀ k v rest, P rest → P (k :: v :: rest)) : ∀ l, P l
  | [] => h0
  | [x] => h1 x
  | k :: v :: rest => h2 k v rest (pairInduction h0 h1 h2 rest)

theorem doEncode_eq (e : xmlEncoder) (node : Node) (start : StartElement) (tr : List Token) :
    doEncode e node start tr =
      match node.Kind with
      | .MappingNode => encodeMap e node start tr
      | .SequenceNode => encodeArray e node start tr
      | .ScalarNode =>
        match EncodeToken e.xmlEncoder tr (.StartElement start) with
        | (tr, some err) => (tr, some err)
        | (tr, none) =>
          match EncodeToken e.xmlEncoder tr (.CharData node.Value) with
          | (tr, some err) => (tr, some err)
          | (tr, none) => EncodeToken e.xmlEncoder tr (.EndElement start.End)
      | _ => (tr, some (.unsupportedType node.Tag)) := by
  cases node with
  | mk k t v c => cases k <;> rfl

theorem andThen_eq_ok_iff (o : Outcome) (k : List Token → Outcome) (tr : List Token) :
    andThen o k = (tr, none) ↔ ∃ t1, o = (t1, none) ∧ k t1 = (tr, none) := by
  rcases o with ⟨t, _ | err⟩
  · constructor
    · intro h; exact ⟨t, rfl, h⟩
    · rintro ⟨t1, h1, h2⟩
      cases h1; exact h2
  · constructor
    · intro h; cases h
    · rintro ⟨t1, h1, _⟩; cases h1

theorem andThen_eq_err_iff (o : Outcome) (k : List Token → Outcome) (tr : List Token)
    (err : EncodeError) :
    andThen o k = (tr, some err) ↔
      o = (tr, some err) ∨ ∃ t1, o = (t1, none) ∧ k t1 = (tr, some err) := by
  rcases o with ⟨t, _ | err1⟩
  · constructor
    · intro h; exact Or.inr ⟨t, rfl, h⟩
    · rintro (h | ⟨t1, h1, h2⟩)
      · cases h
      · cases h1; exact h2
  · constructor
    · intro h; exact Or.inl h
    · rintro (h | ⟨t1, h1, _⟩)
      · exact h
      · cases h1

theorem andThen_extends (o : Outcome) (k : List Token → Outcome) (tr : List Token)
    (h1 : tr <+: o.1) (h2 : ∀ t, tr <+: t → tr <+: (k t).1) : tr <+: (andThen o k).1 := by
  rcases o with ⟨t, _ | err⟩
  · exact h2 t h1
  · exact h1

theorem EncodeToken_fst (w : XmlWriter) (tr : List Token) (t : Token) :
    (EncodeToken w tr t).1 = tr ++ [t] := rfl

theorem EncodeToken_eq_ok (w : XmlWriter) (tr tr1 : List Token) (t : Token)
    (h : EncodeToken w tr t = (tr1, none)) : tr1 = tr ++ [t] := by
  have := congrArg Prod.fst h
  exact this.symm

theorem EncodeToken_ideal (tr : List Token) (t : Token) :
    EncodeToken okWriter tr t = (tr ++ [t], none) := rfl

theorem doEncode_mapping (e : xmlEncoder) (t v : String) (c : List Node) (start : StartElement)
    (tr : List Token) :
    doEncode e (.mk .MappingNode t v c) start tr =
      match encodeMapAttrs e c start with
      | .error err => (tr, some err)
      | .ok s1 =>
        andThen (EncodeToken e.xmlEncoder tr (.StartElement s1)) fun t1 =>
          andThen (encodeMapBody e c t1) fun t2 =>
            EncodeToken e.xmlEncoder t2 (.EndElement s1.End) := by
  rw [doEncode]; rfl

theorem doEncode_sequence (e : xmlEncoder) (t v : String) (c : List Node) (start : StartElement)
    (tr : List Token) :
    doEncode e (.mk .SequenceNode t v c) start tr = encodeArrayLoop e c start tr := by
  rw [doEncode]

theorem doEncode_scalar (e : xmlEncoder) (t v : String) (c : List Node) (start : StartElement)
    (tr : List Token) :
    doEncode e (.mk .ScalarNode t v c) start tr =
      andThen (EncodeToken e.xmlEncoder tr (.StartElement start)) fun t1 =>
        andThen (EncodeToken e.xmlEncoder t1 (.CharData v)) fun t2 =>
          EncodeToken e.xmlEncoder t2 (.EndElement start.End) := by
  rw [doEncode]; rfl

theorem doEncode_unsupported (e : xmlEncoder) (node : Node) (start : StartElement)
    (tr : List Token) (h1 : node.Kind ≠ .MappingNode) (h2 : node.Kind ≠ .SequenceNode)
    (h3 : node.Kind ≠ .ScalarNode) :
    doEncode e node start tr = (tr, some (.unsupportedType node.Tag)) := by
  cases node with
  | mk k t v c =>
    cases k
    · rfl
    · exact absurd rfl h2
    · exact absurd rfl h1
    · exact absurd rfl h3
    · rfl
    · rfl

theorem encodeArrayLoop_cons (e : xmlEncoder) (value : Node) (rest : List Node)
    (start : StartElement) (tr : List Token) :
    encodeArrayLoop e (value :: rest) start tr =
      andThen (doEncode e value start tr) fun t1 => encodeArrayLoop e rest start t1 := by
  rw [encodeArrayLoop]; rfl

theorem encodeMapBody_cons (e : xmlEncoder) (key value : Node) (rest : List Node)
    (tr : List Token) :
    encodeMapBody e (key :: value :: rest) tr =
      if isBodyKey e key then
        andThen (doEncode e value { Name := { Local := key.Value } } tr) fun t1 =>
          encodeMapBody e rest t1
      else if key.Value = e.contentName then
        andThen (EncodeToken e.xmlEncoder tr (.CharData value.Value)) fun t1 =>
          encodeMapBody e rest t1
      else encodeMapBody e rest tr := by
  rw [encodeMapBody]; rfl

theorem encodeTopLevelMapLoop_cons (e : xmlEncoder) (key value : Node) (rest : List Node)
    (tr : List Token) :
    encodeTopLevelMapLoop e (key :: value :: rest) tr =
      andThen (doEncode e value { Name := { Local := key.Value } } tr) fun t1 =>
        encodeTopLevelMapLoop e rest t1 := by
  rw [encodeTopLevelMapLoop]; rfl

theorem encodeMapAttrs_ideal (e : xmlEncoder) :
    ∀ (c : List Node) (s : StartElement), encodeMapAttrs (ideal e) c s = encodeMapAttrs e c s := by
  intro c
  induction c using pairInduction with
  | h0 => intro s; rfl
  | h1 x => intro s; rfl
  | h2 k v rest ih =>
    intro s
    rw [encodeMapAttrs, encodeMapAttrs]
    simp only [ideal] at ih ⊢
    simp only [ih]

/-! ## Every call extends the trace -/

theorem encodeArrayLoop_extends (e : xmlEncoder) (c : List Node)
    (ih : ∀ n ∈ c, ∀ s tr, tr <+: (doEncode e n s tr).1) :
    ∀ s tr, tr <+: (encodeArrayLoop e c s tr).1 := by
  induction c with
  | nil => intro s tr; rw [encodeArrayLoop]
  | cons v rest ihr =>
    intro s tr
    rw [encodeArrayLoop_cons]
    apply andThen_extends
    · exact ih v (List.mem_cons_self _ _) s tr
    · intro t ht
      exact ht.trans (ihr (fun n hn => ih n (List.mem_cons_of_mem _ hn)) s t)

theorem encodeMapBody_extends (e : xmlEncoder) (c : List Node)
    (ih : ∀ n ∈ c, ∀ s tr, tr <+: (doEncode e n s tr).1) :
    ∀ tr, tr <+: (encodeMapBody e c tr).1 := by
  induction c using pairInduction with
  | h0 => intro tr; rw [encodeMapBody]
  | h1 x => intro tr; rw [encodeMapBody]
  | h2 k v rest ihr =>
    intro tr
    have ihr1 := ihr (fun n hn => ih n (List.mem_cons_of_mem _ (List.mem_cons_of_mem _ hn)))
    rw [encodeMapBody_cons]
    split
    · apply andThen_extends
      · exact ih v (by simp) _ tr
      · intro t ht; exact ht.trans (ihr1 t)
    · split
      · apply andThen_extends
        · rw [EncodeToken_fst]; exact List.prefix_append _ _
        · intro t ht; exact ht.trans (ihr1 t)
      · exact ihr1 tr

theorem doEncode_extends (e : xmlEncoder) :
    ∀ (n : Node) (s : StartElement) (tr : List Token), tr <+: (doEncode e n s tr).1 := by
  intro n
  induction n using Node.induct with
  | h k t v c ih =>
    intro s tr
    cases k
    case MappingNode =>
      rw [doEncode_mapping]
      split
      · exact List.prefix_refl _
      · apply andThen_extends
        · rw [EncodeToken_fst]; exact List.prefix_append _ _
        · intro t1 h1
          apply andThen_extends
          · exact h1.trans (encodeMapBody_extends e c ih t1)
          · intro t2 h2
            rw [EncodeToken_fst]
            exact h2.trans (List.prefix_append _ _)
    case SequenceNode =>
      rw [doEncode_sequence]
      exact encodeArrayLoop_extends e c ih s tr
    case ScalarNode =>
      rw [doEncode_scalar]
      apply andThen_extends
      · rw [EncodeToken_fst]; exact List.prefix_append _ _
      · intro t1 h1
        apply andThen_extends
        · rw [EncodeToken_fst]; exact h1.trans (List.prefix_append _ _)
        · intro t2 h2
          rw [EncodeToken_fst]
          exact h2.trans (List.prefix_append _ _)
    all_goals
      rw [doEncode_unsupported e _ s tr (by simp [Node.Kind]) (by simp [Node.Kind])
        (by simp [Node.Kind])]

theorem encodeTopLevelMapLoop_extends (e : xmlEncoder) (c : List Node) :
    ∀ tr, tr <+: (encodeTopLevelMapLoop e c tr).1 := by
  induction c using pairInduction with
  | h0 => intro tr; rw [encodeTopLevelMapLoop]
  | h1 x => intro tr; rw [encodeTopLevelMapLoop]
  | h2 k v rest ihr =>
    intro tr
    rw [encodeTopLevelMapLoop_cons]
    apply andThen_extends
    · exact doEncode_extends e v _ tr
    · intro t ht; exact ht.trans (ihr t)

/-! ## A successful call hands over the tokens of the run on the accepting writer -/

theorem sameAsIdeal_token (w : XmlWriter) (t : Token) :
    SameAsIdeal (fun tr => EncodeToken w tr t) (fun tr => EncodeToken okWriter tr t) := by
  intro tr tr1 h
  exact ⟨[t], EncodeToken_eq_ok w tr tr1 t h, fun tr0 => rfl⟩

theorem sameAsIdeal_andThen {r1 i1 r2 i2 : List Token → Outcome}
    (h1 : SameAsIdeal r1 i1) (h2 : SameAsIdeal r2 i2) :
    SameAsIdeal (fun tr => Yqlib.andThen (r1 tr) r2) (fun tr => Yqlib.andThen (i1 tr) i2) := by
  intro tr tr1 h
  obtain ⟨t1, ha, hb⟩ := (andThen_eq_ok_iff _ _ _).1 h
  obtain ⟨d1, hd1, hi1⟩ := h1 tr t1 ha
  obtain ⟨d2, hd2, hi2⟩ := h2 t1 tr1 hb
  refine ⟨d1 ++ d2, by rw [hd2, hd1, List.append_assoc], fun tr0 => ?_⟩
  show Yqlib.andThen (i1 tr0) i2 = _
  rw [hi1 tr0]
  show i2 (tr0 ++ d1) = _
  rw [hi2, List.append_assoc]

theorem sameAsIdeal_skip : SameAsIdeal (fun tr => (tr, none)) (fun tr => (tr, none)) := by
  intro tr tr1 h
  cases h
  exact ⟨[], by simp, fun tr0 => by simp⟩

theorem sameAsIdeal_error (err : EncodeError) (i : List Token → Outcome) :
    SameAsIdeal (fun tr => (tr, some err)) i := by
  intro tr tr1 h
  cases h

theorem encodeArrayLoop_sameAsIdeal (e : xmlEncoder) (c : List Node)
    (ih : ∀ n ∈ c, ∀ s, SameAsIdeal (doEncode e n s) (doEncode (ideal e) n s)) :
    ∀ s, SameAsIdeal (encodeArrayLoop e c s) (encodeArrayLoop (ideal e) c s) := by
  induction c with
  | nil =>
    intro s
    have h1 : ∀ e1 : xmlEncoder, encodeArrayLoop e1 [] s = fun tr => (tr, none) := by
      intro e1; funext tr; rw [encodeArrayLoop]
    rw [h1, h1]
    exact sameAsIdeal_skip
  | cons v rest ihr =>
    intro s
    have h1 : ∀ e1 : xmlEncoder, encodeArrayLoop e1 (v :: rest) s =
        fun tr => andThen (doEncode e1 v s tr) (encodeArrayLoop e1 rest s) := by
      intro e1; funext tr; rw [encodeArrayLoop_cons]
    rw [h1, h1]
    exact sameAsIdeal_andThen (ih v (List.mem_cons_self _ _) s)
      (ihr (fun n hn => ih n (List.mem_cons_of_mem _ hn)) s)

theorem encodeMapBody_sameAsIdeal (e : xmlEncoder) (c : List Node)
    (ih : ∀ n ∈ c, ∀ s, SameAsIdeal (doEncode e n s) (doEncode (ideal e) n s)) :
    SameAsIdeal (encodeMapBody e c) (encodeMapBody (ideal e) c) := by
  induction c using pairInduction with
  | h0 =>
    have h1 : ∀ e1 : xmlEncoder, encodeMapBody e1 [] = fun tr => (tr, none) := by
      intro e1; funext tr; rw [encodeMapBody]
    rw [h1, h1]
    exact sameAsIdeal_skip
  | h1 x =>
    have h1 : encodeMapBody e [x] = fun tr => (tr, some .indexOutOfRange) := by
      funext tr; rw [encodeMapBody]
    rw [h1]
    exact sameAsIdeal_error _ _
  | h2 k v rest ihr =>
    have ihr1 := ihr (fun n hn => ih n (List.mem_cons_of_mem _ (List.mem_cons_of_mem _ hn)))
    by_cases hb : isBodyKey e k = true
    · have h1 : ∀ e1 : xmlEncoder, isBodyKey e1 k = true → encodeMapBody e1 (k :: v :: rest) =
          fun tr => andThen (doEncode e1 v { Name := { Local := k.Value } } tr)
            (encodeMapBody e1 rest) := by
        intro e1 hb1; funext tr; rw [encodeMapBody_cons, if_pos hb1]
      rw [h1 e hb, h1 (ideal e) hb]
      exact sameAsIdeal_andThen (ih v (by simp) _) ihr1
    · by_cases hc : k.Value = e.contentName
      · have h1 : ∀ e1 : xmlEncoder, ¬ isBodyKey e1 k = true → k.Value = e1.contentName →
            encodeMapBody e1 (k :: v :: rest) =
            fun tr => andThen (EncodeToken e1.xmlEncoder tr (.CharData v.Value))
              (encodeMapBody e1 rest) := by
          intro e1 hb1 hc1; funext tr; rw [encodeMapBody_cons, if_neg hb1, if_pos hc1]
        rw [h1 e hb hc, h1 (ideal e) hb hc]
        exact sameAsIdeal_andThen (sameAsIdeal_token _ _) ihr1
      · have h1 : ∀ e1 : xmlEncoder, ¬ isBodyKey e1 k = true → ¬ k.Value = e1.contentName →
            encodeMapBody e1 (k :: v :: rest) = encodeMapBody e1 rest := by
          intro e1 hb1 hc1; funext tr; rw [encodeMapBody_cons, if_neg hb1, if_neg hc1]
        rw [h1 e hb hc, h1 (ideal e) hb hc]
        exact ihr1

theorem doEncode_sameAsIdeal (e : xmlEncoder) :
    ∀ (n : Node) (s : StartElement), SameAsIdeal (doEncode e n s) (doEncode (ideal e) n s) := by
  intro n
  induction n using Node.induct with
  | h k t v c ih =>
    intro s
    cases k
    case MappingNode =>
      cases hattr : encodeMapAttrs e c s with
      | error err =>
        intro tr tr1 h
        rw [doEncode_mapping, hattr] at h
        cases h
      | ok s1 =>
        have h1 : ∀ e1 : xmlEncoder, encodeMapAttrs e1 c s = .ok s1 →
            doEncode e1 (.mk .MappingNode t v c) s =
            fun tr => andThen (EncodeToken e1.xmlEncoder tr (.StartElement s1))
              fun t1 => andThen (encodeMapBody e1 c t1)
                fun t2 => EncodeToken e1.xmlEncoder t2 (.EndElement s1.End) := by
          intro e1 he1; funext tr; rw [doEncode_mapping, he1]
        rw [h1 e hattr, h1 (ideal e) (by rw [encodeMapAttrs_ideal, hattr])]
        exact sameAsIdeal_andThen (sameAsIdeal_token _ _)
          (sameAsIdeal_andThen (encodeMapBody_sameAsIdeal e c ih) (sameAsIdeal_token _ _))
    case SequenceNode =>
      have h1 : ∀ e1 : xmlEncoder, doEncode e1 (.mk .SequenceNode t v c) s =
          encodeArrayLoop e1 c s := by
        intro e1; funext tr; rw [doEncode_sequence]
      rw [h1, h1]
      exact encodeArrayLoop_sameAsIdeal e c ih s
    case ScalarNode =>
      have h1 : ∀ e1 : xmlEncoder, doEncode e1 (.mk .ScalarNode t v c) s =
          fun tr => andThen (EncodeToken e1.xmlEncoder tr (.StartElement s))
            fun t1 => andThen (EncodeToken e1.xmlEncoder t1 (.CharData v))
              fun t2 => EncodeToken e1.xmlEncoder t2 (.EndElement s.End) := by
        intro e1; funext tr; rw [doEncode_scalar]
      rw [h1, h1]
      exact sameAsIdeal_andThen (sameAsIdeal_token _ _)
        (sameAsIdeal_andThen (sameAsIdeal_token _ _) (sameAsIdeal_token _ _))
    all_goals
      intro tr tr1 h
      rw [doEncode_unsupported e _ s tr (by simp [Node.Kind]) (by simp [Node.Kind])
        (by simp [Node.Kind])] at h
      cases h

theorem doEncode_ok (e : xmlEncoder) (n : Node) (s : StartElement) (tr tr1 : List Token)
    (h : doEncode e n s tr = (tr1, none)) :
    tr1 = tr ++ elementTokens e n s ∧ Succeeds e n s := by
  obtain ⟨d, hd, hi⟩ := doEncode_sameAsIdeal e n s tr tr1 h
  have h0 := hi []
  simp only [List.nil_append] at h0
  constructor
  · rw [hd, elementTokens, h0]
  · rw [Succeeds, h0]

theorem doEncode_ideal (e : xmlEncoder) (n : Node) (s : StartElement) (h : Succeeds e n s)
    (tr : List Token) : doEncode (ideal e) n s tr = (tr ++ elementTokens e n s, none) := by
  have h0 : doEncode (ideal e) n s [] = (elementTokens e n s, none) := by
    rw [Succeeds] at h
    rw [elementTokens, ← h]
  obtain ⟨d, hd, hi⟩ := doEncode_sameAsIdeal (ideal e) n s [] _ h0
  simp only [List.nil_append] at hd
  rw [hd]
  exact hi tr

theorem doEncode_ideal_ok (e : xmlEncoder) (n : Node) (s : StartElement) (tr tr1 : List Token)
    (h : doEncode (ideal e) n s tr = (tr1, none)) :
    tr1 = tr ++ elementTokens e n s ∧ Succeeds e n s :=
  doEncode_ok (ideal e) n s tr tr1 h

/-! ## Entries of a mapping -/

theorem entries_flat (es : List (Node × Node)) : entries (flat es) = es := by
  induction es with
  | nil => rfl
  | cons kv rest ih =>
    obtain ⟨k, v⟩ := kv
    rw [flat, entries, ih]

theorem mem_of_mem_entries (c : List Node) :
    ∀ kv ∈ entries c, kv.1 ∈ c ∧ kv.2 ∈ c := by
  induction c using pairInduction with
  | h0 => intro kv h; cases h
  | h1 x => intro kv h; cases h
  | h2 k v rest ih =>
    intro kv h
    rw [entries] at h
    rcases List.mem_cons.1 h with rfl | h
    · simp
    · have := ih kv h
      simp [this.1, this.2]

theorem replaceFirst_of_isPrefixOf (p s : List Char) (h : p.isPrefixOf s = true) :
    replaceFirst p [] s = s.drop p.length := by
  cases s with
  | nil =>
    cases p with
    | nil => simp [replaceFirst]
    | cons a p => simp [List.isPrefixOf] at h
  | cons c cs => simp [replaceFirst, h]

theorem Replace1_of_HasPrefix (e : xmlEncoder) (key : Node)
    (h : HasPrefix key.Value e.attributePrefix = true) :
    Replace1 key.Value e.attributePrefix "" = attributeName e key := by
  rw [Replace1, attributeName]
  congr 1
  exact replaceFirst_of_isPrefixOf _ _ h

/-! ## The attribute pass -/

theorem attributes_cons_pos (e : xmlEncoder) (k v : Node) (rest : List (Node × Node))
    (h : isAttrKey e k = true) :
    attributes e ((k, v) :: rest) =
      { Name := { Local := attributeName e k }, Value := v.Value } :: attributes e rest := by
  simp [attributes, List.filterMap_cons, h]

theorem attributes_cons_neg (e : xmlEncoder) (k v : Node) (rest : List (Node × Node))
    (h : ¬ isAttrKey e k = true) :
    attributes e ((k, v) :: rest) = attributes e rest := by
  simp [attributes, List.filterMap_cons, h]



theorem encodeMapAttrs_ok (e : xmlEncoder) (c : List Node) :
    ∀ s s1, encodeMapAttrs e c s = .ok s1 →
      c = flat (entries c) ∧
      (∀ kv ∈ entries c, isAttrKey e kv.1 = true → kv.2.Kind = .ScalarNode) ∧
      s1 = { Name := s.Name, Attr := s.Attr ++ attributes e (entries c) } := by
  induction c using pairInduction with
  | h0 =>
    intro s s1 h
    rw [encodeMapAttrs] at h
    cases h
    simp [entries, flat, attributes]
  | h1 x =>
    intro s s1 h
    rw [encodeMapAttrs] at h
    cases h
  | h2 k v rest ih =>
    intro s s1 h
    rw [encodeMapAttrs] at h
    by_cases ha : isAttrKey e k = true
    · have ha1 : (HasPrefix k.Value e.attributePrefix && k.Value != e.contentName) = true := ha
      rw [if_pos ha1] at h
      by_cases hs : v.Kind = .ScalarNode
      · rw [if_pos hs] at h
        obtain ⟨h1, h2, h3⟩ := ih _ _ h
        have hp : HasPrefix k.Value e.attributePrefix = true := by
          simp only [Bool.and_eq_true] at ha1; exact ha1.1
        refine ⟨?_, ?_, ?_⟩
        · rw [entries, flat, ← h1]
        · intro kv hkv
          rw [entries] at hkv
          rcases List.mem_cons.1 hkv with rfl | hkv
          · intro _; exact hs
          · exact h2 kv hkv
        · rw [h3, entries, attributes_cons_pos e k v _ ha, Replace1_of_HasPrefix e k hp]
          simp
      · rw [if_neg hs] at h
        cases h
    · have ha1 : ¬ (HasPrefix k.Value e.attributePrefix && k.Value != e.contentName) = true := ha
      rw [if_neg ha1] at h
      obtain ⟨h1, h2, h3⟩ := ih _ _ h
      refine ⟨?_, ?_, ?_⟩
      · rw [entries, flat, ← h1]
      · intro kv hkv
        rw [entries] at hkv
        rcases List.mem_cons.1 hkv with rfl | hkv
        · intro h; exact absurd h ha
        · exact h2 kv hkv
      · rw [h3, entries, attributes_cons_neg e k v _ ha]

theorem encodeMapAttrs_flat (e : xmlEncoder) (es : List (Node × Node)) :
    ∀ s, (∀ kv ∈ es, isAttrKey e kv.1 = true → kv.2.Kind = .ScalarNode) →
      encodeMapAttrs e (flat es) s =
        .ok { Name := s.Name, Attr := s.Attr ++ attributes e es } := by
  induction es with
  | nil => intro s _; simp [flat, encodeMapAttrs, attributes]
  | cons kv rest ih =>
    obtain ⟨k, v⟩ := kv
    intro s h
    have hrest : ∀ kv ∈ rest, isAttrKey e kv.1 = true → kv.2.Kind = .ScalarNode :=
      fun kv hkv => h kv (List.mem_cons_of_mem _ hkv)
    rw [flat, encodeMapAttrs]
    by_cases ha : isAttrKey e k = true
    · have ha1 : (HasPrefix k.Value e.attributePrefix && k.Value != e.contentName) = true := ha
      have hs : v.Kind = .ScalarNode := h (k, v) (List.mem_cons_self _ _) ha
      have hp : HasPrefix k.Value e.attributePrefix = true := by
        simp only [Bool.and_eq_true] at ha1; exact ha1.1
      rw [if_pos ha1, if_pos hs, ih _ hrest, attributes_cons_pos e k v _ ha,
        Replace1_of_HasPrefix e k hp]
      simp
    · have ha1 : ¬ (HasPrefix k.Value e.attributePrefix && k.Value != e.contentName) = true := ha
      rw [if_neg ha1, ih _ hrest, attributes_cons_neg e k v _ ha]

theorem encodeMapAttrs_error (e : xmlEncoder) (c : List Node) :
    ∀ s, (∃ kv ∈ entries c, isAttrKey e kv.1 = true ∧ kv.2.Kind ≠ .ScalarNode) →
      ∃ kv ∈ entries c, isAttrKey e kv.1 = true ∧ kv.2.Kind ≠ .ScalarNode ∧
        encodeMapAttrs e c s = .error (.attributeNotScalar kv.2.Tag) := by
  induction c using pairInduction with
  | h0 => rintro s ⟨kv, h, _⟩; cases h
  | h1 x => rintro s ⟨kv, h, _⟩; cases h
  | h2 k v rest ih =>
    rintro s ⟨kv, hkv, hbad⟩
    rw [entries] at hkv
    rw [encodeMapAttrs]
    by_cases ha : isAttrKey e k = true
    · have ha1 : (HasPrefix k.Value e.attributePrefix && k.Value != e.contentName) = true := ha
      rw [if_pos ha1]
      by_cases hs : v.Kind = .ScalarNode
      · rw [if_pos hs]
        rcases List.mem_cons.1 hkv with rfl | hkv
        · exact absurd hs hbad.2
        · obtain ⟨kv1, h1, h2, h3, h4⟩ := ih _ ⟨kv, hkv, hbad⟩
          exact ⟨kv1, by rw [entries]; exact List.mem_cons_of_mem _ h1, h2, h3, h4⟩
      · rw [if_neg hs]
        exact ⟨(k, v), by rw [entries]; exact List.mem_cons_self _ _, ha, hs, rfl⟩
    · have ha1 : ¬ (HasPrefix k.Value e.attributePrefix && k.Value != e.contentName) = true := ha
      rw [if_neg ha1]
      rcases List.mem_cons.1 hkv with rfl | hkv
      · exact absurd hbad.1 ha
      · obtain ⟨kv1, h1, h2, h3, h4⟩ := ih s ⟨kv, hkv, hbad⟩
        exact ⟨kv1, by rw [entries]; exact List.mem_cons_of_mem _ h1, h2, h3, h4⟩

/-! ## What a successful call hands over -/

theorem encodeArrayLoop_ok (e : xmlEncoder) (c : List Node) (s : StartElement) :
    ∀ tr tr1, encodeArrayLoop e c s tr = (tr1, none) →
      (∀ v ∈ c, Succeeds e v s) ∧ tr1 = tr ++ c.flatMap (fun v => elementTokens e v s) := by
  induction c with
  | nil =>
    intro tr tr1 h
    rw [encodeArrayLoop] at h
    cases h
    simp
  | cons v rest ih =>
    intro tr tr1 h
    rw [encodeArrayLoop_cons] at h
    obtain ⟨t1, ha, hb⟩ := (andThen_eq_ok_iff _ _ _).1 h
    obtain ⟨h1, h2⟩ := doEncode_ok e v s tr t1 ha
    obtain ⟨h3, h4⟩ := ih t1 tr1 hb
    refine ⟨?_, ?_⟩
    · intro x hx
      rcases List.mem_cons.1 hx with rfl | hx
      · exact h2
      · exact h3 x hx
    · rw [h4, h1, List.flatMap_cons, List.append_assoc]

theorem entryTokens_body (e : xmlEncoder) (k v : Node) (h : isBodyKey e k = true) :
    entryTokens e (k, v) = elementTokens e v { Name := { Local := k.Value } } := by
  simp [entryTokens, h]

theorem entryTokens_content (e : xmlEncoder) (k v : Node) (h : ¬ isBodyKey e k = true)
    (hc : k.Value = e.contentName) : entryTokens e (k, v) = [.CharData v.Value] := by
  simp [entryTokens, h, hc]

theorem entryTokens_attr (e : xmlEncoder) (k v : Node) (h : ¬ isBodyKey e k = true)
    (hc : ¬ k.Value = e.contentName) : entryTokens e (k, v) = [] := by
  simp [entryTokens, h, hc]

theorem encodeMapBody_ok (e : xmlEncoder) (c : List Node) :
    ∀ tr tr1, encodeMapBody e c tr = (tr1, none) →
      c = flat (entries c) ∧
      (∀ kv ∈ entries c, isBodyKey e kv.1 = true →
        Succeeds e kv.2 { Name := { Local := kv.1.Value } }) ∧
      tr1 = tr ++ (entries c).flatMap (entryTokens e) := by
  induction c using pairInduction with
  | h0 =>
    intro tr tr1 h
    rw [encodeMapBody] at h
    cases h
    simp [entries, flat]
  | h1 x =>
    intro tr tr1 h
    rw [encodeMapBody] at h
    cases h
  | h2 k v rest ih =>
    intro tr tr1 h
    rw [encodeMapBody_cons] at h
    by_cases hb : isBodyKey e k = true
    · rw [if_pos hb] at h
      obtain ⟨t1, ha, hr⟩ := (andThen_eq_ok_iff _ _ _).1 h
      obtain ⟨h1, h2⟩ := doEncode_ok e v _ tr t1 ha
      obtain ⟨h3, h4, h5⟩ := ih t1 tr1 hr
      refine ⟨by rw [entries, flat, ← h3], ?_, ?_⟩
      · intro kv hkv
        rw [entries] at hkv
        rcases List.mem_cons.1 hkv with rfl | hkv
        · intro _; exact h2
        · exact h4 kv hkv
      · rw [h5, h1, entries, List.flatMap_cons, entryTokens_body e k v hb, List.append_assoc]
    · rw [if_neg hb] at h
      by_cases hc : k.Value = e.contentName
      · rw [if_pos hc] at h
        obtain ⟨t1, ha, hr⟩ := (andThen_eq_ok_iff _ _ _).1 h
        have h1 := EncodeToken_eq_ok _ _ _ _ ha
        obtain ⟨h3, h4, h5⟩ := ih t1 tr1 hr
        refine ⟨by rw [entries, flat, ← h3], ?_, ?_⟩
        · intro kv hkv
          rw [entries] at hkv
          rcases List.mem_cons.1 hkv with rfl | hkv
          · intro hk; exact absurd hk hb
          · exact h4 kv hkv
        · rw [h5, h1, entries, List.flatMap_cons, entryTokens_content e k v hb hc,
            List.append_assoc]
      · rw [if_neg hc] at h
        obtain ⟨h3, h4, h5⟩ := ih tr tr1 h
        refine ⟨by rw [entries, flat, ← h3], ?_, ?_⟩
        · intro kv hkv
          rw [entries] at hkv
          rcases List.mem_cons.1 hkv with rfl | hkv
          · intro hk; exact absurd hk hb
          · exact h4 kv hkv
        · rw [h5, entries, List.flatMap_cons, entryTokens_attr e k v hb hc, List.nil_append]

theorem encodeTopLevelMapLoop_ok (e : xmlEncoder) (c : List Node) :
    ∀ tr tr1, encodeTopLevelMapLoop e c tr = (tr1, none) →
      c = flat (entries c) ∧
      (∀ kv ∈ entries c, Succeeds e kv.2 { Name := { Local := kv.1.Value } }) ∧
      tr1 = tr ++ (entries c).flatMap
        (fun kv => elementTokens e kv.2 { Name := { Local := kv.1.Value } }) := by
  induction c using pairInduction with
  | h0 =>
    intro tr tr1 h
    rw [encodeTopLevelMapLoop] at h
    cases h
    simp [entries, flat]
  | h1 x =>
    intro tr tr1 h
    rw [encodeTopLevelMapLoop] at h
    cases h
  | h2 k v rest ih =>
    intro tr tr1 h
    rw [encodeTopLevelMapLoop_cons] at h
    obtain ⟨t1, ha, hr⟩ := (andThen_eq_ok_iff _ _ _).1 h
    obtain ⟨h1, h2⟩ := doEncode_ok e v _ tr t1 ha
    obtain ⟨h3, h4, h5⟩ := ih t1 tr1 hr
    refine ⟨by rw [entries, flat, ← h3], ?_, ?_⟩
    · intro kv hkv
      rw [entries] at hkv
      rcases List.mem_cons.1 hkv with rfl | hkv
      · exact h2
      · exact h4 kv hkv
    · rw [h5, h1, entries, List.flatMap_cons, List.append_assoc]

theorem doEncode_mapping_ok (e : xmlEncoder) (t v : String) (c : List Node) (s : StartElement)
    (tr tr1 : List Token) (h : doEncode e (.mk .MappingNode t v c) s tr = (tr1, none)) :
    c = flat (entries c) ∧
    (∀ kv ∈ entries c, isAttrKey e kv.1 = true → kv.2.Kind = .ScalarNode) ∧
    (∀ kv ∈ entries c, isBodyKey e kv.1 = true →
      Succeeds e kv.2 { Name := { Local := kv.1.Value } }) ∧
    tr1 = tr ++ Token.StartElement (mapStart e c s) :: (entries c).flatMap (entryTokens e) ++
      [Token.EndElement (mapStart e c s).End] := by
  rw [doEncode_mapping] at h
  cases hattr : encodeMapAttrs e c s with
  | error err => rw [hattr] at h; cases h
  | ok s1 =>
    rw [hattr] at h
    obtain ⟨a1, a2, a3⟩ := encodeMapAttrs_ok e c s s1 hattr
    obtain ⟨t1, h1, h2⟩ := (andThen_eq_ok_iff _ _ _).1 h
    obtain ⟨t2, h3, h4⟩ := (andThen_eq_ok_iff _ _ _).1 h2
    have e1 := EncodeToken_eq_ok _ _ _ _ h1
    have e3 := EncodeToken_eq_ok _ _ _ _ h4
    obtain ⟨b1, b2, b3⟩ := encodeMapBody_ok e c t1 t2 h3
    refine ⟨a1, a2, b2, ?_⟩
    rw [e3, b3, e1, mapStart, ← a3]
    simp

theorem doEncode_scalar_ok (e : xmlEncoder) (t v : String) (c : List Node) (s : StartElement)
    (tr tr1 : List Token) (h : doEncode e (.mk .ScalarNode t v c) s tr = (tr1, none)) :
    tr1 = tr ++ [Token.StartElement s, Token.CharData v, Token.EndElement s.End] := by
  rw [doEncode_scalar] at h
  obtain ⟨t1, h1, h2⟩ := (andThen_eq_ok_iff _ _ _).1 h
  obtain ⟨t2, h3, h4⟩ := (andThen_eq_ok_iff _ _ _).1 h2
  have e1 := EncodeToken_eq_ok _ _ _ _ h1
  have e2 := EncodeToken_eq_ok _ _ _ _ h3
  have e3 := EncodeToken_eq_ok _ _ _ _ h4
  rw [e3, e2, e1]
  simp

theorem succeeds_eq (e : xmlEncoder) (n : Node) (s : StartElement) (h : Succeeds e n s) :
    doEncode (ideal e) n s [] = ([] ++ elementTokens e n s, none) := by
  rw [Succeeds] at h
  rw [List.nil_append, elementTokens, ← h]

theorem elementTokens_scalar (e : xmlEncoder) (t v : String) (c : List Node) (s : StartElement) :
    elementTokens e (.mk .ScalarNode t v c) s =
      [Token.StartElement s, Token.CharData v, Token.EndElement s.End] := rfl

theorem elementTokens_sequence (e : xmlEncoder) (t v : String) (c : List Node) (s : StartElement)
    (h : Succeeds e (.mk .SequenceNode t v c) s) :
    (∀ x ∈ c, Succeeds e x s) ∧
    elementTokens e (.mk .SequenceNode t v c) s = c.flatMap (fun x => elementTokens e x s) := by
  have h0 := succeeds_eq e _ s h
  rw [doEncode_sequence] at h0
  obtain ⟨h1, h2⟩ := encodeArrayLoop_ok (ideal e) c s _ _ h0
  exact ⟨h1, List.append_cancel_left h2⟩

theorem elementTokens_mapping (e : xmlEncoder) (t v : String) (c : List Node) (s : StartElement)
    (h : Succeeds e (.mk .MappingNode t v c) s) :
    c = flat (entries c) ∧
    (∀ kv ∈ entries c, isAttrKey e kv.1 = true → kv.2.Kind = .ScalarNode) ∧
    (∀ kv ∈ entries c, isBodyKey e kv.1 = true →
      Succeeds e kv.2 { Name := { Local := kv.1.Value } }) ∧
    elementTokens e (.mk .MappingNode t v c) s =
      Token.StartElement (mapStart e c s) :: (entries c).flatMap (entryTokens e) ++
        [Token.EndElement (mapStart e c s).End] := by
  have h0 := succeeds_eq e _ s h
  obtain ⟨h1, h2, h3, h4⟩ := doEncode_mapping_ok (ideal e) t v c s _ _ h0
  exact ⟨h1, h2, h3, List.append_cancel_left h4⟩

theorem not_succeeds_unsupported (e : xmlEncoder) (n : Node) (s : StartElement)
    (h1 : n.Kind ≠ .MappingNode) (h2 : n.Kind ≠ .SequenceNode) (h3 : n.Kind ≠ .ScalarNode) :
    ¬ Succeeds e n s := by
  rw [Succeeds, doEncode_unsupported (ideal e) n s [] h1 h2 h3]
  simp

/-! ## Nesting depth of the tokens of a call, successful or not -/

theorem keepsInside_skip (d : Nat) : KeepsInside d d (fun tr => (tr, none)) := by
  intro tr
  exact ⟨[], by simp, by simp [topStarts], fun _ rest => by simp⟩

theorem keepsInside_error (d d1 : Nat) (err : EncodeError) :
    KeepsInside d d1 (fun tr => (tr, some err)) := by
  intro tr
  exact ⟨[], by simp, by simp [topStarts], fun h => by simp at h⟩

theorem keepsInside_charData (w : XmlWriter) (d : Nat) (x : String) :
    KeepsInside d d (fun tr => EncodeToken w tr (.CharData x)) := by
  intro tr
  exact ⟨[.CharData x], rfl, by simp [topStarts], fun _ rest => by simp [topStarts]⟩

theorem keepsInside_startElement (w : XmlWriter) (d : Nat) (x : StartElement) :
    KeepsInside (d + 1) (d + 2) (fun tr => EncodeToken w tr (.StartElement x)) := by
  intro tr
  exact ⟨[.StartElement x], rfl, by simp [topStarts], fun _ rest => by simp [topStarts]⟩

theorem keepsInside_endElement (w : XmlWriter) (d : Nat) (x : EndElement) :
    KeepsInside (d + 1) d (fun tr => EncodeToken w tr (.EndElement x)) := by
  intro tr
  exact ⟨[.EndElement x], rfl, by simp [topStarts], fun _ rest => by simp [topStarts]⟩

theorem keepsInside_andThen {d d1 d2 : Nat} {r1 r2 : List Token → Outcome}
    (h1 : KeepsInside d d1 r1) (h2 : KeepsInside d1 d2 r2) :
    KeepsInside d d2 (fun tr => Yqlib.andThen (r1 tr) r2) := by
  intro tr
  obtain ⟨em1, ha, hb, hc⟩ := h1 tr
  show ∃ em, (Yqlib.andThen (r1 tr) r2).1 = tr ++ em ∧ topStarts d em = [] ∧
    ((Yqlib.andThen (r1 tr) r2).2 = none → ∀ rest, topStarts d (em ++ rest) = topStarts d2 rest)
  rcases hr : r1 tr with ⟨t1, _ | err⟩
  · rw [hr] at ha hc
    simp only [forall_const] at hc
    have ha1 : t1 = tr ++ em1 := ha
    obtain ⟨em2, ha2, hb2, hc2⟩ := h2 t1
    refine ⟨em1 ++ em2, ?_, ?_, ?_⟩
    · show (r2 t1).1 = _
      rw [ha2, ha1, List.append_assoc]
    · rw [hc, hb2]
    · intro hok rest
      rw [List.append_assoc, hc]
      exact hc2 hok rest
  · rw [hr] at ha
    exact ⟨em1, ha, hb, fun h => by cases h⟩

theorem doEncode_unsupported_fun (e : xmlEncoder) (k : Kind) (t v : String) (c : List Node)
    (s : StartElement) (h1 : k ≠ .MappingNode) (h2 : k ≠ .SequenceNode) (h3 : k ≠ .ScalarNode) :
    doEncode e (.mk k t v c) s = fun tr => (tr, some (.unsupportedType t)) := by
  funext tr
  exact doEncode_unsupported e (.mk k t v c) s tr h1 h2 h3

theorem encodeArrayLoop_keepsInside (e : xmlEncoder) (c : List Node) (d : Nat)
    (ih : ∀ n ∈ c, ∀ s, KeepsInside (d + 1) (d + 1) (doEncode e n s)) :
    ∀ s, KeepsInside (d + 1) (d + 1) (encodeArrayLoop e c s) := by
  induction c with
  | nil =>
    intro s
    have h1 : encodeArrayLoop e [] s = fun tr => (tr, none) := by
      funext tr; rw [encodeArrayLoop]
    rw [h1]
    exact keepsInside_skip _
  | cons v rest ihr =>
    intro s
    have h1 : encodeArrayLoop e (v :: rest) s =
        fun tr => andThen (doEncode e v s tr) (encodeArrayLoop e rest s) := by
      funext tr; rw [encodeArrayLoop_cons]
    rw [h1]
    exact keepsInside_andThen (ih v (List.mem_cons_self _ _) s)
      (ihr (fun n hn => ih n (List.mem_cons_of_mem _ hn)) s)

theorem encodeMapBody_keepsInside (e : xmlEncoder) (c : List Node) (d : Nat)
    (ih : ∀ n ∈ c, ∀ s, KeepsInside (d + 1) (d + 1) (doEncode e n s)) :
    KeepsInside (d + 1) (d + 1) (encodeMapBody e c) := by
  induction c using pairInduction with
  | h0 =>
    have h1 : encodeMapBody e [] = fun tr => (tr, none) := by
      funext tr; rw [encodeMapBody]
    rw [h1]
    exact keepsInside_skip _
  | h1 x =>
    have h1 : encodeMapBody e [x] = fun tr => (tr, some .indexOutOfRange) := by
      funext tr; rw [encodeMapBody]
    rw [h1]
    exact keepsInside_error _ _ _
  | h2 k v rest ihr =>
    have ihr1 := ihr (fun n hn => ih n (List.mem_cons_of_mem _ (List.mem_cons_of_mem _ hn)))
    by_cases hb : isBodyKey e k = true
    · have h1 : encodeMapBody e (k :: v :: rest) =
          fun tr => andThen (doEncode e v { Name := { Local := k.Value } } tr)
            (encodeMapBody e rest) := by
        funext tr; rw [encodeMapBody_cons, if_pos hb]
      rw [h1]
      exact keepsInside_andThen (ih v (by simp) _) ihr1
    · by_cases hc : k.Value = e.contentName
      · have h1 : encodeMapBody e (k :: v :: rest) =
            fun tr => andThen (EncodeToken e.xmlEncoder tr (.CharData v.Value))
              (encodeMapBody e rest) := by
          funext tr; rw [encodeMapBody_cons, if_neg hb, if_pos hc]
        rw [h1]
        exact keepsInside_andThen (keepsInside_charData _ _ _) ihr1
      · have h1 : encodeMapBody e (k :: v :: rest) = encodeMapBody e rest := by
          funext tr; rw [encodeMapBody_cons, if_neg hb, if_neg hc]
        rw [h1]
        exact ihr1

theorem doEncode_keepsInside (e : xmlEncoder) :
    ∀ (n : Node) (d : Nat) (s : StartElement), KeepsInside (d + 1) (d + 1) (doEncode e n s) := by
  intro n
  induction n using Node.induct with
  | h k t v c ih =>
    intro d s
    cases k
    case MappingNode =>
      cases hattr : encodeMapAttrs e c s with
      | error err =>
        have h1 : doEncode e (.mk .MappingNode t v c) s = fun tr => (tr, some err) := by
          funext tr; rw [doEncode_mapping, hattr]
        rw [h1]
        exact keepsInside_error _ _ _
      | ok s1 =>
        have h1 : doEncode e (.mk .MappingNode t v c) s =
            fun tr => andThen (EncodeToken e.xmlEncoder tr (.StartElement s1))
              fun t1 => andThen (encodeMapBody e c t1)
                fun t2 => EncodeToken e.xmlEncoder t2 (.EndElement s1.End) := by
          funext tr; rw [doEncode_mapping, hattr]
        rw [h1]
        exact keepsInside_andThen (keepsInside_startElement _ _ _)
          (keepsInside_andThen
            (encodeMapBody_keepsInside e c (d + 1) (fun n hn s => ih n hn (d + 1) s))
            (keepsInside_endElement _ _ _))
    case SequenceNode =>
      have h1 : doEncode e (.mk .SequenceNode t v c) s = encodeArrayLoop e c s := by
        funext tr; rw [doEncode_sequence]
      rw [h1]
      exact encodeArrayLoop_keepsInside e c d (fun n hn s => ih n hn d s) s
    case ScalarNode =>
      have h1 : doEncode e (.mk .ScalarNode t v c) s =
          fun tr => andThen (EncodeToken e.xmlEncoder tr (.StartElement s))
            fun t1 => andThen (EncodeToken e.xmlEncoder t1 (.CharData v))
              fun t2 => EncodeToken e.xmlEncoder t2 (.EndElement s.End) := by
        funext tr; rw [doEncode_scalar]
      rw [h1]
      exact keepsInside_andThen (keepsInside_startElement _ _ _)
        (keepsInside_andThen (keepsInside_charData _ _ _) (keepsInside_endElement _ _ _))
    all_goals
      rw [doEncode_unsupported_fun e _ t v c s (by decide) (by decide) (by decide)]
      exact keepsInside_error _ _ _

theorem encodeMap_eq (e : xmlEncoder) (node : Node) (s : StartElement) (tr : List Token) :
    encodeMap e node s tr =
      doEncode e (.mk .MappingNode node.Tag node.Value node.Content) s tr := by
  rw [doEncode_mapping]; rfl

theorem Encode_mapping_eq (e : xmlEncoder) (u : Node → Node) (fuel : Nat) (node : Node)
    (tr : List Token) (hk : node.Kind = .MappingNode) :
    Encode e u fuel node tr =
      some (andThen (encodeTopLevelMap e node tr) fun t1 =>
        andThen (EncodeToken e.xmlEncoder t1 (.CharData "\n")) fun t2 =>
          Flush e.xmlEncoder t2) := by
  cases fuel <;>
  · rw [Encode]
    simp only [hk]
    rcases encodeTopLevelMap e node tr with ⟨t1, _ | err⟩
    · simp only [andThen]
      rcases EncodeToken e.xmlEncoder t1 (Token.CharData "\n") with ⟨t2, _ | err⟩ <;> rfl
    · rfl

/-! ## Elements opened at the depth of a call -/

theorem topStarts_start_zero (s : StartElement) (ts : List Token) :
    topStarts 0 (.StartElement s :: ts) = s :: topStarts 1 ts := by
  rw [topStarts]; rfl

theorem topStarts_end_succ (d : Nat) (x : EndElement) (ts : List Token) :
    topStarts (d + 1) (.EndElement x :: ts) = topStarts d ts := by
  rw [topStarts]; rfl

theorem topStarts_charData (d : Nat) (x : String) (ts : List Token) :
    topStarts d (.CharData x :: ts) = topStarts d ts := by
  rw [topStarts]



theorem mapping_body_run (e : xmlEncoder) (t v : String) (c : List Node) (s : StartElement)
    (h : Succeeds e (.mk .MappingNode t v c) s) :
    encodeMapBody (ideal e) c [Token.StartElement (mapStart e c s)] =
      ([Token.StartElement (mapStart e c s)] ++ (entries c).flatMap (entryTokens e), none) := by
  have h0 := succeeds_eq e _ s h
  rw [doEncode_mapping] at h0
  cases hattr : encodeMapAttrs (ideal e) c s with
  | error err =>
    rw [hattr] at h0
    have := congrArg Prod.snd h0
    simp at this
  | ok s1 =>
    rw [hattr] at h0
    obtain ⟨_, _, a3⟩ := encodeMapAttrs_ok (ideal e) c s s1 hattr
    have a4 : s1 = mapStart e c s := a3
    obtain ⟨t1, h1, h2⟩ := (andThen_eq_ok_iff _ _ _).1 h0
    obtain ⟨t2, h3, _⟩ := (andThen_eq_ok_iff _ _ _).1 h2
    have e1 := EncodeToken_eq_ok _ _ _ _ h1
    obtain ⟨_, _, b3⟩ := encodeMapBody_ok (ideal e) c t1 t2 h3
    rw [List.nil_append] at e1
    rw [e1, a4] at h3 b3
    rw [h3, b3]
    rfl

theorem mapping_body_topStarts (e : xmlEncoder) (t v : String) (c : List Node) (s : StartElement)
    (h : Succeeds e (.mk .MappingNode t v c) s) (d : Nat) (rest : List Token) :
    topStarts (d + 1) ((entries c).flatMap (entryTokens e) ++ rest) = topStarts (d + 1) rest := by
  have hrun := mapping_body_run e t v c s h
  obtain ⟨em, ha, _, hc⟩ := encodeMapBody_keepsInside (ideal e) c d
    (fun n _ s => doEncode_keepsInside (ideal e) n d s) [Token.StartElement (mapStart e c s)]
  rw [hrun] at ha hc
  have hem : (entries c).flatMap (entryTokens e) = em := List.append_cancel_left ha
  rw [hem]
  exact hc rfl rest

theorem items_rootsNamed (e : xmlEncoder) (c : List Node) (s : StartElement)
    (ih : ∀ n ∈ c, RootsNamed e n) (hs : ∀ n ∈ c, Succeeds e n s) :
    ∀ rest, ∃ rs,
      topStarts 0 (c.flatMap (fun x => elementTokens e x s) ++ rest) = rs ++ topStarts 0 rest ∧
      (∀ x ∈ rs, x.Name = s.Name) ∧
      ((∀ n ∈ c, n.Kind ≠ .SequenceNode) → rs.length = c.length) := by
  induction c with
  | nil => intro rest; exact ⟨[], by simp, by simp, by simp⟩
  | cons v tl ihr =>
    intro rest
    obtain ⟨rs2, h1, h2, h3⟩ := ihr (fun n hn => ih n (List.mem_cons_of_mem _ hn))
      (fun n hn => hs n (List.mem_cons_of_mem _ hn)) rest
    obtain ⟨rs1, g1, g2, g3⟩ := ih v (List.mem_cons_self _ _) s (hs v (List.mem_cons_self _ _))
      (tl.flatMap (fun x => elementTokens e x s) ++ rest)
    refine ⟨rs1 ++ rs2, ?_, ?_, ?_⟩
    · rw [List.flatMap_cons, List.append_assoc, g1, h1, List.append_assoc]
    · intro x hx
      rcases List.mem_append.1 hx with hx | hx
      · exact g2 x hx
      · exact h2 x hx
    · intro hk
      rw [List.length_append, g3 (hk v (List.mem_cons_self _ _)),
        h3 (fun n hn => hk n (List.mem_cons_of_mem _ hn)), List.length_cons]
      omega

theorem doEncode_rootsNamed (e : xmlEncoder) : ∀ n, RootsNamed e n := by
  intro n
  induction n using Node.induct with
  | h k t v c ih =>
    intro s hs rest
    cases k
    case MappingNode =>
      obtain ⟨_, _, _, h4⟩ := elementTokens_mapping e t v c s hs
      refine ⟨[mapStart e c s], ?_, ?_, fun _ => rfl⟩
      · rw [h4]
        have hb := mapping_body_topStarts e t v c s hs 0
          (Token.EndElement (mapStart e c s).End :: rest)
        rw [Nat.zero_add, topStarts_end_succ] at hb
        simp only [List.cons_append, List.append_assoc, List.singleton_append, List.nil_append]
        rw [topStarts_start_zero, hb]
      · intro x hx
        rw [List.mem_singleton.1 hx]
        rfl
    case SequenceNode =>
      obtain ⟨h1, h2⟩ := elementTokens_sequence e t v c s hs
      obtain ⟨rs, g1, g2, _⟩ := items_rootsNamed e c s ih h1 rest
      exact ⟨rs, by rw [h2, g1], g2, fun h => absurd rfl h⟩
    case ScalarNode =>
      refine ⟨[s], ?_, by simp, fun _ => rfl⟩
      rw [elementTokens_scalar]
      simp only [List.cons_append, List.nil_append, List.singleton_append]
      rw [topStarts_start_zero, topStarts_charData, topStarts_end_succ]
    all_goals
      exact absurd hs (not_succeeds_unsupported e _ s (by simp [Node.Kind]) (by simp [Node.Kind])
        (by simp [Node.Kind]))

theorem encodeTopLevelMapLoop_ideal (e : xmlEncoder) (es : List (Node × Node))
    (hs : ∀ kv ∈ es, Succeeds e kv.2 { Name := { Local := kv.1.Value } }) :
    ∀ tr, encodeTopLevelMapLoop (ideal e) (flat es) tr =
      (tr ++ es.flatMap (fun kv => elementTokens e kv.2 { Name := { Local := kv.1.Value } }),
        none) := by
  induction es with
  | nil => intro tr; rw [flat, encodeTopLevelMapLoop]; simp
  | cons kv tl ih =>
    obtain ⟨k, v⟩ := kv
    intro tr
    rw [flat, encodeTopLevelMapLoop_cons, doEncode_ideal e v _ (hs (k, v) (List.mem_cons_self _ _))]
    show encodeTopLevelMapLoop (ideal e) (flat tl) _ = _
    rw [ih (fun kv hkv => hs kv (List.mem_cons_of_mem _ hkv)), List.flatMap_cons,
      List.append_assoc]

/-! ## Nodes in element position -/

theorem Encode_mapping_ok (e : xmlEncoder) (u : Node → Node) (fuel : Nat) (node : Node)
    (tr out : List Token) (hk : node.Kind = .MappingNode)
    (h : Encode e u fuel node tr = some (out, none)) :
    ∃ t1, encodeTopLevelMapLoop e node.Content tr = (t1, none) ∧
      out = t1 ++ [Token.CharData "\n"] := by
  rw [Encode_mapping_eq e u fuel node tr hk] at h
  have h0 := Option.some.inj h
  obtain ⟨t1, h1, h2⟩ := (andThen_eq_ok_iff _ _ _).1 h0
  obtain ⟨t2, h3, h4⟩ := (andThen_eq_ok_iff _ _ _).1 h2
  have e2 := EncodeToken_eq_ok _ _ _ _ h3
  have e3 : out = t2 := (congrArg Prod.fst h4).symm
  exact ⟨t1, h1, by rw [e3, e2]⟩

theorem infix_flatMap_mem {α β : Type} (f : α → List β) (l : List α) (a : α) (h : a ∈ l) :
    f a <:+: l.flatMap f :=
  List.infix_of_mem_flatten (List.mem_map_of_mem f h)

theorem elementPosition_tokens (e : xmlEncoder) (u : Node → Node) (fuel : Nat) (top : Node)
    (tr out : List Token) (hk : top.Kind = .MappingNode)
    (h : Encode e u fuel top tr = some (out, none)) :
    ∀ K n, ElementPosition e top K n →
      Succeeds e n { Name := { Local := K } } ∧
      elementTokens e n { Name := { Local := K } } <:+: out := by
  obtain ⟨t1, h1, h2⟩ := Encode_mapping_ok e u fuel top tr out hk h
  obtain ⟨_, a2, a3⟩ := encodeTopLevelMapLoop_ok e top.Content tr t1 h1
  intro K n hp
  induction hp with
  | topEntry kv hkv =>
    refine ⟨a2 kv hkv, ?_⟩
    rw [h2, a3]
    exact (infix_flatMap_mem
      (fun kv => elementTokens e kv.2 { Name := { Local := kv.1.Value } }) _ kv hkv).trans
      (List.infix_append tr _ _)
  | bodyEntry K m kv _ hkm hkv hb ih =>
    obtain ⟨s1, i1⟩ := ih
    cases m with
    | mk k t v c =>
      have hk1 : k = .MappingNode := hkm
      subst hk1
      obtain ⟨_, _, b3, b4⟩ := elementTokens_mapping e t v c _ s1
      refine ⟨b3 kv hkv hb, ?_⟩
      have i2 := infix_flatMap_mem (entryTokens e) (entries c) kv hkv
      rw [show entryTokens e kv = elementTokens e kv.2 { Name := { Local := kv.1.Value } } from
        entryTokens_body e kv.1 kv.2 hb] at i2
      refine (i2.trans ?_).trans i1
      rw [b4]
      exact List.infix_append [_] _ _
  | item K sq x _ hks hx ih =>
    obtain ⟨s1, i1⟩ := ih
    cases sq with
    | mk k t v c =>
      have hk1 : k = .SequenceNode := hks
      subst hk1
      obtain ⟨b1, b2⟩ := elementTokens_sequence e t v c _ s1
      refine ⟨b1 x hx, ?_⟩
      have i2 := infix_flatMap_mem (fun x => elementTokens e x { Name := { Local := K } }) c x hx
      refine i2.trans ?_
      rw [← b2]
      exact i1

/-! ## Valid nesting -/

theorem nesting_scalar (st : List Name) (s : StartElement) (v : String) (rest : List Token) :
    nesting st (Token.StartElement s :: Token.CharData v :: Token.EndElement s.End :: rest) =
      nesting st rest := by
  rw [nesting, nesting, nesting]
  simp [StartElement.End]

theorem items_balanced (e : xmlEncoder) (c : List Node) (s : StartElement)
    (ih : ∀ n ∈ c, Balanced e n) (hs : ∀ n ∈ c, Succeeds e n s) :
    ∀ st rest, nesting st (c.flatMap (fun x => elementTokens e x s) ++ rest) = nesting st rest := by
  induction c with
  | nil => intro st rest; rfl
  | cons v tl ihr =>
    intro st rest
    rw [List.flatMap_cons, List.append_assoc,
      ih v (List.mem_cons_self _ _) s (hs v (List.mem_cons_self _ _)),
      ihr (fun n hn => ih n (List.mem_cons_of_mem _ hn))
        (fun n hn => hs n (List.mem_cons_of_mem _ hn))]

theorem entries_balanced (e : xmlEncoder) (es : List (Node × Node))
    (ih : ∀ kv ∈ es, Balanced e kv.2)
    (hs : ∀ kv ∈ es, isBodyKey e kv.1 = true → Succeeds e kv.2 { Name := { Local := kv.1.Value } }) :
    ∀ top st rest, nesting (top :: st) (es.flatMap (entryTokens e) ++ rest) =
      nesting (top :: st) rest := by
  induction es with
  | nil => intro top st rest; rfl
  | cons kv tl ihr =>
    intro top st rest
    obtain ⟨k, v⟩ := kv
    have ihr1 := ihr (fun n hn => ih n (List.mem_cons_of_mem _ hn))
      (fun n hn => hs n (List.mem_cons_of_mem _ hn)) top st rest
    rw [List.flatMap_cons, List.append_assoc]
    by_cases hb : isBodyKey e k = true
    · rw [entryTokens_body e k v hb,
        ih (k, v) (List.mem_cons_self _ _) _ (hs (k, v) (List.mem_cons_self _ _) hb), ihr1]
    · by_cases hc : k.Value = e.contentName
      · rw [entryTokens_content e k v hb hc, List.singleton_append, nesting, ihr1]
      · rw [entryTokens_attr e k v hb hc, List.nil_append, ihr1]

theorem doEncode_balanced (e : xmlEncoder) : ∀ n, Balanced e n := by
  intro n
  induction n using Node.induct with
  | h k t v c ih =>
    intro s hs st rest
    cases k
    case MappingNode =>
      obtain ⟨_, _, h3, h4⟩ := elementTokens_mapping e t v c s hs
      rw [h4]
      simp only [List.cons_append, List.append_assoc, List.singleton_append, List.nil_append]
      rw [nesting, entries_balanced e (entries c)
        (fun kv hkv => ih kv.2 (mem_of_mem_entries c kv hkv).2) h3, nesting]
      simp [StartElement.End, mapStart]
    case SequenceNode =>
      obtain ⟨h1, h2⟩ := elementTokens_sequence e t v c s hs
      rw [h2]
      exact items_balanced e c s ih h1 st rest
    case ScalarNode =>
      rw [elementTokens_scalar]
      exact nesting_scalar st s v rest
    all_goals
      exact absurd hs (not_succeeds_unsupported e _ s (by simp [Node.Kind]) (by simp [Node.Kind])
        (by simp [Node.Kind]))

theorem topLevel_balanced (e : xmlEncoder) (es : List (Node × Node))
    (hs : ∀ kv ∈ es, Succeeds e kv.2 { Name := { Local := kv.1.Value } }) :
    ∀ st rest, nesting st (es.flatMap
        (fun kv => elementTokens e kv.2 { Name := { Local := kv.1.Value } }) ++ rest) =
      nesting st rest := by
  induction es with
  | nil => intro st rest; rfl
  | cons kv tl ihr =>
    intro st rest
    rw [List.flatMap_cons, List.append_assoc,
      doEncode_balanced e kv.2 _ (hs kv (List.mem_cons_self _ _)),
      ihr (fun n hn => hs n (List.mem_cons_of_mem _ hn))]

/-! ## Complete mappings never panic -/

theorem evenMappingsList_iff (c : List Node) :
    evenMappingsList c = true ↔ ∀ n ∈ c, evenMappings n = true := by
  induction c with
  | nil => simp [evenMappingsList]
  | cons x xs ih => simp [evenMappingsList, ih]

theorem evenMappings_mk (k : Kind) (t v : String) (c : List Node) :
    evenMappings (.mk k t v c) = true ↔
      (k = .MappingNode → c.length % 2 = 0) ∧ ∀ n ∈ c, evenMappings n = true := by
  rw [evenMappings, Bool.and_eq_true, evenMappingsList_iff]
  by_cases hk : k = .MappingNode <;> simp [hk]

theorem noPanic_andThen {r1 r2 : List Token → Outcome} (h1 : NoPanic r1) (h2 : NoPanic r2) :
    NoPanic (fun tr => andThen (r1 tr) r2) := by
  intro tr
  show (andThen (r1 tr) r2).2 ≠ _
  rcases hr : r1 tr with ⟨t1, _ | err⟩
  · exact h2 t1
  · have := h1 tr
    rw [hr] at this
    exact this

theorem noPanic_token (w : XmlWriter) (t : Token) : NoPanic (fun tr => EncodeToken w tr t) := by
  intro tr
  show (w.EncodeTokenErr tr t).map EncodeError.writer ≠ _
  cases w.EncodeTokenErr tr t <;> simp

theorem noPanic_skip : NoPanic (fun tr => (tr, none)) := by
  intro tr; simp

theorem encodeMapAttrs_noPanic (e : xmlEncoder) (c : List Node) :
    c.length % 2 = 0 → ∀ s, encodeMapAttrs e c s ≠ .error .indexOutOfRange := by
  induction c using pairInduction with
  | h0 => intro _ s; rw [encodeMapAttrs]; simp
  | h1 x => intro h; simp at h
  | h2 k v rest ih =>
    intro h s
    have hr : rest.length % 2 = 0 := by
      simp only [List.length_cons] at h; omega
    rw [encodeMapAttrs]
    split
    · split
      · exact ih hr _
      · simp
    · exact ih hr _

theorem encodeArrayLoop_noPanic (e : xmlEncoder) (c : List Node)
    (ih : ∀ n ∈ c, ∀ s, NoPanic (doEncode e n s)) : ∀ s, NoPanic (encodeArrayLoop e c s) := by
  induction c with
  | nil =>
    intro s
    have h1 : encodeArrayLoop e [] s = fun tr => (tr, none) := by
      funext tr; rw [encodeArrayLoop]
    rw [h1]
    exact noPanic_skip
  | cons v rest ihr =>
    intro s
    have h1 : encodeArrayLoop e (v :: rest) s =
        fun tr => andThen (doEncode e v s tr) (encodeArrayLoop e rest s) := by
      funext tr; rw [encodeArrayLoop_cons]
    rw [h1]
    exact noPanic_andThen (ih v (List.mem_cons_self _ _) s)
      (ihr (fun n hn => ih n (List.mem_cons_of_mem _ hn)) s)

theorem encodeMapBody_noPanic (e : xmlEncoder) (c : List Node) :
    c.length % 2 = 0 → (∀ n ∈ c, ∀ s, NoPanic (doEncode e n s)) →
      NoPanic (encodeMapBody e c) := by
  induction c using pairInduction with
  | h0 =>
    intro _ _
    have h1 : encodeMapBody e [] = fun tr => (tr, none) := by
      funext tr; rw [encodeMapBody]
    rw [h1]
    exact noPanic_skip
  | h1 x => intro h; simp at h
  | h2 k v rest ihr =>
    intro h ih
    have hr : rest.length % 2 = 0 := by
      simp only [List.length_cons] at h; omega
    have ihr1 := ihr hr (fun n hn => ih n (List.mem_cons_of_mem _ (List.mem_cons_of_mem _ hn)))
    by_cases hb : isBodyKey e k = true
    · have h1 : encodeMapBody e (k :: v :: rest) =
          fun tr => andThen (doEncode e v { Name := { Local := k.Value } } tr)
            (encodeMapBody e rest) := by
        funext tr; rw [encodeMapBody_cons, if_pos hb]
      rw [h1]
      exact noPanic_andThen (ih v (by simp) _) ihr1
    · by_cases hc : k.Value = e.contentName
      · have h1 : encodeMapBody e (k :: v :: rest) =
            fun tr => andThen (EncodeToken e.xmlEncoder tr (.CharData v.Value))
              (encodeMapBody e rest) := by
          funext tr; rw [encodeMapBody_cons, if_neg hb, if_pos hc]
        rw [h1]
        exact noPanic_andThen (noPanic_token _ _) ihr1
      · have h1 : encodeMapBody e (k :: v :: rest) = encodeMapBody e rest := by
          funext tr; rw [encodeMapBody_cons, if_neg hb, if_neg hc]
        rw [h1]
        exact ihr1

theorem doEncode_noPanic (e : xmlEncoder) :
    ∀ n, evenMappings n = true → ∀ s, NoPanic (doEncode e n s) := by
  intro n
  induction n using Node.induct with
  | h k t v c ih =>
    intro hw s
    obtain ⟨hw1, hw2⟩ := (evenMappings_mk k t v c).1 hw
    have ih1 : ∀ n ∈ c, ∀ s, NoPanic (doEncode e n s) := fun n hn => ih n hn (hw2 n hn)
    cases k
    case MappingNode =>
      cases hattr : encodeMapAttrs e c s with
      | error err =>
        have h1 : doEncode e (.mk .MappingNode t v c) s = fun tr => (tr, some err) := by
          funext tr; rw [doEncode_mapping, hattr]
        rw [h1]
        intro tr h
        have h2 : err = .indexOutOfRange := Option.some.inj h
        rw [h2] at hattr
        exact encodeMapAttrs_noPanic e c (hw1 rfl) s hattr
      | ok s1 =>
        have h1 : doEncode e (.mk .MappingNode t v c) s =
            fun tr => andThen (EncodeToken e.xmlEncoder tr (.StartElement s1))
              fun t1 => andThen (encodeMapBody e c t1)
                fun t2 => EncodeToken e.xmlEncoder t2 (.EndElement s1.End) := by
          funext tr; rw [doEncode_mapping, hattr]
        rw [h1]
        exact noPanic_andThen (noPanic_token _ _)
          (noPanic_andThen (encodeMapBody_noPanic e c (hw1 rfl) ih1) (noPanic_token _ _))
    case SequenceNode =>
      have h1 : doEncode e (.mk .SequenceNode t v c) s = encodeArrayLoop e c s := by
        funext tr; rw [doEncode_sequence]
      rw [h1]
      exact encodeArrayLoop_noPanic e c ih1 s
    case ScalarNode =>
      have h1 : doEncode e (.mk .ScalarNode t v c) s =
          fun tr => andThen (EncodeToken e.xmlEncoder tr (.StartElement s))
            fun t1 => andThen (EncodeToken e.xmlEncoder t1 (.CharData v))
              fun t2 => EncodeToken e.xmlEncoder t2 (.EndElement s.End) := by
        funext tr; rw [doEncode_scalar]
      rw [h1]
      exact noPanic_andThen (noPanic_token _ _)
        (noPanic_andThen (noPanic_token _ _) (noPanic_token _ _))
    all_goals
      rw [doEncode_unsupported_fun e _ t v c s (by decide) (by decide) (by decide)]
      intro tr h
      cases h

theorem encodeTopLevelMapLoop_noPanic (e : xmlEncoder) (c : List Node) :
    c.length % 2 = 0 → (∀ n ∈ c, evenMappings n = true) →
      NoPanic (encodeTopLevelMapLoop e c) := by
  induction c using pairInduction with
  | h0 =>
    intro _ _
    have h1 : encodeTopLevelMapLoop e [] = fun tr => (tr, none) := by
      funext tr; rw [encodeTopLevelMapLoop]
    rw [h1]
    exact noPanic_skip
  | h1 x => intro h; simp at h
  | h2 k v rest ihr =>
    intro h ih
    have hr : rest.length % 2 = 0 := by
      simp only [List.length_cons] at h; omega
    have ihr1 := ihr hr (fun n hn => ih n (List.mem_cons_of_mem _ (List.mem_cons_of_mem _ hn)))
    have h1 : encodeTopLevelMapLoop e (k :: v :: rest) =
        fun tr => andThen (doEncode e v { Name := { Local := k.Value } } tr)
          (encodeTopLevelMapLoop e rest) := by
      funext tr; rw [encodeTopLevelMapLoop_cons]
    rw [h1]
    exact noPanic_andThen (doEncode_noPanic e v (ih v (by simp)) _) ihr1

theorem Encode_mapping_noPanic (e : xmlEncoder) (u : Node → Node) (fuel : Nat) (top : Node)
    (tr : List Token) (hk : top.Kind = .MappingNode) (hw : evenMappings top = true) :
    ∃ o, Encode e u fuel top tr = some o ∧ o.2 ≠ some .indexOutOfRange := by
  refine ⟨_, Encode_mapping_eq e u fuel top tr hk, ?_⟩
  cases top with
  | mk k t v c =>
    have hk1 : k = .MappingNode := hk
    subst hk1
    obtain ⟨hw1, hw2⟩ := (evenMappings_mk _ t v c).1 hw
    have hf : NoPanic (fun t2 => Flush e.xmlEncoder t2) := by
      intro t2
      show (e.xmlEncoder.FlushErr t2).map EncodeError.writer ≠ _
      cases e.xmlEncoder.FlushErr t2 <;> simp
    exact noPanic_andThen (encodeTopLevelMapLoop_noPanic e c (hw1 rfl) hw2)
      (noPanic_andThen (noPanic_token _ _) hf) tr

/-! ## Loops over a content split in two -/

theorem andThen_assoc (o : Outcome) (k1 k2 : List Token → Outcome) :
    andThen (andThen o k1) k2 = andThen o (fun t => andThen (k1 t) k2) := by
  rcases o with ⟨t, _ | err⟩ <;> rfl

theorem encodeTopLevelMapLoop_append (e : xmlEncoder) (pre : List (Node × Node))
    (rest : List Node) : ∀ tr, encodeTopLevelMapLoop e (flat pre ++ rest) tr =
      andThen (encodeTopLevelMapLoop e (flat pre) tr) (encodeTopLevelMapLoop e rest) := by
  induction pre with
  | nil => intro tr; rw [flat, encodeTopLevelMapLoop]; rfl
  | cons kv tl ih =>
    obtain ⟨k, v⟩ := kv
    intro tr
    rw [flat, List.cons_append, List.cons_append, encodeTopLevelMapLoop_cons,
      encodeTopLevelMapLoop_cons, andThen_assoc]
    congr 1
    funext t
    exact ih t

theorem encodeMapBody_append (e : xmlEncoder) (pre : List (Node × Node))
    (rest : List Node) : ∀ tr, encodeMapBody e (flat pre ++ rest) tr =
      andThen (encodeMapBody e (flat pre) tr) (encodeMapBody e rest) := by
  induction pre with
  | nil => intro tr; rw [flat, encodeMapBody]; rfl
  | cons kv tl ih =>
    obtain ⟨k, v⟩ := kv
    intro tr
    rw [flat, List.cons_append, List.cons_append, encodeMapBody_cons, encodeMapBody_cons]
    split
    · rw [andThen_assoc]
      congr 1
      funext t
      exact ih t
    · split
      · rw [andThen_assoc]
        congr 1
        funext t
        exact ih t
      · exact ih tr

theorem encodeArrayLoop_append (e : xmlEncoder) (pre rest : List Node) (s : StartElement) :
    ∀ tr, encodeArrayLoop e (pre ++ rest) s tr =
      andThen (encodeArrayLoop e pre s tr) (encodeArrayLoop e rest s) := by
  induction pre with
  | nil => intro tr; rw [List.nil_append, encodeArrayLoop]; rfl
  | cons v tl ih =>
    intro tr
    rw [List.cons_append, encodeArrayLoop_cons, encodeArrayLoop_cons, andThen_assoc]
    congr 1
    funext t
    exact ih t

/-! ## The three rules for the entries of a mapping -/

theorem flat_append (a b : List (Node × Node)) : flat (a ++ b) = flat a ++ flat b := by
  induction a with
  | nil => rfl
  | cons kv tl ih =>
    obtain ⟨k, v⟩ := kv
    rw [List.cons_append, flat, flat, ih]
    rfl

theorem isAttrKey_content (e : xmlEncoder) (k : Node) (hk : k.Value = e.contentName) :
    isAttrKey e k = false := by
  simp [isAttrKey, hk]

theorem isBodyKey_content (e : xmlEncoder) (k : Node) (hk : k.Value = e.contentName) :
    isBodyKey e k = false := by
  simp [isBodyKey, hk]

theorem key_rules (e : xmlEncoder) (k : Node) :
    (isAttrKey e k = true ∧ k.Value ≠ e.contentName ∧ isBodyKey e k = false) ∨
    (isAttrKey e k = false ∧ k.Value = e.contentName ∧ isBodyKey e k = false) ∨
    (isAttrKey e k = false ∧ k.Value ≠ e.contentName ∧ isBodyKey e k = true) := by
  by_cases hc : k.Value = e.contentName
  · exact Or.inr (Or.inl ⟨isAttrKey_content e k hc, hc, isBodyKey_content e k hc⟩)
  · cases hp : HasPrefix k.Value e.attributePrefix
    · exact Or.inr (Or.inr ⟨by simp [isAttrKey, hp], hc, by simp [isBodyKey, hp, hc]⟩)
    · exact Or.inl ⟨by simp [isAttrKey, hp, hc], hc, by simp [isBodyKey, hp]⟩

theorem encodeMapAttrs_skip (e : xmlEncoder) (k v : Node) (rest : List Node) (s : StartElement)
    (h : isAttrKey e k = false) : encodeMapAttrs e (k :: v :: rest) s = encodeMapAttrs e rest s := by
  have h1 : ¬ (HasPrefix k.Value e.attributePrefix && k.Value != e.contentName) = true := by
    have h2 : (HasPrefix k.Value e.attributePrefix && k.Value != e.contentName) = false := h
    rw [h2]; simp
  rw [encodeMapAttrs, if_neg h1]

theorem encodeMapAttrs_congr (e : xmlEncoder) (pre : List (Node × Node)) (r1 r2 : List Node)
    (h : ∀ s, encodeMapAttrs e r1 s = encodeMapAttrs e r2 s) :
    ∀ s, encodeMapAttrs e (flat pre ++ r1) s = encodeMapAttrs e (flat pre ++ r2) s := by
  induction pre with
  | nil => intro s; exact h s
  | cons kv tl ih =>
    obtain ⟨k, v⟩ := kv
    intro s
    rw [flat, List.cons_append, List.cons_append, List.cons_append, List.cons_append,
      encodeMapAttrs, encodeMapAttrs]
    simp only [ih]

theorem encodeMapBody_content (e : xmlEncoder) (k v : Node) (rest : List Node) (tr : List Token)
    (hk : k.Value = e.contentName) :
    encodeMapBody e (k :: v :: rest) tr =
      andThen (EncodeToken e.xmlEncoder tr (.CharData v.Value)) fun t => encodeMapBody e rest t := by
  have hb : ¬ isBodyKey e k = true := by rw [isBodyKey_content e k hk]; simp
  rw [encodeMapBody_cons, if_neg hb, if_pos hk]

theorem encodeMapBody_congr (e : xmlEncoder) (pre : List (Node × Node)) (r1 r2 : List Node)
    (h : ∀ tr, encodeMapBody e r1 tr = encodeMapBody e r2 tr) :
    ∀ tr, encodeMapBody e (flat pre ++ r1) tr = encodeMapBody e (flat pre ++ r2) tr := by
  intro tr
  rw [encodeMapBody_append, encodeMapBody_append]
  congr 1
  funext t
  exact h t

theorem attributes_append (e : xmlEncoder) (a b : List (Node × Node)) :
    attributes e (a ++ b) = attributes e a ++ attributes e b := by
  simp [attributes, List.filterMap_append]

theorem encodeMapBody_ideal (e : xmlEncoder) (es : List (Node × Node))
    (hs : ∀ kv ∈ es, isBodyKey e kv.1 = true →
      Succeeds e kv.2 { Name := { Local := kv.1.Value } }) :
    ∀ tr, encodeMapBody (ideal e) (flat es) tr = (tr ++ es.flatMap (entryTokens e), none) := by
  induction es with
  | nil => intro tr; rw [flat, encodeMapBody]; simp
  | cons kv tl ih =>
    obtain ⟨k, v⟩ := kv
    intro tr
    have ih1 := ih (fun kv hkv => hs kv (List.mem_cons_of_mem _ hkv))
    rw [flat, encodeMapBody_cons, List.flatMap_cons]
    by_cases hb : isBodyKey e k = true
    · have hb1 : isBodyKey (ideal e) k = true := hb
      rw [if_pos hb1, doEncode_ideal e v _ (hs (k, v) (List.mem_cons_self _ _) hb),
        entryTokens_body e k v hb]
      show encodeMapBody (ideal e) (flat tl) _ = _
      rw [ih1, List.append_assoc]
    · have hb1 : ¬ isBodyKey (ideal e) k = true := hb
      rw [if_neg hb1]
      by_cases hc : k.Value = e.contentName
      · have hc1 : k.Value = (ideal e).contentName := hc
        rw [if_pos hc1, entryTokens_content e k v hb hc]
        show encodeMapBody (ideal e) (flat tl) _ = _
        rw [ih1, List.append_assoc]
      · have hc1 : ¬ k.Value = (ideal e).contentName := hc
        rw [if_neg hc1, entryTokens_attr e k v hb hc, ih1, List.nil_append]

theorem encodeMap_ideal (e : xmlEncoder) (node : Node) (es : List (Node × Node))
    (start : StartElement) (tr : List Token) (hc : node.Content = flat es)
    (ha : ∀ kv ∈ es, isAttrKey e kv.1 = true → kv.2.Kind = .ScalarNode)
    (hs : ∀ kv ∈ es, isBodyKey e kv.1 = true →
      Succeeds e kv.2 { Name := { Local := kv.1.Value } }) :
    encodeMap (ideal e) node start tr =
      (tr ++ [Token.StartElement { Name := start.Name, Attr := start.Attr ++ attributes e es }] ++
        es.flatMap (entryTokens e) ++ [Token.EndElement { Name := start.Name }], none) := by
  rw [encodeMap, hc, encodeMapAttrs_ideal, encodeMapAttrs_flat e es start ha]
  show andThen (encodeMapBody (ideal e) (flat es) _) _ = _
  rw [encodeMapBody_ideal e es hs]
  rfl

theorem encodeMap_ok (e : xmlEncoder) (node : Node) (es : List (Node × Node))
    (start : StartElement) (tr out : List Token) (hc : node.Content = flat es)
    (h : encodeMap e node start tr = (out, none)) :
    out = tr ++ [Token.StartElement { Name := start.Name, Attr := start.Attr ++ attributes e es }] ++
      es.flatMap (entryTokens e) ++ [Token.EndElement { Name := start.Name }] := by
  rw [encodeMap_eq] at h
  obtain ⟨_, _, _, h4⟩ := doEncode_mapping_ok e _ _ _ start tr out h
  have hes : entries node.Content = es := by rw [hc, entries_flat]
  rw [h4, mapStart, hes]
  simp [StartElement.End]

/-! ## The content entry -/

theorem flat_middle (pre post : List (Node × Node)) (k v : Node) :
    flat (pre ++ (k, v) :: post) = flat pre ++ k :: v :: flat post := by
  rw [flat_append, flat]

theorem attributes_content (e : xmlEncoder) (pre post : List (Node × Node)) (k v : Node)
    (hk : k.Value = e.contentName) :
    attributes e (pre ++ (k, v) :: post) = attributes e (pre ++ post) := by
  have ha : ¬ isAttrKey e k = true := by rw [isAttrKey_content e k hk]; simp
  rw [attributes_append, attributes_append, attributes_cons_neg e k v post ha]

theorem flatMap_entryTokens_content (e : xmlEncoder) (pre post : List (Node × Node)) (k v : Node)
    (hk : k.Value = e.contentName) :
    (pre ++ (k, v) :: post).flatMap (entryTokens e) =
      pre.flatMap (entryTokens e) ++ [Token.CharData v.Value] ++ post.flatMap (entryTokens e) := by
  have hb : ¬ isBodyKey e k = true := by rw [isBodyKey_content e k hk]; simp
  rw [List.flatMap_append, List.flatMap_cons, entryTokens_content e k v hb hk, List.append_assoc]

theorem encodeMapAttrs_content (e : xmlEncoder) (pre post : List (Node × Node)) (k v : Node)
    (hk : k.Value = e.contentName) (s : StartElement) :
    encodeMapAttrs e (flat (pre ++ (k, v) :: post)) s = encodeMapAttrs e (flat (pre ++ post)) s := by
  rw [flat_middle, flat_append]
  exact encodeMapAttrs_congr e pre _ _
    (fun s1 => encodeMapAttrs_skip e k v (flat post) s1 (isAttrKey_content e k hk)) s

theorem encodeMap_content_ok (e : xmlEncoder) (pre post : List (Node × Node)) (k v : Node)
    (hk : k.Value = e.contentName) (node : Node) (start : StartElement) (tr out : List Token)
    (hc : node.Content = flat (pre ++ (k, v) :: post))
    (h : encodeMap e node start tr = (out, none)) :
    out = tr ++
      [Token.StartElement { Name := start.Name, Attr := start.Attr ++ attributes e (pre ++ post) }] ++
      pre.flatMap (entryTokens e) ++ [Token.CharData v.Value] ++ post.flatMap (entryTokens e) ++
      [Token.EndElement { Name := start.Name }] := by
  rw [encodeMap_ok e node _ start tr out hc h, attributes_content e pre post k v hk,
    flatMap_entryTokens_content e pre post k v hk]
  simp only [List.append_assoc]

theorem encodeMap_content_congr (e : xmlEncoder) (pre post : List (Node × Node)) (k v v1 : Node)
    (hk : k.Value = e.contentName) (hv : v1.Value = v.Value) (node node1 : Node)
    (start : StartElement) (tr : List Token)
    (hc : node.Content = flat (pre ++ (k, v) :: post))
    (hc1 : node1.Content = flat (pre ++ (k, v1) :: post)) :
    encodeMap e node start tr = encodeMap e node1 start tr := by
  have ha : ∀ s, encodeMapAttrs e node.Content s = encodeMapAttrs e node1.Content s := by
    intro s
    rw [hc, hc1, encodeMapAttrs_content e pre post k v hk, encodeMapAttrs_content e pre post k v1 hk]
  have hb : ∀ t, encodeMapBody e node.Content t = encodeMapBody e node1.Content t := by
    intro t
    rw [hc, hc1, flat_middle, flat_middle]
    refine encodeMapBody_congr e pre _ _ (fun t1 => ?_) t
    rw [encodeMapBody_content e k v _ t1 hk, encodeMapBody_content e k v1 _ t1 hk, hv]
  rw [encodeMap, encodeMap, ha]
  simp only [hb]

/-! ## The attribute name -/

theorem replaceFirst_append (p rest : List Char) : replaceFirst p [] (p ++ rest) = rest := by
  have h : p.isPrefixOf (p ++ rest) = true := by
    rw [List.isPrefixOf_iff_prefix]
    exact List.prefix_append p rest
  rw [replaceFirst_of_isPrefixOf p (p ++ rest) h, List.drop_left]

theorem Replace1_append (p rest : String) : Replace1 (p ++ rest) p "" = rest := by
  rw [Replace1]
  show String.mk (replaceFirst p.data [] (p ++ rest).data) = rest
  rw [String.data_append, replaceFirst_append]

theorem HasPrefix_append (p rest : String) : HasPrefix (p ++ rest) p = true := by
  rw [HasPrefix, String.data_append, List.isPrefixOf_iff_prefix]
  exact List.prefix_append _ _

/-! ## Character data of an element body -/

theorem directText_start (d : Nat) (x : StartElement) (ts : List Token) :
    directText d (.StartElement x :: ts) = directText (d + 1) ts := by
  rw [directText]

theorem directText_end_succ (d : Nat) (x : EndElement) (ts : List Token) :
    directText (d + 1) (.EndElement x :: ts) = directText d ts := by
  rw [directText]; rfl

theorem directText_charData_zero (x : String) (ts : List Token) :
    directText 0 (.CharData x :: ts) = x :: directText 0 ts := by
  rw [directText]; rfl

theorem directText_charData_succ (d : Nat) (x : String) (ts : List Token) :
    directText (d + 1) (.CharData x :: ts) = directText (d + 1) ts := by
  rw [directText]; rfl

theorem contentValues_cons_pos (e : xmlEncoder) (k v : Node) (rest : List (Node × Node))
    (h : k.Value = e.contentName) :
    contentValues e ((k, v) :: rest) = v.Value :: contentValues e rest := by
  simp [contentValues, List.filter_cons, h]

theorem contentValues_cons_neg (e : xmlEncoder) (k v : Node) (rest : List (Node × Node))
    (h : ¬ k.Value = e.contentName) :
    contentValues e ((k, v) :: rest) = contentValues e rest := by
  simp [contentValues, List.filter_cons, h]

theorem items_noDirectText (e : xmlEncoder) (c : List Node) (s : StartElement)
    (ih : ∀ n ∈ c, NoDirectText e n) (hs : ∀ n ∈ c, Succeeds e n s) :
    ∀ d rest, directText d (c.flatMap (fun x => elementTokens e x s) ++ rest) =
      directText d rest := by
  induction c with
  | nil => intro d rest; rfl
  | cons v tl ihr =>
    intro d rest
    rw [List.flatMap_cons, List.append_assoc,
      ih v (List.mem_cons_self _ _) s (hs v (List.mem_cons_self _ _)),
      ihr (fun n hn => ih n (List.mem_cons_of_mem _ hn))
        (fun n hn => hs n (List.mem_cons_of_mem _ hn))]

theorem entries_directText_succ (e : xmlEncoder) (es : List (Node × Node))
    (ih : ∀ kv ∈ es, NoDirectText e kv.2)
    (hs : ∀ kv ∈ es, isBodyKey e kv.1 = true → Succeeds e kv.2 { Name := { Local := kv.1.Value } }) :
    ∀ d rest, directText (d + 1) (es.flatMap (entryTokens e) ++ rest) =
      directText (d + 1) rest := by
  induction es with
  | nil => intro d rest; rfl
  | cons kv tl ihr =>
    intro d rest
    obtain ⟨k, v⟩ := kv
    have ihr1 := ihr (fun n hn => ih n (List.mem_cons_of_mem _ hn))
      (fun n hn => hs n (List.mem_cons_of_mem _ hn)) d rest
    rw [List.flatMap_cons, List.append_assoc]
    by_cases hb : isBodyKey e k = true
    · rw [entryTokens_body e k v hb,
        ih (k, v) (List.mem_cons_self _ _) _ (hs (k, v) (List.mem_cons_self _ _) hb), ihr1]
    · by_cases hc : k.Value = e.contentName
      · rw [entryTokens_content e k v hb hc, List.singleton_append, directText_charData_succ, ihr1]
      · rw [entryTokens_attr e k v hb hc, List.nil_append, ihr1]

theorem entries_directText_zero (e : xmlEncoder) (es : List (Node × Node))
    (ih : ∀ kv ∈ es, NoDirectText e kv.2)
    (hs : ∀ kv ∈ es, isBodyKey e kv.1 = true → Succeeds e kv.2 { Name := { Local := kv.1.Value } }) :
    ∀ rest, directText 0 (es.flatMap (entryTokens e) ++ rest) =
      contentValues e es ++ directText 0 rest := by
  induction es with
  | nil => intro rest; rfl
  | cons kv tl ihr =>
    intro rest
    obtain ⟨k, v⟩ := kv
    have ihr1 := ihr (fun n hn => ih n (List.mem_cons_of_mem _ hn))
      (fun n hn => hs n (List.mem_cons_of_mem _ hn)) rest
    rw [List.flatMap_cons, List.append_assoc]
    by_cases hb : isBodyKey e k = true
    · have hc : ¬ k.Value = e.contentName := by
        intro hc
        rw [isBodyKey_content e k hc] at hb
        cases hb
      rw [entryTokens_body e k v hb,
        ih (k, v) (List.mem_cons_self _ _) _ (hs (k, v) (List.mem_cons_self _ _) hb), ihr1,
        contentValues_cons_neg e k v tl hc]
    · by_cases hc : k.Value = e.contentName
      · rw [entryTokens_content e k v hb hc, List.singleton_append, directText_charData_zero, ihr1,
          contentValues_cons_pos e k v tl hc, List.cons_append]
      · rw [entryTokens_attr e k v hb hc, List.nil_append, ihr1,
          contentValues_cons_neg e k v tl hc]

theorem doEncode_noDirectText (e : xmlEncoder) : ∀ n, NoDirectText e n := by
  intro n
  induction n using Node.induct with
  | h k t v c ih =>
    intro s hs d rest
    cases k
    case MappingNode =>
      obtain ⟨_, _, h3, h4⟩ := elementTokens_mapping e t v c s hs
      rw [h4]
      simp only [List.cons_append, List.append_assoc, List.singleton_append, List.nil_append]
      rw [directText_start, entries_directText_succ e (entries c)
        (fun kv hkv => ih kv.2 (mem_of_mem_entries c kv hkv).2) h3, directText_end_succ]
    case SequenceNode =>
      obtain ⟨h1, h2⟩ := elementTokens_sequence e t v c s hs
      rw [h2]
      exact items_noDirectText e c s ih h1 d rest
    case ScalarNode =>
      rw [elementTokens_scalar]
      simp only [List.cons_append, List.nil_append]
      rw [directText_start, directText_charData_succ, directText_end_succ]
    all_goals
      exact absurd hs (not_succeeds_unsupported e _ s (by simp [Node.Kind]) (by simp [Node.Kind])
        (by simp [Node.Kind]))

theorem filter_body_cons_pos (e : xmlEncoder) (k v : Node) (tl : List (Node × Node))
    (h : isBodyKey e k = true) :
    (((k, v) :: tl).filter fun kv => isBodyKey e kv.1) =
      (k, v) :: tl.filter fun kv => isBodyKey e kv.1 := by
  simp [List.filter_cons, h]

theorem filter_body_cons_neg (e : xmlEncoder) (k v : Node) (tl : List (Node × Node))
    (h : isBodyKey e k = false) :
    (((k, v) :: tl).filter fun kv => isBodyKey e kv.1) = tl.filter fun kv => isBodyKey e kv.1 := by
  simp [List.filter_cons, h]

theorem entries_count (e : xmlEncoder) (es : List (Node × Node)) :
    (attributes e es).length + (contentValues e es).length +
      (es.filter fun kv => isBodyKey e kv.1).length = es.length := by
  induction es with
  | nil => rfl
  | cons kv tl ih =>
    obtain ⟨k, v⟩ := kv
    rcases key_rules e k with ⟨h1, h2, h3⟩ | ⟨h1, h2, h3⟩ | ⟨h1, h2, h3⟩
    · rw [attributes_cons_pos e k v tl h1, contentValues_cons_neg e k v tl h2,
        filter_body_cons_neg e k v tl h3]
      simp only [List.length_cons]
      omega
    · rw [attributes_cons_neg e k v tl (by rw [h1]; simp), contentValues_cons_pos e k v tl h2,
        filter_body_cons_neg e k v tl h3]
      simp only [List.length_cons]
      omega
    · rw [attributes_cons_neg e k v tl (by rw [h1]; simp), contentValues_cons_neg e k v tl h2,
        filter_body_cons_pos e k v tl h3]
      simp only [List.length_cons]
      omega

/-! ## The accepting writer does the same from every trace -/

theorem translates_token (t : Token) : Translates (fun tr => EncodeToken okWriter tr t) := by
  intro tr
  rfl

theorem translates_skip : Translates (fun tr => (tr, none)) := by
  intro tr
  simp

theorem translates_error (err : EncodeError) : Translates (fun tr => (tr, some err)) := by
  intro tr
  simp

theorem translates_andThen {r1 r2 : List Token → Outcome} (h1 : Translates r1)
    (h2 : Translates r2) : Translates (fun tr => andThen (r1 tr) r2) := by
  intro tr
  show andThen (r1 tr) r2 = (tr ++ (andThen (r1 []) r2).1, (andThen (r1 []) r2).2)
  rw [h1 tr]
  rcases r1 [] with ⟨a, _ | err⟩
  · show r2 (tr ++ a) = (tr ++ (r2 a).1, (r2 a).2)
    rw [h2 (tr ++ a), h2 a, List.append_assoc]
  · rfl

theorem encodeArrayLoop_translates (e : xmlEncoder) (c : List Node)
    (ih : ∀ n ∈ c, ∀ s, Translates (doEncode (ideal e) n s)) :
    ∀ s, Translates (encodeArrayLoop (ideal e) c s) := by
  induction c with
  | nil =>
    intro s
    have h1 : encodeArrayLoop (ideal e) [] s = fun tr => (tr, none) := by
      funext tr; rw [encodeArrayLoop]
    rw [h1]
    exact translates_skip
  | cons v rest ihr =>
    intro s
    have h1 : encodeArrayLoop (ideal e) (v :: rest) s =
        fun tr => andThen (doEncode (ideal e) v s tr) (encodeArrayLoop (ideal e) rest s) := by
      funext tr; rw [encodeArrayLoop_cons]
    rw [h1]
    exact translates_andThen (ih v (List.mem_cons_self _ _) s)
      (ihr (fun n hn => ih n (List.mem_cons_of_mem _ hn)) s)

theorem encodeMapBody_translates (e : xmlEncoder) (c : List Node)
    (ih : ∀ n ∈ c, ∀ s, Translates (doEncode (ideal e) n s)) :
    Translates (encodeMapBody (ideal e) c) := by
  induction c using pairInduction with
  | h0 =>
    have h1 : encodeMapBody (ideal e) [] = fun tr => (tr, none) := by
      funext tr; rw [encodeMapBody]
    rw [h1]
    exact translates_skip
  | h1 x =>
    have h1 : encodeMapBody (ideal e) [x] = fun tr => (tr, some .indexOutOfRange) := by
      funext tr; rw [encodeMapBody]
    rw [h1]
    exact translates_error _
  | h2 k v rest ihr =>
    have ihr1 := ihr (fun n hn => ih n (List.mem_cons_of_mem _ (List.mem_cons_of_mem _ hn)))
    by_cases hb : isBodyKey (ideal e) k = true
    · have h1 : encodeMapBody (ideal e) (k :: v :: rest) =
          fun tr => andThen (doEncode (ideal e) v { Name := { Local := k.Value } } tr)
            (encodeMapBody (ideal e) rest) := by
        funext tr; rw [encodeMapBody_cons, if_pos hb]
      rw [h1]
      exact translates_andThen (ih v (by simp) _) ihr1
    · by_cases hc : k.Value = (ideal e).contentName
      · have h1 : encodeMapBody (ideal e) (k :: v :: rest) =
            fun tr => andThen (EncodeToken okWriter tr (.CharData v.Value))
              (encodeMapBody (ideal e) rest) := by
          funext tr; rw [encodeMapBody_cons, if_neg hb, if_pos hc]; rfl
        rw [h1]
        exact translates_andThen (translates_token _) ihr1
      · have h1 : encodeMapBody (ideal e) (k :: v :: rest) = encodeMapBody (ideal e) rest := by
          funext tr; rw [encodeMapBody_cons, if_neg hb, if_neg hc]
        rw [h1]
        exact ihr1

theorem doEncode_translates (e : xmlEncoder) :
    ∀ (n : Node) (s : StartElement), Translates (doEncode (ideal e) n s) := by
  intro n
  induction n using Node.induct with
  | h k t v c ih =>
    intro s
    cases k
    case MappingNode =>
      cases hattr : encodeMapAttrs (ideal e) c s with
      | error err =>
        have h1 : doEncode (ideal e) (.mk .MappingNode t v c) s = fun tr => (tr, some err) := by
          funext tr; rw [doEncode_mapping, hattr]
        rw [h1]
        exact translates_error _
      | ok s1 =>
        have h1 : doEncode (ideal e) (.mk .MappingNode t v c) s =
            fun tr => andThen (EncodeToken okWriter tr (.StartElement s1))
              fun t1 => andThen (encodeMapBody (ideal e) c t1)
                fun t2 => EncodeToken okWriter t2 (.EndElement s1.End) := by
          funext tr; rw [doEncode_mapping, hattr]; rfl
        rw [h1]
        exact translates_andThen (translates_token _)
          (translates_andThen (encodeMapBody_translates e c ih) (translates_token _))
    case SequenceNode =>
      have h1 : doEncode (ideal e) (.mk .SequenceNode t v c) s = encodeArrayLoop (ideal e) c s := by
        funext tr; rw [doEncode_sequence]
      rw [h1]
      exact encodeArrayLoop_translates e c ih s
    case ScalarNode =>
      have h1 : doEncode (ideal e) (.mk .ScalarNode t v c) s =
          fun tr => andThen (EncodeToken okWriter tr (.StartElement s))
            fun t1 => andThen (EncodeToken okWriter t1 (.CharData v))
              fun t2 => EncodeToken okWriter t2 (.EndElement s.End) := by
        funext tr; rw [doEncode_scalar]; rfl
      rw [h1]
      exact translates_andThen (translates_token _)
        (translates_andThen (translates_token _) (translates_token _))
    all_goals
      rw [doEncode_unsupported_fun (ideal e) _ t v c s (by decide) (by decide) (by decide)]
      exact translates_error _

/-! ## Sequences -/

theorem elementTokens_append (e : xmlEncoder) (t v t1 v1 t2 v2 : String) (xs ys : List Node)
    (s : StartElement) :
    elementTokens e (.mk .SequenceNode t v (xs ++ ys)) s =
      if Succeeds e (.mk .SequenceNode t1 v1 xs) s then
        elementTokens e (.mk .SequenceNode t1 v1 xs) s ++
          elementTokens e (.mk .SequenceNode t2 v2 ys) s
      else elementTokens e (.mk .SequenceNode t1 v1 xs) s := by
  have hx : elementTokens e (.mk .SequenceNode t1 v1 xs) s =
      (encodeArrayLoop (ideal e) xs s []).1 := by
    rw [elementTokens, doEncode_sequence]
  have hy : elementTokens e (.mk .SequenceNode t2 v2 ys) s =
      (encodeArrayLoop (ideal e) ys s []).1 := by
    rw [elementTokens, doEncode_sequence]
  have hsx : Succeeds e (.mk .SequenceNode t1 v1 xs) s ↔
      (encodeArrayLoop (ideal e) xs s []).2 = none := by
    rw [Succeeds, doEncode_sequence]
  rw [elementTokens, doEncode_sequence, encodeArrayLoop_append, hx, hy]
  have htr := encodeArrayLoop_translates e ys (fun n _ s => doEncode_translates e n s) s
  rcases hr : encodeArrayLoop (ideal e) xs s [] with ⟨a, _ | err⟩
  · have h1 : Succeeds e (.mk .SequenceNode t1 v1 xs) s := hsx.2 (by rw [hr])
    rw [if_pos h1]
    show (encodeArrayLoop (ideal e) ys s a).1 = _
    rw [htr a]
  · have h1 : ¬ Succeeds e (.mk .SequenceNode t1 v1 xs) s := by
      intro h
      have := hsx.1 h
      rw [hr] at this
      cases this
    rw [if_neg h1]
    rfl

theorem encodeArrayLoop_flatten (e : xmlEncoder) (items : List Node) (s : StartElement)
    (h : ∀ x ∈ items, x.Kind = .SequenceNode) :
    ∀ tr, encodeArrayLoop e items s tr = encodeArrayLoop e (items.flatMap Node.Content) s tr := by
  induction items with
  | nil => intro tr; rfl
  | cons x tl ih =>
    intro tr
    have ih1 := ih (fun y hy => h y (List.mem_cons_of_mem _ hy))
    cases x with
    | mk k t v c =>
      have hk : k = .SequenceNode := h _ (List.mem_cons_self _ _)
      subst hk
      rw [encodeArrayLoop_cons, doEncode_sequence, List.flatMap_cons, encodeArrayLoop_append]
      show andThen _ _ = andThen (encodeArrayLoop e c s tr) _
      congr 1
      funext t1
      exact ih1 t1

/-! ## The empty attribute prefix -/

theorem HasPrefix_empty (s : String) : HasPrefix s "" = true := by
  rw [HasPrefix]
  show ([] : List Char).isPrefixOf s.data = true
  rw [List.isPrefixOf_iff_prefix]
  exact List.nil_prefix

theorem isAttrKey_empty (e : xmlEncoder) (hp : e.attributePrefix = "") (k : Node) :
    isAttrKey e k = (k.Value != e.contentName) := by
  rw [isAttrKey, hp, HasPrefix_empty, Bool.true_and]

theorem isBodyKey_empty (e : xmlEncoder) (hp : e.attributePrefix = "") (k : Node) :
    isBodyKey e k = false := by
  rw [isBodyKey, hp, HasPrefix_empty]
  rfl

theorem attributeName_empty (e : xmlEncoder) (hp : e.attributePrefix = "") (k : Node) :
    attributeName e k = k.Value := by
  rw [attributeName, hp]
  rfl

theorem attributes_empty (e : xmlEncoder) (hp : e.attributePrefix = "")
    (es : List (Node × Node)) : attributes e es = wholeKeyAttributes e es := by
  induction es with
  | nil => rfl
  | cons kv tl ih =>
    obtain ⟨k, v⟩ := kv
    by_cases hc : k.Value = e.contentName
    · have ha : ¬ isAttrKey e k = true := by rw [isAttrKey_content e k hc]; simp
      rw [attributes_cons_neg e k v tl ha, ih]
      simp [wholeKeyAttributes, List.filter_cons, hc]
    · have ha : isAttrKey e k = true := by rw [isAttrKey_empty e hp]; simp [hc]
      rw [attributes_cons_pos e k v tl ha, ih, attributeName_empty e hp]
      simp [wholeKeyAttributes, List.filter_cons, hc]

theorem flatMap_entryTokens_empty (e : xmlEncoder) (hp : e.attributePrefix = "")
    (es : List (Node × Node)) :
    es.flatMap (entryTokens e) = (contentValues e es).map Token.CharData := by
  induction es with
  | nil => rfl
  | cons kv tl ih =>
    obtain ⟨k, v⟩ := kv
    have hb : ¬ isBodyKey e k = true := by rw [isBodyKey_empty e hp]; simp
    rw [List.flatMap_cons, ih]
    by_cases hc : k.Value = e.contentName
    · rw [entryTokens_content e k v hb hc, contentValues_cons_pos e k v tl hc]
      rfl
    · rw [entryTokens_attr e k v hb hc, contentValues_cons_neg e k v tl hc]
      rfl

theorem topStarts_charData_map (d : Nat) (l : List String) :
    topStarts d (l.map Token.CharData) = [] := by
  induction l with
  | nil => rfl
  | cons x tl ih => rw [List.map_cons, topStarts_charData, ih]

/-! ## String operators -/

theorem joinStrings_data (separator : String) (xs : List String) :
    (joinStrings separator xs).data = List.intercalate separator.data (xs.map String.data) := by
  induction xs with
  | nil => rfl
  | cons x tl ih =>
    cases tl with
    | nil => simp [joinStrings, List.intercalate, List.intersperse]
    | cons y rest =>
      rw [joinStrings, String.data_append, String.data_append, ih]
      simp [List.intercalate, List.intersperse]

theorem stringify_data (item : Node) :
    (stringify item).data = if item.Tag = "!!null" then [] else item.Value.data := by
  rw [stringify]
  split <;> rfl

theorem piecesBetween_length (subject : List Char) (ms : List RegexMatch) :
    ∀ pos, (piecesBetween subject pos ms).length = ms.length + 1 := by
  induction ms with
  | nil => intro pos; rfl
  | cons m tl ih => intro pos; rw [piecesBetween, List.length_cons, ih, List.length_cons]

theorem rejoin_piecesBetween (subject : List Char) (ms : List RegexMatch) :
    ∀ pos, matchesInOrder subject pos ms = true →
      rejoin (piecesBetween subject pos ms) ms = subject.drop pos := by
  induction ms with
  | nil => intro pos _; rfl
  | cons m tl ih =>
    intro pos h
    rw [matchesInOrder] at h
    simp only [Bool.and_eq_true, decide_eq_true_eq] at h
    obtain ⟨⟨⟨h1, _⟩, h3⟩, h4⟩ := h
    rw [piecesBetween, rejoin, ih _ h4, h3]
    have e1 : List.drop (m.offset + m.length) subject =
        List.drop m.length (List.drop m.offset subject) := by
      rw [List.drop_drop]
    have e2 : List.drop m.offset subject =
        List.drop (m.offset - pos) (List.drop pos subject) := by
      rw [List.drop_drop]
      congr 1
      omega
    rw [e1, List.append_assoc, List.take_append_drop, e2, List.take_append_drop]

theorem matchOperator_first (engine : RegexEngine) (pattern : String) (c : Context)
    (ms : List RegexMatch) (hs : isStringScalar c.node = true)
    (hc : engine.findAll pattern c.node.Value = some ms) :
    matchOperator engine pattern "" c =
      .ok ((ms.take 1).map fun m =>
        { documentIndex := c.documentIndex, path := c.path, node := matchResultNode m }) := by
  rw [matchOperator, if_pos hs, hc]
  rfl

theorem matchOperator_none (engine : RegexEngine) (pattern flags : String) (c : Context)
    (hs : isStringScalar c.node = true) (hc : engine.findAll pattern c.node.Value = some []) :
    matchOperator engine pattern flags c = .ok [] := by
  rw [matchOperator, if_pos hs, hc]
  simp

/-! ## The code against the element-encoding rule of the specification -/

theorem runSteps_nil (w : XmlWriter) : runSteps w [] = fun tr => (tr, none) := by
  funext tr; rw [runSteps]

theorem runSteps_emit_cons (w : XmlWriter) (t : Token) (rest : List Step) (tr : List Token) :
    runSteps w (.emit t :: rest) tr = andThen (EncodeToken w tr t) (runSteps w rest) := by
  rw [runSteps]; rfl

theorem runSteps_emit_fun (w : XmlWriter) (t : Token) (rest : List Step) :
    runSteps w (.emit t :: rest) = fun tr => andThen (EncodeToken w tr t) (runSteps w rest) := by
  funext tr; rw [runSteps_emit_cons]

theorem runSteps_fail_cons (w : XmlWriter) (err : EncodeError) (rest : List Step) :
    runSteps w (.fail err :: rest) = fun tr => (tr, some err) := by
  funext tr; rw [runSteps]

theorem runSteps_emit (w : XmlWriter) (t : Token) :
    runSteps w [.emit t] = fun tr => EncodeToken w tr t := by
  funext tr
  rw [runSteps_emit_cons, runSteps_nil]
  rcases EncodeToken w tr t with ⟨t1, _ | err⟩ <;> rfl

theorem runSteps_append (w : XmlWriter) (x y : List Step) :
    runSteps w (x ++ y) = fun tr => andThen (runSteps w x tr) (runSteps w y) := by
  induction x with
  | nil => funext tr; rw [runSteps_nil]; rfl
  | cons s rest ih =>
    cases s with
    | emit t =>
      funext tr
      rw [List.cons_append, runSteps_emit_cons, runSteps_emit_cons, ih, andThen_assoc]
    | fail err =>
      funext tr
      rw [List.cons_append, runSteps_fail_cons, runSteps_fail_cons]
      rfl

theorem runSteps_extends (w : XmlWriter) (x : List Step) :
    ∀ tr, tr <+: (runSteps w x tr).1 := by
  induction x with
  | nil => intro tr; rw [runSteps_nil]
  | cons s rest ih =>
    intro tr
    cases s with
    | emit t =>
      rw [runSteps_emit_cons]
      rcases h : w.EncodeTokenErr tr t with _ | msg
      · have h1 : EncodeToken w tr t = (tr ++ [t], none) := by rw [EncodeToken, h]; rfl
        rw [h1]
        exact (List.prefix_append tr [t]).trans (ih _)
      · have h1 : EncodeToken w tr t = (tr ++ [t], some (.writer msg)) := by
          rw [EncodeToken, h]; rfl
        rw [h1]
        exact List.prefix_append tr [t]
    | fail err => rw [runSteps_fail_cons]

theorem andThen_flush_fst (w : XmlWriter) (o : Outcome) : (andThen o (Flush w)).1 = o.1 := by
  rcases o with ⟨t, _ | err⟩ <;> rfl

theorem specAttributeChecks_run (e : xmlEncoder) (w : XmlWriter) (c : List Node) :
    ∀ s, (∀ tr, runSteps w (specAttributeChecks e c) tr =
      match encodeMapAttrs e c s with
      | .error err => (tr, some err)
      | .ok _ => (tr, none)) := by
  induction c using pairInduction with
  | h0 => intro s tr; rw [specAttributeChecks, encodeMapAttrs, runSteps_nil]
  | h1 x => intro s tr; rw [specAttributeChecks, encodeMapAttrs, runSteps_fail_cons]
  | h2 k v rest ih =>
    intro s tr
    rw [specAttributeChecks, runSteps_append]
    by_cases ha : isAttrKey e k = true
    · have ha1 : (HasPrefix k.Value e.attributePrefix && k.Value != e.contentName) = true := ha
      by_cases hv : v.Kind = .ScalarNode
      · rw [if_neg (fun h => h.2 hv), runSteps_nil, encodeMapAttrs, if_pos ha1, if_pos hv]
        exact ih _ tr
      · rw [if_pos ⟨ha, hv⟩, runSteps_fail_cons, encodeMapAttrs, if_pos ha1, if_neg hv]
        rfl
    · rw [if_neg (fun h => ha h.1), runSteps_nil, encodeMapAttrs_skip e k v rest s (by simpa using ha)]
      exact ih s tr

theorem specElement_scalar (e : xmlEncoder) (K t v : String) (c : List Node) :
    specElement e K (.mk .ScalarNode t v c) =
      [.emit (.StartElement { Name := { Local := K }, Attr := [] }), .emit (.CharData v),
        .emit (.EndElement { Name := { Local := K } })] := by
  rw [specElement]

theorem specElement_sequence (e : xmlEncoder) (K t v : String) (c : List Node) :
    specElement e K (.mk .SequenceNode t v c) = specItems e K c := by
  rw [specElement]

theorem specElement_mapping (e : xmlEncoder) (K t v : String) (c : List Node) :
    specElement e K (.mk .MappingNode t v c) =
      specAttributeChecks e c ++
        [.emit (.StartElement { Name := { Local := K }, Attr := attributes e (entries c) })] ++
        specBody e c ++ [.emit (.EndElement { Name := { Local := K } })] := by
  rw [specElement]

theorem specElement_unsupported (e : xmlEncoder) (K : String) (k : Kind) (t v : String)
    (c : List Node) (h1 : k ≠ .MappingNode) (h2 : k ≠ .SequenceNode) (h3 : k ≠ .ScalarNode) :
    specElement e K (.mk k t v c) = [.fail (.unsupportedType t)] := by
  cases k
  · rw [specElement] <;> simp
  · exact absurd rfl h2
  · exact absurd rfl h1
  · exact absurd rfl h3
  · rw [specElement] <;> simp
  · rw [specElement] <;> simp

theorem specBody_cons (e : xmlEncoder) (k v : Node) (rest : List Node) :
    specBody e (k :: v :: rest) =
      (if isBodyKey e k then specElement e k.Value v
        else if k.Value = e.contentName then [.emit (.CharData v.Value)]
        else []) ++ specBody e rest := by
  rw [specBody]

theorem encodeArrayLoop_steps (e : xmlEncoder) (c : List Node) (K : String)
    (ih : ∀ n ∈ c, ∀ K, doEncode e n { Name := { Local := K }, Attr := [] } =
      runSteps e.xmlEncoder (specElement e K n)) :
    encodeArrayLoop e c { Name := { Local := K }, Attr := [] } =
      runSteps e.xmlEncoder (specItems e K c) := by
  induction c with
  | nil =>
    funext tr
    rw [encodeArrayLoop, specItems, runSteps_nil]
  | cons v rest ihr =>
    funext tr
    rw [encodeArrayLoop_cons, specItems, runSteps_append]
    rw [← ih v (List.mem_cons_self _ _) K,
      ← ihr (fun n hn => ih n (List.mem_cons_of_mem _ hn))]

theorem encodeMapBody_steps (e : xmlEncoder) (c : List Node)
    (ih : ∀ n ∈ c, ∀ K, doEncode e n { Name := { Local := K }, Attr := [] } =
      runSteps e.xmlEncoder (specElement e K n)) :
    encodeMapBody e c = runSteps e.xmlEncoder (specBody e c) := by
  induction c using pairInduction with
  | h0 => funext tr; rw [encodeMapBody, specBody, runSteps_nil]
  | h1 x => funext tr; rw [encodeMapBody, specBody, runSteps_fail_cons]
  | h2 k v rest ihr =>
    have ihr1 := ihr (fun n hn => ih n (List.mem_cons_of_mem _ (List.mem_cons_of_mem _ hn)))
    funext tr
    rw [encodeMapBody_cons, specBody_cons, runSteps_append]
    by_cases hb : isBodyKey e k = true
    · rw [if_pos hb, if_pos hb, ← ih v (by simp) k.Value, ← ihr1]
    · by_cases hc : k.Value = e.contentName
      · rw [if_neg hb, if_pos hc, if_neg hb, if_pos hc, runSteps_emit, ← ihr1]
      · rw [if_neg hb, if_neg hc, if_neg hb, if_neg hc, runSteps_nil, ← ihr1]
        rfl

theorem doEncode_steps (e : xmlEncoder) :
    ∀ (n : Node) (K : String),
      doEncode e n { Name := { Local := K }, Attr := [] } =
        runSteps e.xmlEncoder (specElement e K n) := by
  intro n
  induction n using Node.induct with
  | h k t v c ih =>
    intro K
    cases k
    case MappingNode =>
      funext tr
      have hc := specAttributeChecks_run e e.xmlEncoder c { Name := { Local := K }, Attr := [] } tr
      rw [doEncode_mapping, specElement_mapping, List.append_assoc, List.append_assoc,
        runSteps_append]
      show _ = andThen (runSteps e.xmlEncoder (specAttributeChecks e c) tr) _
      rw [hc]
      cases hattr : encodeMapAttrs e c { Name := { Local := K }, Attr := [] } with
      | error err => rfl
      | ok s1 =>
        obtain ⟨_, _, a3⟩ := encodeMapAttrs_ok e c _ s1 hattr
        have a4 : s1 = { Name := { Local := K }, Attr := attributes e (entries c) } := by
          rw [a3]; simp
        show andThen (EncodeToken e.xmlEncoder tr (.StartElement s1)) _ = runSteps _ _ tr
        rw [a4, List.singleton_append, runSteps_emit_cons, runSteps_append, runSteps_emit,
          ← encodeMapBody_steps e c ih]
        rfl
    case SequenceNode =>
      funext tr
      rw [doEncode_sequence, specElement_sequence, encodeArrayLoop_steps e c K ih]
    case ScalarNode =>
      funext tr
      rw [doEncode_scalar, specElement_scalar, runSteps_emit_cons, runSteps_emit_fun,
        runSteps_emit]
      rfl
    all_goals
      rw [doEncode_unsupported_fun e _ t v c _ (by decide) (by decide) (by decide),
        specElement_unsupported e K _ t v c (by decide) (by decide) (by decide),
        runSteps_fail_cons]

theorem encodeTopLevelMapLoop_steps (e : xmlEncoder) (c : List Node) :
    encodeTopLevelMapLoop e c = runSteps e.xmlEncoder (specEntries e c) := by
  induction c using pairInduction with
  | h0 => funext tr; rw [encodeTopLevelMapLoop, specEntries, runSteps_nil]
  | h1 x => funext tr; rw [encodeTopLevelMapLoop, specEntries, runSteps_fail_cons]
  | h2 k v rest ihr =>
    funext tr
    rw [encodeTopLevelMapLoop_cons, specEntries, runSteps_append, ← doEncode_steps e v k.Value,
      ← ihr]

theorem Encode_steps (e : xmlEncoder) (u : Node → Node) (fuel : Nat) (top : Node)
    (tr : List Token) (hk : top.Kind = .MappingNode) :
    Encode e u fuel top tr =
      some (andThen (runSteps e.xmlEncoder (specDocument e top) tr) (Flush e.xmlEncoder)) := by
  rw [Encode_mapping_eq e u fuel top tr hk, specDocument, runSteps_append, runSteps_emit,
    ← encodeTopLevelMapLoop_steps, andThen_assoc]
  rfl

theorem specEntries_mem (e : xmlEncoder) (c : List Node) :
    ∀ kv ∈ entries c, specElement e kv.1.Value kv.2 <:+: specEntries e c := by
  induction c using pairInduction with
  | h0 => intro kv h; cases h
  | h1 x => intro kv h; cases h
  | h2 k v rest ih =>
    intro kv h
    rw [entries] at h
    rw [specEntries]
    rcases List.mem_cons.1 h with rfl | h
    · exact List.infix_append [] _ _
    · exact (ih kv h).trans (List.suffix_append _ _).isInfix

theorem specBody_mem (e : xmlEncoder) (c : List Node) :
    ∀ kv ∈ entries c, isBodyKey e kv.1 = true →
      specElement e kv.1.Value kv.2 <:+: specBody e c := by
  induction c using pairInduction with
  | h0 => intro kv h; cases h
  | h1 x => intro kv h; cases h
  | h2 k v rest ih =>
    intro kv h hb
    rw [entries] at h
    rw [specBody_cons]
    rcases List.mem_cons.1 h with rfl | h
    · rw [if_pos hb]
      exact List.infix_append [] _ _
    · exact (ih kv h hb).trans (List.suffix_append _ _).isInfix

theorem specItems_mem (e : xmlEncoder) (K : String) (c : List Node) :
    ∀ x ∈ c, specElement e K x <:+: specItems e K c := by
  induction c with
  | nil => intro x h; cases h
  | cons y ys ih =>
    intro x h
    rw [specItems]
    rcases List.mem_cons.1 h with rfl | h
    · exact List.infix_append [] _ _
    · exact (ih x h).trans (List.suffix_append _ _).isInfix

theorem elementPosition_steps (e : xmlEncoder) (top : Node) :
    ∀ K n, ElementPosition e top K n → specElement e K n <:+: specDocument e top := by
  intro K n hp
  induction hp with
  | topEntry kv hkv =>
    rw [specDocument]
    exact (specEntries_mem e top.Content kv hkv).trans (List.infix_append [] _ _)
  | bodyEntry K m kv _ hkm hkv hb ih =>
    cases m with
    | mk k t v c =>
      have hk1 : k = .MappingNode := hkm
      subst hk1
      refine ((specBody_mem e c kv hkv hb).trans ?_).trans ih
      rw [specElement_mapping]
      exact List.infix_append _ _ _
  | item K sq x _ hks hx ih =>
    cases sq with
    | mk k t v c =>
      have hk1 : k = .SequenceNode := hks
      subst hk1
      rw [specElement_sequence] at ih
      exact (specItems_mem e K c x hx).trans ih

theorem runSteps_three (w : XmlWriter) (a b c : Token) (post : List Step) (t1 : List Token) :
    t1 ++ [a] <+: (runSteps w ([.emit a, .emit b, .emit c] ++ post) t1).1 ∧
    (w.EncodeTokenErr t1 a = none →
      t1 ++ [a, b] <+: (runSteps w ([.emit a, .emit b, .emit c] ++ post) t1).1) ∧
    (w.EncodeTokenErr t1 a = none → w.EncodeTokenErr (t1 ++ [a]) b = none →
      t1 ++ [a, b, c] <+: (runSteps w ([.emit a, .emit b, .emit c] ++ post) t1).1) ∧
    (w.EncodeTokenErr t1 a ≠ none →
      (runSteps w ([.emit a, .emit b, .emit c] ++ post) t1).1 = t1 ++ [a]) ∧
    (w.EncodeTokenErr t1 a = none → w.EncodeTokenErr (t1 ++ [a]) b ≠ none →
      (runSteps w ([.emit a, .emit b, .emit c] ++ post) t1).1 = t1 ++ [a, b]) := by
  have e1 : ∀ t (x : Token) rest, (w.EncodeTokenErr t x = none →
      runSteps w (.emit x :: rest) t = runSteps w rest (t ++ [x])) ∧
      t ++ [x] <+: (runSteps w (.emit x :: rest) t).1 ∧
      (w.EncodeTokenErr t x ≠ none → (runSteps w (.emit x :: rest) t).1 = t ++ [x]) := by
    intro t x rest
    rw [runSteps_emit_cons]
    rcases h : w.EncodeTokenErr t x with _ | msg
    · have h1 : EncodeToken w t x = (t ++ [x], none) := by rw [EncodeToken, h]; rfl
      rw [h1]
      exact ⟨fun _ => rfl, runSteps_extends w rest _, fun h => absurd rfl h⟩
    · have h1 : EncodeToken w t x = (t ++ [x], some (.writer msg)) := by
        rw [EncodeToken, h]; rfl
      rw [h1]
      exact ⟨fun h => Option.noConfusion h, List.prefix_refl _, fun _ => rfl⟩
  simp only [List.cons_append, List.nil_append]
  refine ⟨(e1 t1 a _).2.1, ?_, ?_, (e1 t1 a _).2.2, ?_⟩
  · intro ha
    rw [(e1 t1 a _).1 ha]
    have := (e1 (t1 ++ [a]) b (.emit c :: post)).2.1
    rwa [List.append_assoc] at this
  · intro ha hb
    rw [(e1 t1 a _).1 ha, (e1 (t1 ++ [a]) b _).1 hb]
    have := (e1 (t1 ++ [a] ++ [b]) c post).2.1
    rwa [List.append_assoc, List.append_assoc] at this
  · intro ha hb
    rw [(e1 t1 a _).1 ha]
    have := (e1 (t1 ++ [a]) b (.emit c :: post)).2.2 hb
    rwa [List.append_assoc] at this

/-! ## Claims -/

/-- C1: when `Encode` of a top-level mapping returns `nil`, the mapping content
is a list of complete entries, the element encoding of every entry succeeds, and
the tokens handed to the writer are the element encodings `doEncode(value,
element named key, no attributes)` of the entries in insertion order followed
by one character-data token holding a newline, which is the last token.  The
element name is the key as it is, whatever the attribute prefix and the content
name are.  Conversely a mapping with any number of complete entries whose
element encodings succeed is encoded without error when the writer accepts every
token. -/
theorem Encode_mapping_tokens (e : xmlEncoder) (u : Node → Node) (fuel : Nat) (node : Node)
    (tr : List Token) (hk : node.Kind = .MappingNode) :
    (∀ out, Encode e u fuel node tr = some (out, none) →
      node.Content = flat (entries node.Content) ∧
      (∀ kv ∈ entries node.Content,
        Succeeds e kv.2 { Name := { Local := kv.1.Value }, Attr := [] }) ∧
      out = tr ++ (entries node.Content).flatMap
          (fun kv => elementTokens e kv.2 { Name := { Local := kv.1.Value }, Attr := [] }) ++
        [Token.CharData "\n"]) ∧
    (node.Content = flat (entries node.Content) →
      (∀ kv ∈ entries node.Content,
        Succeeds e kv.2 { Name := { Local := kv.1.Value }, Attr := [] }) →
      Encode (ideal e) u fuel node tr =
        some (tr ++ (entries node.Content).flatMap
            (fun kv => elementTokens e kv.2 { Name := { Local := kv.1.Value }, Attr := [] }) ++
          [Token.CharData "\n"], none)) := by
  constructor
  · intro out h
    rw [Encode_mapping_eq e u fuel node tr hk] at h
    have h0 := Option.some.inj h
    obtain ⟨t1, h1, h2⟩ := (andThen_eq_ok_iff _ _ _).1 h0
    obtain ⟨t2, h3, h4⟩ := (andThen_eq_ok_iff _ _ _).1 h2
    obtain ⟨a1, a2, a3⟩ := encodeTopLevelMapLoop_ok e node.Content tr t1 h1
    have e2 := EncodeToken_eq_ok _ _ _ _ h3
    have e3 : out = t2 := (congrArg Prod.fst h4).symm
    exact ⟨a1, a2, by rw [e3, e2, a3]⟩
  · intro hc hs
    rw [Encode_mapping_eq (ideal e) u fuel node tr hk, encodeTopLevelMap, hc,
      encodeTopLevelMapLoop_ideal e _ hs, entries_flat]
    rfl

/-- Witness of C1: a mapping with two entries, one key carrying the attribute
prefix and one equal to the content name, yields sibling elements named by the
keys and the final newline. -/
theorem Encode_mapping_tokens_witness :
    Encode plusEncoder id 0 twoRoots [] =
      some ([.StartElement (startNamed "+a"), .CharData "1", .EndElement ⟨⟨"", "+a"⟩⟩,
        .StartElement (startNamed "+content"), .CharData "u", .EndElement ⟨⟨"", "+content"⟩⟩,
        .StartElement (startNamed "+content"), .CharData "v", .EndElement ⟨⟨"", "+content"⟩⟩,
        .CharData "\n"], none) ∧
    [Token.StartElement (startNamed "+a"), .CharData "1", .EndElement ⟨⟨"", "+a"⟩⟩,
        .StartElement (startNamed "+content"), .CharData "u", .EndElement ⟨⟨"", "+content"⟩⟩,
        .StartElement (startNamed "+content"), .CharData "v", .EndElement ⟨⟨"", "+content"⟩⟩,
        .CharData "\n"] =
      [] ++ (entries twoRoots.Content).flatMap
        (fun kv => elementTokens plusEncoder kv.2 { Name := { Local := kv.1.Value }, Attr := [] }) ++
      [Token.CharData "\n"] :=
  ⟨by decide,
    ((Encode_mapping_tokens plusEncoder id 0 twoRoots [] (by decide)).1 _ (by decide)).2.2⟩

/-- C2: for a mapping with complete entries whose attribute-bound entries all
have scalar values, the first token `encodeMap` hands to the writer is the start
tag of the element; its attribute list is the one of the given start element
(empty at every call site) followed by one attribute for each entry whose key
has the attribute prefix and is not the content name, in insertion order, named
by the key without the prefix and holding the value's text; and it is the only
start tag opened at the depth of the element itself, wherever the attribute
keys stand among the other keys and whether or not the call succeeds. -/
theorem encodeMap_start_tag (e : xmlEncoder) (node : Node) (start : StartElement)
    (tr : List Token) (es : List (Node × Node)) (hc : node.Content = flat es)
    (hs : ∀ kv ∈ es, isAttrKey e kv.1 = true → kv.2.Kind = .ScalarNode) :
    ∃ rest, (encodeMap e node start tr).1 =
        tr ++ Token.StartElement { Name := start.Name, Attr := start.Attr ++ attributes e es } :: rest ∧
      topStarts 0 (Token.StartElement { Name := start.Name, Attr := start.Attr ++ attributes e es } :: rest) =
        [{ Name := start.Name, Attr := start.Attr ++ attributes e es }] := by
  rw [encodeMap_eq, doEncode_mapping, hc, encodeMapAttrs_flat e es start hs]
  dsimp only
  have hin : KeepsInside 1 0 (fun t1 => andThen (encodeMapBody e (flat es) t1)
      fun t2 => EncodeToken e.xmlEncoder t2
        (.EndElement (StartElement.End { Name := start.Name, Attr := start.Attr ++ attributes e es }))) :=
    keepsInside_andThen
      (encodeMapBody_keepsInside e (flat es) 0 (fun n _ s => doEncode_keepsInside e n 0 s))
      (keepsInside_endElement _ 0 _)
  rcases hw : EncodeToken e.xmlEncoder tr
      (.StartElement { Name := start.Name, Attr := start.Attr ++ attributes e es }) with ⟨t1, _ | err⟩
  · have e1 := EncodeToken_eq_ok _ _ _ _ hw
    obtain ⟨em, ha, hb, _⟩ := hin t1
    refine ⟨em, ?_, ?_⟩
    · show (andThen (encodeMapBody e (flat es) t1) _).1 = _
      rw [ha, e1]
      simp
    · simp [topStarts, hb]
  · have e1 : t1 = tr ++ [_] := (congrArg Prod.fst hw).symm
    refine ⟨[], ?_, ?_⟩
    · show t1 = _
      rw [e1]
    · simp [topStarts]

/-- Witness of C2: attribute keys interleaved with an element key and the
content key. -/
theorem encodeMap_start_tag_witness :
    ∃ rest, (encodeMap plusEncoder interleavedMap (startNamed "a") []).1 =
        [] ++ Token.StartElement { Name := (startNamed "a").Name,
                                   Attr := (startNamed "a").Attr ++
                                     attributes plusEncoder interleavedEntries } :: rest ∧
      topStarts 0 (Token.StartElement { Name := (startNamed "a").Name,
                                        Attr := (startNamed "a").Attr ++
                                          attributes plusEncoder interleavedEntries } :: rest) =
        [{ Name := (startNamed "a").Name,
           Attr := (startNamed "a").Attr ++ attributes plusEncoder interleavedEntries }] :=
  encodeMap_start_tag plusEncoder interleavedMap (startNamed "a") [] interleavedEntries rfl
    (by decide)

/-- C3: when `encodeMap` of an element named `N` returns `nil`, the tokens
handed to the writer are the start tag, then for the entries in insertion order:
the element encoding `doEncode(value, element named key, no attributes)` for a
key without the attribute prefix that is not the content name, one
character-data token holding the value's text for the content key, nothing for
an attribute-bound key; then the end tag named `N`. -/
theorem encodeMap_body_tokens (e : xmlEncoder) (node : Node) (start : StartElement)
    (tr out : List Token) (h : encodeMap e node start tr = (out, none)) :
    node.Content = flat (entries node.Content) ∧
    out = tr ++ Token.StartElement (mapStart e node.Content start) ::
      (entries node.Content).flatMap (fun kv =>
        if isBodyKey e kv.1 then elementTokens e kv.2 { Name := { Local := kv.1.Value }, Attr := [] }
        else if kv.1.Value = e.contentName then [Token.CharData kv.2.Value]
        else []) ++
      [Token.EndElement { Name := start.Name }] := by
  rw [encodeMap_eq] at h
  obtain ⟨h1, _, _, h4⟩ := doEncode_mapping_ok e _ _ _ start tr out h
  exact ⟨h1, h4⟩

/-- Witness of C3: an element with two attributes, a child element and content. -/
theorem encodeMap_body_tokens_witness :
    encodeMap plusEncoder interleavedMap (startNamed "a") [] =
      ([.StartElement { Name := { Local := "a" }, Attr := [⟨⟨"", "x"⟩, "1"⟩, ⟨⟨"", "y"⟩, "3"⟩] },
        .StartElement (startNamed "b"), .CharData "2", .EndElement ⟨⟨"", "b"⟩⟩,
        .CharData "t", .EndElement ⟨⟨"", "a"⟩⟩], none) ∧
    [Token.StartElement { Name := { Local := "a" }, Attr := [⟨⟨"", "x"⟩, "1"⟩, ⟨⟨"", "y"⟩, "3"⟩] },
        .StartElement (startNamed "b"), .CharData "2", .EndElement ⟨⟨"", "b"⟩⟩,
        .CharData "t", .EndElement ⟨⟨"", "a"⟩⟩] =
      [] ++ Token.StartElement (mapStart plusEncoder interleavedMap.Content (startNamed "a")) ::
      (entries interleavedMap.Content).flatMap (fun kv =>
        if isBodyKey plusEncoder kv.1 then
          elementTokens plusEncoder kv.2 { Name := { Local := kv.1.Value }, Attr := [] }
        else if kv.1.Value = plusEncoder.contentName then [Token.CharData kv.2.Value]
        else []) ++
      [Token.EndElement { Name := (startNamed "a").Name }] :=
  ⟨by decide,
    (encodeMap_body_tokens plusEncoder interleavedMap (startNamed "a") [] _ (by decide)).2⟩

/-- Counterexample to C4: under the key `k` the sequence `[[u, v]]` has one
item and yields two sibling elements named `k`. -/
theorem sequence_siblings_counterexample :
    nestedSequence.Kind = .SequenceNode ∧
    Encode plusEncoder id 0 nestedSequenceMap [] =
      some ([.StartElement (startNamed "k"), .CharData "u", .EndElement ⟨⟨"", "k"⟩⟩,
        .StartElement (startNamed "k"), .CharData "v", .EndElement ⟨⟨"", "k"⟩⟩,
        .CharData "\n"], none) ∧
    doEncode plusEncoder nestedSequence (startNamed "k") [] =
      ([.StartElement (startNamed "k"), .CharData "u", .EndElement ⟨⟨"", "k"⟩⟩,
        .StartElement (startNamed "k"), .CharData "v", .EndElement ⟨⟨"", "k"⟩⟩], none) ∧
    (topStarts 0 (doEncode plusEncoder nestedSequence (startNamed "k") []).1).length = 2 ∧
    nestedSequence.Content.length = 1 ∧
    (topStarts 0 (doEncode plusEncoder nestedSequence (startNamed "k") []).1).length ≠
      nestedSequence.Content.length := by
  decide

/-- C4, amended: when the encoding of a sequence under the key `K` returns
`nil`, every sibling element it produced (every element opened at the depth of
the entry itself) is named `K`, and when no item of the sequence is itself a
sequence their number is the length of the sequence. -/
theorem sequence_siblings (e : xmlEncoder) (K : String) (node : Node) (tr tr1 : List Token)
    (hk : node.Kind = .SequenceNode)
    (h : doEncode e node { Name := { Local := K }, Attr := [] } tr = (tr1, none)) :
    ∃ em, tr1 = tr ++ em ∧
      (∀ x ∈ topStarts 0 em, x.Name = { Local := K }) ∧
      ((∀ item ∈ node.Content, item.Kind ≠ .SequenceNode) →
        (topStarts 0 em).length = node.Content.length) := by
  cases node with
  | mk k t v c =>
    have hk1 : k = .SequenceNode := hk
    subst hk1
    obtain ⟨h1, h2⟩ := doEncode_ok e _ _ tr tr1 h
    obtain ⟨h3, h4⟩ := elementTokens_sequence e t v c _ h2
    obtain ⟨rs, g1, g2, g3⟩ := items_rootsNamed e c _ (fun n _ => doEncode_rootsNamed e n) h3 []
    have g4 : topStarts 0 (elementTokens e (.mk .SequenceNode t v c)
        { Name := { Local := K }, Attr := [] }) = rs := by
      rw [h4]
      simpa [topStarts] using g1
    refine ⟨_, h1, ?_, ?_⟩
    · rw [g4]; exact g2
    · rw [g4]; exact g3

/-- Witness of C4: the sequence `[\x7b+id: 1\x7d, x]` under `k` yields two elements. -/
theorem sequence_siblings_witness :
    ∃ em, [Token.StartElement { Name := { Local := "k" }, Attr := [⟨⟨"", "id"⟩, "1"⟩] },
        .EndElement ⟨⟨"", "k"⟩⟩,
        .StartElement (startNamed "k"), .CharData "x", .EndElement ⟨⟨"", "k"⟩⟩] = [] ++ em ∧
      (∀ x ∈ topStarts 0 em, x.Name = { Local := "k" }) ∧
      ((∀ item ∈ mixedSequence.Content, item.Kind ≠ .SequenceNode) →
        (topStarts 0 em).length = mixedSequence.Content.length) :=
  sequence_siblings plusEncoder "k" mixedSequence [] _ (by decide) (by decide)

/-- C5: a scalar node in element position gets exactly three tokens, and its
start tag has no attributes.  For a top-level mapping, every writer and every
trace, and a scalar node `n` in element position under a key `K` (value of a
top-level entry, value of a body entry of a nested mapping, item of a sequence
under such a key, also one whose other items are mappings with attributes):

* `Encode` is the run of the steps that the element-encoding rule of the
  specification lists for the mapping, followed by `Flush`: the same tokens are
  handed to the writer and the same error or `nil` is returned, whether the
  encoding succeeds or fails;
* in that list the steps of `n` are exactly three: the start tag named `K` with
  an empty attribute list, one character-data token holding the value of `n`,
  the end tag named `K`; and they stand in the list next to each other;
* wherever these three steps stand in the list, once the run has reached them
  (the steps before them are done without an error, the trace being `t1`) the
  start tag named `K` with an empty attribute list is handed to the writer, then
  the character data when the writer accepts the start tag, then the end tag
  when the writer accepts the character data, whatever becomes of the encoding
  afterwards; when the writer rejects the start tag or the character data, that
  token is the last one handed over;
* the call `doEncode` on `n` with any start element hands over that start
  element as it is, the character data and the end tag of the same name, each
  as long as the writer accepted the one before. -/
theorem scalar_element_tokens (e : xmlEncoder) (u : Node → Node) (fuel : Nat) (top : Node)
    (tr : List Token) (K : String) (n : Node) (hk : top.Kind = .MappingNode)
    (hp : ElementPosition e top K n) (hs : n.Kind = .ScalarNode) :
    Encode e u fuel top tr =
      some (andThen (runSteps e.xmlEncoder (specDocument e top) tr) (Flush e.xmlEncoder)) ∧
    specElement e K n =
      [.emit (.StartElement { Name := { Local := K }, Attr := [] }), .emit (.CharData n.Value),
        .emit (.EndElement { Name := { Local := K } })] ∧
    [Step.emit (.StartElement { Name := { Local := K }, Attr := [] }), .emit (.CharData n.Value),
      .emit (.EndElement { Name := { Local := K } })] <:+: specDocument e top ∧
    (∀ pre post t1,
      specDocument e top =
        pre ++ [.emit (.StartElement { Name := { Local := K }, Attr := [] }),
          .emit (.CharData n.Value), .emit (.EndElement { Name := { Local := K } })] ++ post →
      runSteps e.xmlEncoder pre tr = (t1, none) →
      ∃ out err, Encode e u fuel top tr = some (out, err) ∧
        t1 ++ [.StartElement { Name := { Local := K }, Attr := [] }] <+: out ∧
        (e.xmlEncoder.EncodeTokenErr t1
            (.StartElement { Name := { Local := K }, Attr := [] }) = none →
          t1 ++ [.StartElement { Name := { Local := K }, Attr := [] }, .CharData n.Value]
            <+: out) ∧
        (e.xmlEncoder.EncodeTokenErr t1
            (.StartElement { Name := { Local := K }, Attr := [] }) = none →
          e.xmlEncoder.EncodeTokenErr
            (t1 ++ [.StartElement { Name := { Local := K }, Attr := [] }])
            (.CharData n.Value) = none →
          t1 ++ [.StartElement { Name := { Local := K }, Attr := [] }, .CharData n.Value,
            .EndElement { Name := { Local := K } }] <+: out) ∧
        (e.xmlEncoder.EncodeTokenErr t1
            (.StartElement { Name := { Local := K }, Attr := [] }) ≠ none →
          out = t1 ++ [.StartElement { Name := { Local := K }, Attr := [] }]) ∧
        (e.xmlEncoder.EncodeTokenErr t1
            (.StartElement { Name := { Local := K }, Attr := [] }) = none →
          e.xmlEncoder.EncodeTokenErr
            (t1 ++ [.StartElement { Name := { Local := K }, Attr := [] }])
            (.CharData n.Value) ≠ none →
          out = t1 ++ [.StartElement { Name := { Local := K }, Attr := [] },
            .CharData n.Value])) ∧
    ∀ s t0, doEncode e n s t0 =
      runSteps e.xmlEncoder
        [.emit (.StartElement s), .emit (.CharData n.Value), .emit (.EndElement s.End)] t0 := by
  have hdoc := Encode_steps e u fuel top tr hk
  have hinf := elementPosition_steps e top K n hp
  cases n with
  | mk k t v c =>
    have hk1 : k = .ScalarNode := hs
    subst hk1
    rw [specElement_scalar] at hinf
    refine ⟨hdoc, specElement_scalar e K t v c, hinf, ?_, ?_⟩
    · intro pre post t1 hd hpre
      have key : (andThen (runSteps e.xmlEncoder (specDocument e top) tr)
          (Flush e.xmlEncoder)).1 =
          (runSteps e.xmlEncoder
            ([.emit (.StartElement { Name := { Local := K }, Attr := [] }), .emit (.CharData v),
              .emit (.EndElement { Name := { Local := K } })] ++ post) t1).1 := by
        rw [andThen_flush_fst, hd, List.append_assoc, runSteps_append]
        show (andThen (runSteps e.xmlEncoder pre tr) _).1 = _
        rw [hpre]
        rfl
      have h3 := runSteps_three e.xmlEncoder
        (.StartElement { Name := { Local := K }, Attr := [] }) (.CharData v)
        (.EndElement { Name := { Local := K } }) post t1
      rw [← key] at h3
      exact ⟨(andThen (runSteps e.xmlEncoder (specDocument e top) tr) (Flush e.xmlEncoder)).1,
        (andThen (runSteps e.xmlEncoder (specDocument e top) tr) (Flush e.xmlEncoder)).2,
        hdoc, h3⟩
    · intro s t0
      rw [doEncode_scalar, runSteps_emit_cons, runSteps_emit_fun, runSteps_emit]
      rfl

/-- Witness of C5: the scalar item `x` of the sequence `[\x7b+id: 1\x7d, x]` under `k`,
whose sibling is a mapping with an attribute, in a mapping whose encoding fails
later, at the alias node under `b`. -/
theorem scalar_element_tokens_witness :
    Encode plusEncoder id 0 mixedThenAlias [] =
      some ([.StartElement { Name := { Local := "k" }, Attr := [⟨⟨"", "id"⟩, "1"⟩] },
        .EndElement ⟨⟨"", "k"⟩⟩,
        .StartElement { Name := { Local := "k" }, Attr := [] }, .CharData "x",
        .EndElement ⟨⟨"", "k"⟩⟩], some (.unsupportedType "")) ∧
    [Step.emit (.StartElement { Name := { Local := "k" }, Attr := [] }), .emit (.CharData "x"),
      .emit (.EndElement { Name := { Local := "k" } })] <:+:
      specDocument plusEncoder mixedThenAlias :=
  have h := scalar_element_tokens plusEncoder id 0 mixedThenAlias [] "k" (scalarNode "x")
    (by decide)
    (ElementPosition.item "k" mixedSequence (scalarNode "x")
      (ElementPosition.topEntry (scalarNode "k", mixedSequence) (List.mem_cons_self _ _))
      rfl (List.mem_cons_of_mem _ (List.mem_cons_self _ _)))
    rfl
  ⟨h.1, h.2.2.1⟩

/-- C6: when `Encode` of a top-level mapping returns `nil`, the tokens handed to
the writer are validly nested: read from left to right with no element open,
every end tag closes the most recently opened element that is still open and
carries its name, character data stands inside an element, no element is left
open, and the one token after them, outside every element, is the final
newline. -/
theorem Encode_validly_nested (e : xmlEncoder) (u : Node → Node) (fuel : Nat) (top : Node)
    (tr out : List Token) (hk : top.Kind = .MappingNode)
    (h : Encode e u fuel top tr = some (out, none)) :
    ∃ body, out = tr ++ body ++ [Token.CharData "\n"] ∧ nesting [] body = some [] := by
  obtain ⟨t1, h1, h2⟩ := Encode_mapping_ok e u fuel top tr out hk h
  obtain ⟨_, a2, a3⟩ := encodeTopLevelMapLoop_ok e top.Content tr t1 h1
  refine ⟨_, by rw [h2, a3], ?_⟩
  have hb := topLevel_balanced e (entries top.Content) a2 [] []
  rw [List.append_nil] at hb
  rw [hb]
  rfl

/-- Witness of C6: the tokens of `k: [\x7b+id: 1\x7d, x]`. -/
theorem Encode_validly_nested_witness :
    ∃ body, [Token.StartElement { Name := { Local := "k" }, Attr := [⟨⟨"", "id"⟩, "1"⟩] },
        .EndElement ⟨⟨"", "k"⟩⟩,
        .StartElement (startNamed "k"), .CharData "x", .EndElement ⟨⟨"", "k"⟩⟩,
        .CharData "\n"] = [] ++ body ++ [Token.CharData "\n"] ∧ nesting [] body = some [] :=
  Encode_validly_nested plusEncoder id 0 mixedSequenceMap [] _ (by decide) (by decide)

/-- C7: when a mapping has an entry whose key has the attribute prefix and is
not the content name and whose value is not a scalar, `encodeMap` returns the
error `cannot use <tag> as attribute, only scalars are supported` for such an
entry and hands no token to the writer, wherever the entry stands in the
mapping. -/
theorem encodeMap_attribute_error (e : xmlEncoder) (node : Node) (start : StartElement)
    (tr : List Token)
    (h : ∃ kv ∈ entries node.Content, isAttrKey e kv.1 = true ∧ kv.2.Kind ≠ .ScalarNode) :
    ∃ kv ∈ entries node.Content, isAttrKey e kv.1 = true ∧ kv.2.Kind ≠ .ScalarNode ∧
      encodeMap e node start tr = (tr, some (.attributeNotScalar kv.2.Tag)) := by
  obtain ⟨kv, h1, h2, h3, h4⟩ := encodeMapAttrs_error e node.Content start h
  refine ⟨kv, h1, h2, h3, ?_⟩
  rw [encodeMap, h4]

/-- Witness of C7: the offending entry stands after a body entry and a valid
attribute entry. -/
theorem encodeMap_attribute_error_witness :
    ∃ kv ∈ entries badAttributeMap.Content,
      isAttrKey plusEncoder kv.1 = true ∧ kv.2.Kind ≠ .ScalarNode ∧
      encodeMap plusEncoder badAttributeMap (startNamed "a") [] =
        ([], some (.attributeNotScalar kv.2.Tag)) :=
  encodeMap_attribute_error plusEncoder badAttributeMap (startNamed "a") []
    ⟨(scalarNode "+y", sequenceNode [scalarNode "u"]),
      List.mem_cons_of_mem _ (List.mem_cons_of_mem _ (List.mem_cons_self _ _)),
      by decide, by decide⟩

/-- Counterexample to C8: `Encode` of the top-level scalar `hello` returns `nil`
and hands one character-data token to the writer. -/
theorem Encode_scalar_counterexample :
    (scalarNode "hello").Kind = .ScalarNode ∧
    Encode plusEncoder id 0 (scalarNode "hello") [] = some ([.CharData "hello"], none) ∧
    ¬ ∃ out tag, Encode plusEncoder id 0 (scalarNode "hello") [] =
      some (out, some (.unsupportedType tag)) := by
  refine ⟨rfl, by decide, ?_⟩
  rintro ⟨out, tag, h⟩
  rw [show Encode plusEncoder id 0 (scalarNode "hello") [] = some ([.CharData "hello"], none) from
    by decide] at h
  cases h

/-- C8, amended: for a top-level scalar node `Encode` hands exactly one token to
the writer, the character data holding the scalar's value (no element and no
newline), never fails with the unsupported-type error, and returns `nil` when
the writer accepts the token and the flush. -/
theorem Encode_scalar (e : xmlEncoder) (u : Node → Node) (fuel : Nat) (node : Node)
    (tr : List Token) (hk : node.Kind = .ScalarNode) :
    (∃ r, Encode e u fuel node tr = some (tr ++ [Token.CharData node.Value], r) ∧
      ∀ tag, r ≠ some (.unsupportedType tag)) ∧
    (e.xmlEncoder.EncodeTokenErr tr (.CharData node.Value) = none →
      e.xmlEncoder.FlushErr (tr ++ [.CharData node.Value]) = none →
      Encode e u fuel node tr = some (tr ++ [Token.CharData node.Value], none)) := by
  have h0 : Encode e u fuel node tr =
      some (andThen (EncodeToken e.xmlEncoder tr (.CharData node.Value)) fun t1 =>
        Flush e.xmlEncoder t1) := by
    cases fuel <;>
    · rw [Encode]
      simp only [hk]
      rcases EncodeToken e.xmlEncoder tr (Token.CharData node.Value) with ⟨t2, _ | err⟩ <;> rfl
  rw [h0]
  constructor
  · cases h1 : e.xmlEncoder.EncodeTokenErr tr (.CharData node.Value) with
    | some msg =>
      exact ⟨some (.writer msg), by simp [EncodeToken, andThen, h1], by simp⟩
    | none =>
      cases h2 : e.xmlEncoder.FlushErr (tr ++ [.CharData node.Value]) with
      | some msg =>
        exact ⟨some (.writer msg), by simp [EncodeToken, andThen, Flush, h1, h2], by simp⟩
      | none => exact ⟨none, by simp [EncodeToken, andThen, Flush, h1, h2], by simp⟩
  · intro h1 h2
    simp [EncodeToken, andThen, Flush, h1, h2]

/-- Witness of C8: the top-level scalar `hello`. -/
theorem Encode_scalar_witness :
    (∃ r, Encode plusEncoder id 0 (scalarNode "hello") [] =
        some ([] ++ [Token.CharData (scalarNode "hello").Value], r) ∧
      ∀ tag, r ≠ some (.unsupportedType tag)) ∧
    (plusEncoder.xmlEncoder.EncodeTokenErr [] (.CharData (scalarNode "hello").Value) = none →
      plusEncoder.xmlEncoder.FlushErr ([] ++ [.CharData (scalarNode "hello").Value]) = none →
      Encode plusEncoder id 0 (scalarNode "hello") [] =
        some ([] ++ [Token.CharData (scalarNode "hello").Value], none)) :=
  Encode_scalar plusEncoder id 0 (scalarNode "hello") [] rfl

/-- C9: `Encode` of a top-level node whose kind is none of mapping, document and
scalar (a sequence, for one) returns the error `unsupported type <tag>` and hands
no token to the writer; and `Encode` of a top-level mapping that has, in element
position, a node whose kind is none of scalar, sequence and mapping (an alias
node, for one) does not return `nil`: it returns an error, which is not the
index panic when every mapping of the tree has complete entries. -/
theorem Encode_unsupported (e : xmlEncoder) (u : Node → Node) (fuel : Nat) :
    (∀ node tr, node.Kind ≠ .MappingNode → node.Kind ≠ .DocumentNode →
      node.Kind ≠ .ScalarNode →
      Encode e u fuel node tr = some (tr, some (.unsupportedType node.Tag))) ∧
    (∀ top tr K n, top.Kind = .MappingNode → ElementPosition e top K n →
      n.Kind ≠ .ScalarNode → n.Kind ≠ .SequenceNode → n.Kind ≠ .MappingNode →
      ∃ out err, Encode e u fuel top tr = some (out, some err) ∧
        (evenMappings top = true → err ≠ .indexOutOfRange)) := by
  constructor
  · intro node tr h1 h2 h3
    cases node with
    | mk k t v c =>
      cases k
      · exact absurd rfl h2
      · cases fuel <;> rfl
      · exact absurd rfl h1
      · exact absurd rfl h3
      · cases fuel <;> rfl
      · cases fuel <;> rfl
  · intro top tr K n hk hp h1 h2 h3
    obtain ⟨o, ho⟩ : ∃ o, Encode e u fuel top tr = some o :=
      ⟨_, Encode_mapping_eq e u fuel top tr hk⟩
    rcases o with ⟨out, _ | err⟩
    · exact absurd (elementPosition_tokens e u fuel top tr out hk ho K n hp).1
        (not_succeeds_unsupported e n _ h3 h2 h1)
    · refine ⟨out, err, ho, fun hw h => ?_⟩
      obtain ⟨o1, ho1, hnp⟩ := Encode_mapping_noPanic e u fuel top tr hk hw
      rw [ho] at ho1
      cases ho1
      exact hnp (by rw [h])

/-- Witness of C9: a top-level sequence, and the mapping `a: 1`, `b: *x`, `c: 3`
with an alias node in element position. -/
theorem Encode_unsupported_witness :
    Encode plusEncoder id 0 aliasSequence [] =
      some ([], some (.unsupportedType aliasSequence.Tag)) ∧
    ∃ out err, Encode plusEncoder id 0 aliasMap [] = some (out, some err) ∧
      (evenMappings aliasMap = true → err ≠ .indexOutOfRange) :=
  ⟨(Encode_unsupported plusEncoder id 0).1 aliasSequence [] (by decide) (by decide) (by decide),
    (Encode_unsupported plusEncoder id 0).2 aliasMap [] "b" (aliasNode "x") (by decide)
      (ElementPosition.topEntry (scalarNode "b", aliasNode "x")
        (List.mem_cons_of_mem _ (List.mem_cons_self _ _)))
      (by decide) (by decide) (by decide)⟩

/-- C10: an error aborts the call and what was handed to the writer stays.
When the entries before an entry of a top-level mapping are encoded and the
encoding of that entry fails, `Encode` returns that error with the trace as the
failing call left it: the tokens of the earlier entries and of the part of the
failing entry, nothing for later entries, no final newline.  The same holds for
`encodeMap`, whose end tag is not handed over after a failing child, and for
`encodeArray`. -/
theorem error_aborts (e : xmlEncoder) :
    (∀ (u : Node → Node) (fuel : Nat) (top : Node) (pre : List (Node × Node)) (k v : Node)
        (post : List Node) (tr tr1 tr2 : List Token) (err : EncodeError),
      top.Kind = .MappingNode → top.Content = flat pre ++ k :: v :: post →
      encodeTopLevelMapLoop e (flat pre) tr = (tr1, none) →
      doEncode e v { Name := { Local := k.Value }, Attr := [] } tr1 = (tr2, some err) →
      Encode e u fuel top tr = some (tr2, some err) ∧
        tr1 = tr ++ pre.flatMap
          (fun kv => elementTokens e kv.2 { Name := { Local := kv.1.Value }, Attr := [] }) ∧
        tr1 <+: tr2) ∧
    (∀ (node : Node) (start s1 : StartElement) (pre : List (Node × Node)) (k v : Node)
        (post : List Node) (tr tr1 tr2 : List Token) (err : EncodeError),
      node.Content = flat pre ++ k :: v :: post →
      encodeMapAttrs e node.Content start = .ok s1 →
      e.xmlEncoder.EncodeTokenErr tr (.StartElement s1) = none →
      encodeMapBody e (flat pre) (tr ++ [.StartElement s1]) = (tr1, none) →
      isBodyKey e k = true →
      doEncode e v { Name := { Local := k.Value }, Attr := [] } tr1 = (tr2, some err) →
      encodeMap e node start tr = (tr2, some err) ∧
        tr1 = tr ++ [.StartElement s1] ++ pre.flatMap (entryTokens e) ∧ tr1 <+: tr2) ∧
    (∀ (node : Node) (start : StartElement) (pre : List Node) (v : Node) (post : List Node)
        (tr tr1 tr2 : List Token) (err : EncodeError),
      node.Content = pre ++ v :: post →
      encodeArrayLoop e pre start tr = (tr1, none) →
      doEncode e v start tr1 = (tr2, some err) →
      encodeArray e node start tr = (tr2, some err) ∧
        tr1 = tr ++ pre.flatMap (fun x => elementTokens e x start) ∧ tr1 <+: tr2) := by
  refine ⟨?_, ?_, ?_⟩
  · intro u fuel top pre k v post tr tr1 tr2 err hk hc hpre hfail
    have hext : tr1 <+: tr2 := by
      have := doEncode_extends e v { Name := { Local := k.Value }, Attr := [] } tr1
      rw [hfail] at this
      exact this
    obtain ⟨_, _, a3⟩ := encodeTopLevelMapLoop_ok e (flat pre) tr tr1 hpre
    rw [entries_flat] at a3
    refine ⟨?_, a3, hext⟩
    rw [Encode_mapping_eq e u fuel top tr hk, encodeTopLevelMap, hc,
      encodeTopLevelMapLoop_append, hpre]
    show some (andThen (encodeTopLevelMapLoop e (k :: v :: post) tr1) _) = _
    rw [encodeTopLevelMapLoop_cons, hfail]
    rfl
  · intro node start s1 pre k v post tr tr1 tr2 err hc hattr hstart hpre hb hfail
    have hext : tr1 <+: tr2 := by
      have := doEncode_extends e v { Name := { Local := k.Value }, Attr := [] } tr1
      rw [hfail] at this
      exact this
    obtain ⟨_, _, a3⟩ := encodeMapBody_ok e (flat pre) _ tr1 hpre
    rw [entries_flat] at a3
    refine ⟨?_, a3, hext⟩
    have hs : EncodeToken e.xmlEncoder tr (.StartElement s1) = (tr ++ [.StartElement s1], none) := by
      simp [EncodeToken, hstart]
    rw [encodeMap, hattr]
    show andThen (EncodeToken e.xmlEncoder tr (.StartElement s1)) (fun t1 =>
      andThen (encodeMapBody e node.Content t1) fun t2 =>
        EncodeToken e.xmlEncoder t2 (.EndElement s1.End)) = _
    rw [hs]
    show andThen (encodeMapBody e node.Content (tr ++ [.StartElement s1])) _ = _
    rw [hc, encodeMapBody_append, hpre]
    show andThen (encodeMapBody e (k :: v :: post) tr1) _ = _
    rw [encodeMapBody_cons, if_pos hb, hfail]
    rfl
  · intro node start pre v post tr tr1 tr2 err hc hpre hfail
    have hext : tr1 <+: tr2 := by
      have := doEncode_extends e v start tr1
      rw [hfail] at this
      exact this
    obtain ⟨_, a3⟩ := encodeArrayLoop_ok e pre start tr tr1 hpre
    refine ⟨?_, a3, hext⟩
    rw [encodeArray, hc, encodeArrayLoop_append, hpre]
    show encodeArrayLoop e (v :: post) start tr1 = _
    rw [encodeArrayLoop_cons, hfail]
    rfl

/-- Witness of C10: an alias node as the second of three values, at top level,
in a nested mapping and in a sequence. -/
theorem error_aborts_witness :
    (Encode plusEncoder id 0 aliasMap [] =
        some ([.StartElement (startNamed "a"), .CharData "1", .EndElement ⟨⟨"", "a"⟩⟩],
          some (.unsupportedType "")) ∧
      [Token.StartElement (startNamed "a"), .CharData "1", .EndElement ⟨⟨"", "a"⟩⟩] =
        [] ++ [(scalarNode "a", scalarNode "1")].flatMap
          (fun kv => elementTokens plusEncoder kv.2 { Name := { Local := kv.1.Value }, Attr := [] }) ∧
      [Token.StartElement (startNamed "a"), .CharData "1", .EndElement ⟨⟨"", "a"⟩⟩] <+:
        [Token.StartElement (startNamed "a"), .CharData "1", .EndElement ⟨⟨"", "a"⟩⟩]) ∧
    (encodeMap plusEncoder aliasElement (startNamed "m") [] =
        ([.StartElement { Name := { Local := "m" }, Attr := [⟨⟨"", "id"⟩, "7"⟩] },
          .StartElement (startNamed "a"), .CharData "1", .EndElement ⟨⟨"", "a"⟩⟩],
          some (.unsupportedType "")) ∧
      [Token.StartElement { Name := { Local := "m" }, Attr := [⟨⟨"", "id"⟩, "7"⟩] },
          .StartElement (startNamed "a"), .CharData "1", .EndElement ⟨⟨"", "a"⟩⟩] =
        [] ++ [.StartElement { Name := { Local := "m" }, Attr := [⟨⟨"", "id"⟩, "7"⟩] }] ++
          [(scalarNode "+id", scalarNode "7"), (scalarNode "a", scalarNode "1")].flatMap
            (entryTokens plusEncoder) ∧
      [Token.StartElement { Name := { Local := "m" }, Attr := [⟨⟨"", "id"⟩, "7"⟩] },
          .StartElement (startNamed "a"), .CharData "1", .EndElement ⟨⟨"", "a"⟩⟩] <+:
        [Token.StartElement { Name := { Local := "m" }, Attr := [⟨⟨"", "id"⟩, "7"⟩] },
          .StartElement (startNamed "a"), .CharData "1", .EndElement ⟨⟨"", "a"⟩⟩]) ∧
    (encodeArray plusEncoder aliasSequence (startNamed "s") [] =
        ([.StartElement (startNamed "s"), .CharData "1", .EndElement ⟨⟨"", "s"⟩⟩],
          some (.unsupportedType "")) ∧
      [Token.StartElement (startNamed "s"), .CharData "1", .EndElement ⟨⟨"", "s"⟩⟩] =
        [] ++ [scalarNode "1"].flatMap (fun x => elementTokens plusEncoder x (startNamed "s")) ∧
      [Token.StartElement (startNamed "s"), .CharData "1", .EndElement ⟨⟨"", "s"⟩⟩] <+:
        [Token.StartElement (startNamed "s"), .CharData "1", .EndElement ⟨⟨"", "s"⟩⟩]) :=
  ⟨(error_aborts plusEncoder).1 id 0 aliasMap [(scalarNode "a", scalarNode "1")]
      (scalarNode "b") (aliasNode "x") [scalarNode "c", scalarNode "3"] [] _ _ _
      rfl rfl (by decide) (by decide),
    (error_aborts plusEncoder).2.1 aliasElement (startNamed "m") _
      [(scalarNode "+id", scalarNode "7"), (scalarNode "a", scalarNode "1")]
      (scalarNode "b") (aliasNode "x") [scalarNode "c", scalarNode "3"] [] _ _ _
      rfl rfl rfl (by decide) (by decide) (by decide),
    (error_aborts plusEncoder).2.2 aliasSequence (startNamed "s") [scalarNode "1"]
      (aliasNode "x") [scalarNode "3"] [] _ _ _ rfl (by decide) (by decide)⟩

/-- C11: content-key handling takes precedence over attribute handling.  When
the content name starts with the attribute prefix, a key equal to the content
name has the prefix and still is neither attribute-bound nor a body key: the
entry adds no attribute to the start tag, the attribute pass gives the same
result as without the entry whatever the kind of its value (so a value that is
not a scalar does not trigger the attribute error), the body pass hands over
one character-data token holding the value's text for it and no child element,
and a successful `encodeMap` has this token in the body between the tokens of
the entries before and after. -/
theorem content_key_precedence (e : xmlEncoder) (pre post : List (Node × Node)) (k v : Node)
    (hp : HasPrefix e.contentName e.attributePrefix = true) (hk : k.Value = e.contentName) :
    HasPrefix k.Value e.attributePrefix = true ∧ isAttrKey e k = false ∧ isBodyKey e k = false ∧
    attributes e (pre ++ (k, v) :: post) = attributes e (pre ++ post) ∧
    (∀ start, encodeMapAttrs e (flat (pre ++ (k, v) :: post)) start =
      encodeMapAttrs e (flat (pre ++ post)) start) ∧
    (∀ rest tr, encodeMapBody e (k :: v :: rest) tr =
      andThen (EncodeToken e.xmlEncoder tr (.CharData v.Value)) fun t => encodeMapBody e rest t) ∧
    (∀ node start tr out, node.Content = flat (pre ++ (k, v) :: post) →
      encodeMap e node start tr = (out, none) →
      out = tr ++
        [Token.StartElement { Name := start.Name, Attr := start.Attr ++ attributes e (pre ++ post) }] ++
        pre.flatMap (entryTokens e) ++ [Token.CharData v.Value] ++ post.flatMap (entryTokens e) ++
        [Token.EndElement { Name := start.Name }]) := by
  refine ⟨by rw [hk]; exact hp, isAttrKey_content e k hk, isBodyKey_content e k hk,
    attributes_content e pre post k v hk, fun start => encodeMapAttrs_content e pre post k v hk start,
    fun rest tr => encodeMapBody_content e k v rest tr hk, ?_⟩
  intro node start tr out hc h
  exact encodeMap_content_ok e pre post k v hk node start tr out hc h

/-- Witness of C11: prefix `+`, content name `+content`, and a mapping under the
content key between an attribute, a child element and another attribute. -/
theorem content_key_precedence_witness :
    encodeMap plusEncoder containerContentMap (startNamed "a") [] =
      ([.StartElement { Name := { Local := "a" }, Attr := [⟨⟨"", "x"⟩, "1"⟩, ⟨⟨"", "y"⟩, "3"⟩] },
        .StartElement (startNamed "b"), .CharData "2", .EndElement ⟨⟨"", "b"⟩⟩,
        .CharData "", .EndElement ⟨⟨"", "a"⟩⟩], none) ∧
    isAttrKey plusEncoder (scalarNode "+content") = false ∧
    attributes plusEncoder (beforeContent ++ (scalarNode "+content", containerNode) :: afterContent) =
      attributes plusEncoder (beforeContent ++ afterContent) :=
  ⟨by decide,
    (content_key_precedence plusEncoder beforeContent afterContent (scalarNode "+content")
      containerNode (by decide) rfl).2.1,
    (content_key_precedence plusEncoder beforeContent afterContent (scalarNode "+content")
      containerNode (by decide) rfl).2.2.2.1⟩

/-- C18: the value under the content key is never checked for its kind.
Whatever node stands there, `encodeMap` ends as it does with a plain scalar of
the same `Value` in its place: the entry is no reason for an error, the tokens
are those of the scalar, that is one character-data token holding the node's
own `Value`, and nothing is handed over for the node's content.  A successful
call has this token between the tokens of the entries before and after, and on
the accepting writer the call succeeds whenever the other entries are
encodable. -/
theorem content_value_kind_unchecked (e : xmlEncoder) (pre post : List (Node × Node))
    (k v : Node) (hk : k.Value = e.contentName) :
    (∀ node node1 start tr, node.Content = flat (pre ++ (k, v) :: post) →
      node1.Content = flat (pre ++ (k, Node.mk .ScalarNode "!!str" v.Value []) :: post) →
      encodeMap e node start tr = encodeMap e node1 start tr) ∧
    (∀ node start tr out, node.Content = flat (pre ++ (k, v) :: post) →
      encodeMap e node start tr = (out, none) →
      out = tr ++
        [Token.StartElement { Name := start.Name, Attr := start.Attr ++ attributes e (pre ++ post) }] ++
        pre.flatMap (entryTokens e) ++ [Token.CharData v.Value] ++ post.flatMap (entryTokens e) ++
        [Token.EndElement { Name := start.Name }]) ∧
    (∀ node start tr, node.Content = flat (pre ++ (k, v) :: post) →
      (∀ kv ∈ pre ++ post, isAttrKey e kv.1 = true → kv.2.Kind = .ScalarNode) →
      (∀ kv ∈ pre ++ post, isBodyKey e kv.1 = true →
        Succeeds e kv.2 { Name := { Local := kv.1.Value }, Attr := [] }) →
      encodeMap (ideal e) node start tr =
        (tr ++
          [Token.StartElement { Name := start.Name, Attr := start.Attr ++ attributes e (pre ++ post) }] ++
          pre.flatMap (entryTokens e) ++ [Token.CharData v.Value] ++ post.flatMap (entryTokens e) ++
          [Token.EndElement { Name := start.Name }], none)) := by
  refine ⟨?_, ?_, ?_⟩
  · intro node node1 start tr hc hc1
    exact encodeMap_content_congr e pre post k v (Node.mk .ScalarNode "!!str" v.Value []) hk rfl
      node node1 start tr hc hc1
  · intro node start tr out hc h
    exact encodeMap_content_ok e pre post k v hk node start tr out hc h
  · intro node start tr hc ha hs
    have ha1 : ∀ kv ∈ pre ++ (k, v) :: post, isAttrKey e kv.1 = true → kv.2.Kind = .ScalarNode := by
      intro kv hkv hattr
      rcases List.mem_append.1 hkv with h1 | h1
      · exact ha kv (List.mem_append_left _ h1) hattr
      · rcases List.mem_cons.1 h1 with rfl | h2
        · rw [isAttrKey_content e k hk] at hattr; cases hattr
        · exact ha kv (List.mem_append_right _ h2) hattr
    have hs1 : ∀ kv ∈ pre ++ (k, v) :: post, isBodyKey e kv.1 = true →
        Succeeds e kv.2 { Name := { Local := kv.1.Value } } := by
      intro kv hkv hbody
      rcases List.mem_append.1 hkv with h1 | h1
      · exact hs kv (List.mem_append_left _ h1) hbody
      · rcases List.mem_cons.1 h1 with rfl | h2
        · rw [isBodyKey_content e k hk] at hbody; cases hbody
        · exact hs kv (List.mem_append_right _ h2) hbody
    rw [encodeMap_ideal e node _ start tr hc ha1 hs1, attributes_content e pre post k v hk,
      flatMap_entryTokens_content e pre post k v hk]
    simp only [List.append_assoc]

/-- Witness of C18: a mapping with an entry of its own under the content key
yields one empty character-data token and nothing for `deep: hidden`. -/
theorem content_value_kind_unchecked_witness :
    encodeMap plusEncoder containerContentMap (startNamed "a") [] =
      ([.StartElement { Name := { Local := "a" }, Attr := [⟨⟨"", "x"⟩, "1"⟩, ⟨⟨"", "y"⟩, "3"⟩] },
        .StartElement (startNamed "b"), .CharData "2", .EndElement ⟨⟨"", "b"⟩⟩,
        .CharData containerNode.Value, .EndElement ⟨⟨"", "a"⟩⟩], none) ∧
    containerNode.Value = "" ∧
    encodeMap plusEncoder containerContentMap (startNamed "a") [] =
      encodeMap plusEncoder
        (mappingNode (flat (beforeContent ++
          (scalarNode "+content", Node.mk .ScalarNode "!!str" containerNode.Value []) ::
            afterContent)))
        (startNamed "a") [] :=
  ⟨by decide, rfl,
    (content_value_kind_unchecked plusEncoder beforeContent afterContent (scalarNode "+content")
      containerNode rfl).1 containerContentMap _ (startNamed "a") [] rfl rfl⟩

/-- C15: the attribute name is the key with the prefix stripped once from the
front.  For every prefix `p` and key `p ++ rest`, replacing the first occurrence
of `p` in the key by the empty string gives `rest`, also when `p` occurs again
in `rest` (prefix `+` and key `++a` give `+a`) and when `p` is empty (the name
is the whole key); and this is the name of the attribute that `encodeMap` puts
on the start tag for a scalar entry with such a key. -/
theorem attribute_name_strips_once (p rest : String) :
    Replace1 (p ++ rest) p "" = rest ∧
    Replace1 "++a" "+" "" = "+a" ∧
    (∀ key : String, Replace1 key "" "" = key) ∧
    (∀ (e : xmlEncoder) (key value : Node) (start : StartElement),
      e.attributePrefix = p → key.Value = p ++ rest → key.Value ≠ e.contentName →
      value.Kind = .ScalarNode →
      encodeMapAttrs e [key, value] start =
        .ok { Name := start.Name,
              Attr := start.Attr ++ [{ Name := { Local := rest }, Value := value.Value }] }) := by
  refine ⟨Replace1_append p rest, by decide, ?_, ?_⟩
  · intro key
    have h := Replace1_append "" key
    rw [String.empty_append] at h
    exact h
  · intro e key value start hp hkey hc hs
    have ha : (HasPrefix key.Value e.attributePrefix && key.Value != e.contentName) = true := by
      rw [hp, hkey, HasPrefix_append]
      rw [hkey] at hc
      simp [hc]
    rw [encodeMapAttrs, if_pos ha, if_pos hs]
    show encodeMapAttrs e [] _ = _
    rw [encodeMapAttrs, hp, hkey, Replace1_append]

/-- Witness of C15: the entry `++a: 1` under the prefix `+` gives the attribute `+a`. -/
theorem attribute_name_strips_once_witness :
    encodeMapAttrs plusEncoder [scalarNode "++a", scalarNode "1"] (startNamed "m") =
      .ok { Name := (startNamed "m").Name,
            Attr := (startNamed "m").Attr ++
              [{ Name := { Local := "+a" }, Value := (scalarNode "1").Value }] } :=
  (attribute_name_strips_once "+" "+a").2.2.2 plusEncoder (scalarNode "++a") (scalarNode "1")
    (startNamed "m") rfl (by decide) (by decide) rfl

/-- C16: no entry of a mapping element is invisible or handled twice.  For every
key exactly one of the three rules applies: attribute (the key has the prefix
and is not the content name), content (the key is the content name), body
element (neither).  So when `encodeMap` returns `nil`, the attributes the
entries put on the start tag, the character-data tokens in the body of the
element and the entries encoded as child elements are as many as the entries of
the mapping. -/
theorem entries_partition (e : xmlEncoder) :
    (∀ key : Node,
      (isAttrKey e key = true ∧ key.Value ≠ e.contentName ∧ isBodyKey e key = false) ∨
      (isAttrKey e key = false ∧ key.Value = e.contentName ∧ isBodyKey e key = false) ∨
      (isAttrKey e key = false ∧ key.Value ≠ e.contentName ∧ isBodyKey e key = true)) ∧
    (∀ node start tr out, encodeMap e node start tr = (out, none) →
      ∃ s1 body,
        out = tr ++ [Token.StartElement s1] ++ body ++ [Token.EndElement { Name := start.Name }] ∧
        s1.Name = start.Name ∧
        s1.Attr = start.Attr ++ attributes e (entries node.Content) ∧
        body = (entries node.Content).flatMap (entryTokens e) ∧
        (attributes e (entries node.Content)).length + (directText 0 body).length +
          ((entries node.Content).filter fun kv => isBodyKey e kv.1).length =
          (entries node.Content).length) := by
  refine ⟨key_rules e, ?_⟩
  intro node start tr out h
  have h0 := h
  rw [encodeMap_eq] at h0
  obtain ⟨h1, _, h3, _⟩ := doEncode_mapping_ok e _ _ _ start tr out h0
  have hout := encodeMap_ok e node (entries node.Content) start tr out h1 h
  refine ⟨_, _, hout, rfl, rfl, rfl, ?_⟩
  have hd := entries_directText_zero e (entries node.Content)
    (fun kv _ => doEncode_noDirectText e kv.2) h3 []
  rw [List.append_nil] at hd
  rw [hd]
  simp only [directText, List.append_nil]
  exact entries_count e (entries node.Content)

/-- Witness of C16: two attributes, one content token and one child element for
the four entries `+x: 1`, `b: 2`, `+content: t`, `+y: 3`. -/
theorem entries_partition_witness :
    ∃ s1 body,
      [Token.StartElement { Name := { Local := "a" }, Attr := [⟨⟨"", "x"⟩, "1"⟩, ⟨⟨"", "y"⟩, "3"⟩] },
        .StartElement (startNamed "b"), .CharData "2", .EndElement ⟨⟨"", "b"⟩⟩,
        .CharData "t", .EndElement ⟨⟨"", "a"⟩⟩] =
        [] ++ [Token.StartElement s1] ++ body ++
          [Token.EndElement { Name := (startNamed "a").Name }] ∧
      s1.Name = (startNamed "a").Name ∧
      s1.Attr = (startNamed "a").Attr ++ attributes plusEncoder (entries interleavedMap.Content) ∧
      body = (entries interleavedMap.Content).flatMap (entryTokens plusEncoder) ∧
      (attributes plusEncoder (entries interleavedMap.Content)).length +
          (directText 0 body).length +
          ((entries interleavedMap.Content).filter fun kv => isBodyKey plusEncoder kv.1).length =
        (entries interleavedMap.Content).length :=
  (entries_partition plusEncoder).2 interleavedMap (startNamed "a") [] _ (by decide)

/-- Counterexample to C17: with `xs = [*x]` (an alias node) and `ys = [a]` the
encoding of `xs ++ ys` under `k` stops at the alias node and hands over no
token, while the tokens for `xs` followed by the tokens for `ys` are the three
tokens of `a`. -/
theorem sequence_homomorphism_counterexample :
    doEncode plusEncoder (sequenceNode ([aliasNode "x"] ++ [scalarNode "a"])) (startNamed "k") [] =
      ([], some (.unsupportedType "")) ∧
    doEncode plusEncoder (sequenceNode [aliasNode "x"]) (startNamed "k") [] =
      ([], some (.unsupportedType "")) ∧
    doEncode plusEncoder (sequenceNode [scalarNode "a"]) (startNamed "k") [] =
      ([.StartElement (startNamed "k"), .CharData "a", .EndElement ⟨⟨"", "k"⟩⟩], none) ∧
    elementTokens plusEncoder (sequenceNode ([aliasNode "x"] ++ [scalarNode "a"])) (startNamed "k") ≠
      elementTokens plusEncoder (sequenceNode [aliasNode "x"]) (startNamed "k") ++
        elementTokens plusEncoder (sequenceNode [scalarNode "a"]) (startNamed "k") := by
  decide

/-- C17, amended: sequence encoding is a homomorphism that flattens nesting.
Under a start element, encoding the sequence `xs ++ ys` is encoding `xs` and,
when that returns `nil`, encoding `ys` from there: when the encoding of `xs`
succeeds the tokens for `xs ++ ys` are the tokens for `xs` followed by the
tokens for `ys`, and when it fails they are the tokens for `xs` alone.  The
empty sequence hands over no token.  A sequence whose items are sequences is
encoded exactly as the concatenation of its inner sequences, tokens and error
alike. -/
theorem sequence_homomorphism (e : xmlEncoder) (start : StartElement) (t v : String) :
    (∀ xs ys tr, encodeArray e (.mk .SequenceNode t v (xs ++ ys)) start tr =
      andThen (encodeArray e (.mk .SequenceNode t v xs) start tr)
        fun t1 => encodeArray e (.mk .SequenceNode t v ys) start t1) ∧
    (∀ xs ys, Succeeds e (.mk .SequenceNode t v xs) start →
      elementTokens e (.mk .SequenceNode t v (xs ++ ys)) start =
        elementTokens e (.mk .SequenceNode t v xs) start ++
          elementTokens e (.mk .SequenceNode t v ys) start) ∧
    (∀ xs ys, ¬ Succeeds e (.mk .SequenceNode t v xs) start →
      elementTokens e (.mk .SequenceNode t v (xs ++ ys)) start =
        elementTokens e (.mk .SequenceNode t v xs) start) ∧
    (∀ tr, doEncode e (.mk .SequenceNode t v []) start tr = (tr, none)) ∧
    (∀ items tr, (∀ x ∈ items, x.Kind = .SequenceNode) →
      doEncode e (.mk .SequenceNode t v items) start tr =
        doEncode e (.mk .SequenceNode t v (items.flatMap Node.Content)) start tr) := by
  refine ⟨?_, ?_, ?_, ?_, ?_⟩
  · intro xs ys tr
    exact encodeArrayLoop_append e xs ys start tr
  · intro xs ys h
    rw [elementTokens_append e t v t v t v xs ys start, if_pos h]
  · intro xs ys h
    rw [elementTokens_append e t v t v t v xs ys start, if_neg h]
  · intro tr
    rw [doEncode_sequence, encodeArrayLoop]
  · intro items tr h
    rw [doEncode_sequence, doEncode_sequence]
    exact encodeArrayLoop_flatten e items start h tr

/-- Witness of C17: `[[a, b], [c]]` and `[a, b, c]` under `k` encode identically,
and the tokens of `[a, b] ++ [c]` are those of `[a, b]` followed by those of `[c]`. -/
theorem sequence_homomorphism_witness :
    doEncode plusEncoder nestedABC (startNamed "k") [] =
      doEncode plusEncoder flatABC (startNamed "k") [] ∧
    elementTokens plusEncoder (sequenceNode ([scalarNode "a", scalarNode "b"] ++ [scalarNode "c"]))
        (startNamed "k") =
      elementTokens plusEncoder (sequenceNode [scalarNode "a", scalarNode "b"]) (startNamed "k") ++
        elementTokens plusEncoder (sequenceNode [scalarNode "c"]) (startNamed "k") :=
  ⟨(sequence_homomorphism plusEncoder (startNamed "k") "!!seq" "").2.2.2.2
      [sequenceNode [scalarNode "a", scalarNode "b"], sequenceNode [scalarNode "c"]] []
      (by decide),
    (sequence_homomorphism plusEncoder (startNamed "k") "!!seq" "").2.1
      [scalarNode "a", scalarNode "b"] [scalarNode "c"] (by decide)⟩

/-- C19: when the attribute prefix is the empty string, every key has the
prefix, so an entry is attribute-bound exactly when its key is not the content
name, no key is a body key, and the attribute name is the whole key.  A mapping
element with such an entry whose value is not a scalar (for one a sequence or a
mapping) fails with the attribute error and hands over no token.  A mapping
element with complete entries whose such entries are all scalars is encoded on
the accepting writer as the start tag with one attribute per such entry, named
by the whole key, the character data of the content entries, no child element,
and the end tag; every successful call hands over these tokens. -/
theorem empty_prefix_all_attributes (e : xmlEncoder) (hp : e.attributePrefix = "") :
    (∀ key : Node, isAttrKey e key = (key.Value != e.contentName) ∧ isBodyKey e key = false ∧
      attributeName e key = key.Value) ∧
    (∀ node start tr,
      (∃ kv ∈ entries node.Content, kv.1.Value ≠ e.contentName ∧ kv.2.Kind ≠ .ScalarNode) →
      ∃ tag, encodeMap e node start tr = (tr, some (.attributeNotScalar tag))) ∧
    (∀ node es start tr, node.Content = flat es →
      (∀ kv ∈ es, kv.1.Value ≠ e.contentName → kv.2.Kind = .ScalarNode) →
      encodeMap (ideal e) node start tr =
        (tr ++ [Token.StartElement
            { Name := start.Name, Attr := start.Attr ++ wholeKeyAttributes e es }] ++
          (contentValues e es).map Token.CharData ++
          [Token.EndElement { Name := start.Name }], none) ∧
      topStarts 0 ((contentValues e es).map Token.CharData) = [] ∧
      ∀ out, encodeMap e node start tr = (out, none) →
        out = tr ++ [Token.StartElement
            { Name := start.Name, Attr := start.Attr ++ wholeKeyAttributes e es }] ++
          (contentValues e es).map Token.CharData ++
          [Token.EndElement { Name := start.Name }]) := by
  refine ⟨fun key => ⟨isAttrKey_empty e hp key, isBodyKey_empty e hp key,
    attributeName_empty e hp key⟩, ?_, ?_⟩
  · rintro node start tr ⟨kv, hkv, hc, hs⟩
    have ha : isAttrKey e kv.1 = true := by rw [isAttrKey_empty e hp]; simp [hc]
    obtain ⟨kv1, _, _, _, h4⟩ := encodeMapAttrs_error e node.Content start ⟨kv, hkv, ha, hs⟩
    exact ⟨kv1.2.Tag, by rw [encodeMap, h4]⟩
  · intro node es start tr hc hs
    have ha : ∀ kv ∈ es, isAttrKey e kv.1 = true → kv.2.Kind = .ScalarNode := by
      intro kv hkv hattr
      rw [isAttrKey_empty e hp] at hattr
      exact hs kv hkv (by simpa using hattr)
    have hb : ∀ kv ∈ es, isBodyKey e kv.1 = true →
        Succeeds e kv.2 { Name := { Local := kv.1.Value } } := by
      intro kv _ hbody
      rw [isBodyKey_empty e hp] at hbody
      cases hbody
    refine ⟨?_, topStarts_charData_map 0 _, ?_⟩
    · rw [encodeMap_ideal e node es start tr hc ha hb, attributes_empty e hp,
        flatMap_entryTokens_empty e hp]
    · intro out h
      rw [encodeMap_ok e node es start tr out hc h, attributes_empty e hp,
        flatMap_entryTokens_empty e hp]

/-- Witness of C19: under the empty prefix `a: 1`, `+content: t`, `b: 2` becomes
one element with the attributes `a` and `b` and the text `t`, and `a: 1`,
`b: [u]` fails. -/
theorem empty_prefix_all_attributes_witness :
    (∃ tag, encodeMap noPrefixEncoder sequenceValueMap (startNamed "m") [] =
      ([], some (.attributeNotScalar tag))) ∧
    encodeMap (ideal noPrefixEncoder) (mappingNode (flat plainEntries)) (startNamed "m") [] =
      ([] ++ [Token.StartElement
          { Name := (startNamed "m").Name,
            Attr := (startNamed "m").Attr ++ wholeKeyAttributes noPrefixEncoder plainEntries }] ++
        (contentValues noPrefixEncoder plainEntries).map Token.CharData ++
        [Token.EndElement { Name := (startNamed "m").Name }], none) ∧
    encodeMap noPrefixEncoder (mappingNode (flat plainEntries)) (startNamed "m") [] =
      ([.StartElement { Name := { Local := "m" }, Attr := [⟨⟨"", "a"⟩, "1"⟩, ⟨⟨"", "b"⟩, "2"⟩] },
        .CharData "t", .EndElement ⟨⟨"", "m"⟩⟩], none) :=
  ⟨(empty_prefix_all_attributes noPrefixEncoder rfl).2.1 sequenceValueMap (startNamed "m") []
      ⟨(scalarNode "b", sequenceNode [scalarNode "u"]),
        List.mem_cons_of_mem _ (List.mem_cons_self _ _), by decide, by decide⟩,
    ((empty_prefix_all_attributes noPrefixEncoder rfl).2.2 (mappingNode (flat plainEntries))
      plainEntries (startNamed "m") [] rfl (by decide)).1,
    by decide⟩

/-- C12: for every sequence, in particular one of scalar items, and every
separator, `join(separator)` yields exactly one Context, at the place of its
input, holding a string scalar; its value is the texts of the items (the empty
string for a null item, the literal text of every other item) in sequence
order with the separator between consecutive items. -/
theorem join_concatenates (separator : String) (c : Context)
    (hk : c.node.Kind = .SequenceNode) :
    ∃ value, joinOperator separator c =
        .ok [{ documentIndex := c.documentIndex, path := c.path, node := stringScalar value }] ∧
      value.data = List.intercalate separator.data
        (c.node.Content.map fun item => if item.Tag = "!!null" then [] else item.Value.data) := by
  refine ⟨joinStrings separator (c.node.Content.map stringify), ?_, ?_⟩
  · rw [joinOperator, if_pos hk]
  · rw [joinStrings_data, List.map_map]
    congr 1
    apply List.map_congr_left
    intro item _
    exact stringify_data item

/-- Witness of C12: `join("; ")` over `[cat, meow, 1, null, true]` is
`cat; meow; 1; ; true`. -/
theorem join_concatenates_witness :
    joinOperator "; " joinExample =
      .ok [{ documentIndex := 0, path := [], node := stringScalar "cat; meow; 1; ; true" }] ∧
    ∃ value, joinOperator "; " joinExample =
        .ok [{ documentIndex := joinExample.documentIndex, path := joinExample.path,
               node := stringScalar value }] ∧
      value.data = List.intercalate "; ".data
        (joinExample.node.Content.map fun item =>
          if item.Tag = "!!null" then [] else item.Value.data) :=
  ⟨rfl, join_concatenates "; " joinExample rfl⟩

/-- C13: on a string scalar `split(separator)` yields exactly one Context, at the
place of its input, holding a sequence of string scalars.  The empty subject
gives the empty sequence, whatever the separator.  For a subject that is not
empty and a separator the engine accepts: with no occurrence the sequence holds
the whole subject as its one item; in general there is one item more than
there are occurrences, and the items are the substrings between consecutive
occurrences in order, the empty ones included, so that the items with the
matched texts put back between them are the subject. -/
theorem split_pieces (engine : RegexEngine) (separator : String) (c : Context)
    (hs : isStringScalar c.node = true) :
    (c.node.Value = "" →
      splitOperator engine separator c =
        .ok [{ documentIndex := c.documentIndex, path := c.path,
               node := .mk .SequenceNode "!!seq" "" [] }]) ∧
    (∀ ms, c.node.Value ≠ "" → engine.findAll separator c.node.Value = some ms →
      ∃ items, splitOperator engine separator c =
          .ok [{ documentIndex := c.documentIndex, path := c.path,
                 node := .mk .SequenceNode "!!seq" "" items }] ∧
        (∀ item ∈ items, ∃ s, item = stringScalar s) ∧
        (ms = [] → items = [stringScalar c.node.Value]) ∧
        items.length = ms.length + 1 ∧
        items.map (fun item => item.Value.data) = piecesBetween c.node.Value.data 0 ms ∧
        (matchesInOrder c.node.Value.data 0 ms = true →
          rejoin (items.map fun item => item.Value.data) ms = c.node.Value.data)) := by
  constructor
  · intro he
    rw [splitOperator, if_pos hs, if_pos he]
  · intro ms hne hc
    have hm : ((piecesBetween c.node.Value.data 0 ms).map fun p => stringScalar ⟨p⟩).map
        (fun item => item.Value.data) = piecesBetween c.node.Value.data 0 ms := by
      rw [List.map_map]
      exact List.map_id _
    refine ⟨(piecesBetween c.node.Value.data 0 ms).map fun p => stringScalar ⟨p⟩, ?_, ?_, ?_, ?_,
      hm, ?_⟩
    · rw [splitOperator, if_pos hs, if_neg hne, hc]
    · intro item hi
      obtain ⟨p, _, hp⟩ := List.mem_map.1 hi
      exact ⟨⟨p⟩, hp.symm⟩
    · intro he
      rw [he]
      rfl
    · rw [List.length_map, piecesBetween_length]
    · intro ho
      rw [hm, rejoin_piecesBetween _ _ 0 ho]
      rfl

/-- Witness of C13: `split("; ")` over the empty string, over `word` and over
`cat; meow; 1; ; true`, with the engine for patterns without metacharacters. -/
theorem split_pieces_witness :
    splitOperator literalEngine "; " (stringContext "") =
      .ok [{ documentIndex := 0, path := [], node := .mk .SequenceNode "!!seq" "" [] }] ∧
    splitOperator literalEngine "; " (stringContext "word") =
      .ok [{ documentIndex := 0, path := [],
             node := .mk .SequenceNode "!!seq" "" [stringScalar "word"] }] ∧
    splitOperator literalEngine "; " (stringContext "cat; meow; 1; ; true") =
      .ok [{ documentIndex := 0, path := [],
             node := .mk .SequenceNode "!!seq" ""
               [stringScalar "cat", stringScalar "meow", stringScalar "1", stringScalar "",
                 stringScalar "true"] }] ∧
    ∃ items, splitOperator literalEngine "; " (stringContext "cat; meow; 1; ; true") =
        .ok [{ documentIndex := 0, path := [], node := .mk .SequenceNode "!!seq" "" items }] ∧
      items.length = 4 + 1 ∧
      rejoin (items.map fun item => item.Value.data)
        [⟨"; ", 3, 2, []⟩, ⟨"; ", 9, 2, []⟩, ⟨"; ", 12, 2, []⟩, ⟨"; ", 14, 2, []⟩] =
        "cat; meow; 1; ; true".data :=
  ⟨(split_pieces literalEngine "; " (stringContext "") rfl).1 rfl, rfl, rfl,
    (fun ⟨items, h1, _, _, h4, _, h6⟩ => ⟨items, h1, h4, h6 rfl⟩)
      ((split_pieces literalEngine "; " (stringContext "cat; meow; 1; ; true") rfl).2
        [⟨"; ", 3, 2, []⟩, ⟨"; ", 9, 2, []⟩, ⟨"; ", 12, 2, []⟩, ⟨"; ", 14, 2, []⟩]
        (by decide) rfl)⟩

/-- C14: on a string scalar and for a pattern the engine accepts, `test(pattern)`
yields exactly one Context, at the place of its input, holding a boolean
scalar, never an empty stream.  The boolean is true exactly when
`match(pattern)` without the global flag yields a Match Result, and false
exactly when it yields no Context; and when there is no match, `match` yields
no Context and no error, with every choice of flags. -/
theorem test_agrees_with_match (engine : RegexEngine) (pattern : String) (c : Context)
    (ms : List RegexMatch) (hs : isStringScalar c.node = true)
    (hc : engine.findAll pattern c.node.Value = some ms) :
    testOperator engine pattern c =
      .ok [{ documentIndex := c.documentIndex, path := c.path,
             node := boolScalar (!ms.isEmpty) }] ∧
    ((!ms.isEmpty) = true ↔
      ∃ m, matchOperator engine pattern "" c =
        .ok [{ documentIndex := c.documentIndex, path := c.path, node := matchResultNode m }]) ∧
    ((!ms.isEmpty) = false ↔ matchOperator engine pattern "" c = .ok []) ∧
    (ms = [] → ∀ flags, matchOperator engine pattern flags c = .ok []) := by
  have hm := matchOperator_first engine pattern c ms hs hc
  refine ⟨?_, ?_, ?_, ?_⟩
  · rw [testOperator, if_pos hs, hc]
  · cases ms with
    | nil =>
      rw [hm]
      constructor
      · intro h; cases h
      · rintro ⟨m, h⟩
        have := Except.ok.inj h
        cases this
    | cons m tl =>
      rw [hm]
      constructor
      · intro _; exact ⟨m, rfl⟩
      · intro _; rfl
  · cases ms with
    | nil =>
      rw [hm]
      constructor
      · intro _; rfl
      · intro _; rfl
    | cons m tl =>
      rw [hm]
      constructor
      · intro h; cases h
      · intro h
        have := Except.ok.inj h
        cases this
  · intro he flags
    rw [he] at hc
    exact matchOperator_none engine pattern flags c hs hc

/-- Witness of C14: `test("at")` over `cat` is true and over `dog` is false, and
`match("cat")` over `dog` yields nothing with and without `g`. -/
theorem test_agrees_with_match_witness :
    testOperator literalEngine "at" (stringContext "cat") =
      .ok [{ documentIndex := 0, path := [], node := boolScalar true }] ∧
    testOperator literalEngine "at" (stringContext "dog") =
      .ok [{ documentIndex := 0, path := [], node := boolScalar false }] ∧
    matchOperator literalEngine "cat" "g" (stringContext "dog") = .ok [] ∧
    matchOperator literalEngine "cat" "" (stringContext "dog") = .ok [] :=
  ⟨(test_agrees_with_match literalEngine "at" (stringContext "cat") [⟨"at", 1, 2, []⟩] rfl rfl).1,
    (test_agrees_with_match literalEngine "at" (stringContext "dog") [] rfl rfl).1,
    (test_agrees_with_match literalEngine "cat" (stringContext "dog") [] rfl rfl).2.2.2 rfl "g",
    (test_agrees_with_match literalEngine "cat" (stringContext "dog") [] rfl rfl).2.2.2 rfl ""⟩

end Yqlib
